import Mathlib

/-!
# go-event: subscriber lists, unsubscribe handles, the registry and triggering

A shallow embedding of `event.go` and `events.go`.

* The Go heap is explicit: `World.events` is the heap of `*Event` objects, every
  `container/list` keeps its elements in an arena indexed by allocation order, and the
  closures returned by `On` / `SubscribeTo` live in `World.handles`.
* `container/list` is embedded at pointer level (`next`, `prev`, `list` fields), because
  the behaviour of `Trigger` under removal depends on `Element.Next` of a removed element.
* A user callback is a number `f`; what it does when invoked is given by a behaviour table
  `beh f : List Act` (calls back into the package, or a panic).  Every invocation is
  recorded in `World.log` together with the channel and slot it was started from.
* `sync.Mutex` is a boolean; locking a held mutex in this single-threaded embedding is a
  deadlock, reported as `Fault.deadlock`.
* The payload type `TEventData` is never inspected by the package; it is `Nat` here.
* `TriggerAsync` collects one task per subscriber under the lock; the goroutines are then run
  one after the other in an order chosen by a schedule.
-/

namespace GoEvent

/-! ## Values -/

/-- The argument a subscriber list is triggered with: `TEventData` for a plain channel,
`*multiEventData` (`eventName`, `eventData`) for the catch-all channel `Events.all`.  It is
also the argument list of a user callback: `data v` for a `Subscriber`, `multi n v` for a
`MultiSubscriber`. -/
inductive Payload
  | data (eventData : Nat)
  | multi (eventName : String) (eventData : Nat)
  deriving DecidableEq, Repr

/-- The function values stored in a subscriber list.
* `fn f`: the user's `Subscriber` `f`, as passed to `Event.On` / `Events.On`;
* `all m`: the closure built in `Events.Subscribe`,
  `func(data) { subscriber(data.eventName, data.eventData) }`;
* `named m eventName`: the closure built in `Events.SubscribeTo`,
  `func(data) { subscriber(eventName, data) }`. -/
inductive Sub
  | fn (f : Nat)
  | all (m : Nat)
  | named (m : Nat) (eventName : String)
  deriving DecidableEq, Repr

/-! ## container/list -/

/-- A `*Element`: `nil`, the address of the list's sentinel `root`, or the `n`-th element
allocated by this list. -/
inductive Ptr
  | null
  | root
  | elem (n : Nat)
  deriving DecidableEq, Repr

/-- The `list.Element` struct.  `list` is `true` when `e.list` points to the owning list and
`false` when it is `nil`; `Value` is `nil` for the sentinel. -/
structure Element where
  next : Ptr
  prev : Ptr
  list : Bool
  Value : Option Sub
  deriving DecidableEq, Repr

/-- The `list.List` struct (`root`, `len`) together with the elements it has allocated. -/
structure GoList where
  root : Element
  len : Int
  arena : List Element
  deriving DecidableEq, Repr

/-- The zero value of `list.List`. -/
def GoList.zero : GoList :=
  { root := { next := .null, prev := .null, list := false, Value := none }, len := 0, arena := [] }

/-- Dereference a pointer; `none` is a nil dereference. -/
def GoList.get (l : GoList) : Ptr → Option Element
  | .null => none
  | .root => some l.root
  | .elem n => l.arena[n]?

/-- Store through a pointer. -/
def GoList.put (l : GoList) : Ptr → Element → GoList
  | .null, _ => l
  | .root, x => { l with root := x }
  | .elem n, x => { l with arena := l.arena.set n x }

/-- The assignment `p.next = v`. -/
def GoList.setNext (l : GoList) (p v : Ptr) : Option GoList :=
  (l.get p).map fun x => l.put p { x with next := v }

/-- The assignment `p.prev = v`. -/
def GoList.setPrev (l : GoList) (p v : Ptr) : Option GoList :=
  (l.get p).map fun x => l.put p { x with prev := v }

/-- The assignment `p.list = b` (`l` for `true`, `nil` for `false`). -/
def GoList.setList (l : GoList) (p : Ptr) (b : Bool) : Option GoList :=
  (l.get p).map fun x => l.put p { x with list := b }

/-- `List.Init`: `l.root.next = &l.root; l.root.prev = &l.root; l.len = 0`. -/
def GoList.Init (l : GoList) : GoList :=
  { l with root := { l.root with next := .root, prev := .root }, len := 0 }

/-- `List.lazyInit`: `if l.root.next == nil { l.Init() }`. -/
def GoList.lazyInit (l : GoList) : GoList :=
  if l.root.next = .null then l.Init else l

/-- `List.Len`. -/
def GoList.Len (l : GoList) : Int := l.len

/-- `List.Front`: `if l.len == 0 { return nil }; return l.root.next`. -/
def GoList.Front (l : GoList) : Ptr :=
  if l.len = 0 then .null else l.root.next

/-- `List.insert(e, at)`:
`e.prev = at; e.next = at.next; e.prev.next = e; e.next.prev = e; e.list = l; l.len++`. -/
def GoList.insert (l : GoList) (e at_ : Ptr) : Option GoList := do
  let l ← l.setPrev e at_
  let a ← l.get at_
  let l ← l.setNext e a.next
  let x ← l.get e
  let l ← l.setNext x.prev e
  let x ← l.get e
  let l ← l.setPrev x.next e
  let l ← l.setList e true
  pure { l with len := l.len + 1 }

/-- `List.insertValue(v, at)`: `l.insert(&Element{Value: v}, at)`.  Returns the list and
the new element. -/
def GoList.insertValue (l : GoList) (v : Sub) (at_ : Ptr) : Option (GoList × Ptr) :=
  let e := Ptr.elem l.arena.length
  let x : Element := { next := .null, prev := .null, list := false, Value := some v }
  let l : GoList := { l with arena := l.arena ++ [x] }
  (l.insert e at_).map fun l => (l, e)

/-- `List.PushBack(v)`: `l.lazyInit(); return l.insertValue(v, l.root.prev)`. -/
def GoList.PushBack (l : GoList) (v : Sub) : Option (GoList × Ptr) :=
  let l := l.lazyInit
  l.insertValue v l.root.prev

/-- `List.remove(e)`:
`e.prev.next = e.next; e.next.prev = e.prev; e.next = nil; e.prev = nil; e.list = nil; l.len--`. -/
def GoList.remove (l : GoList) (e : Ptr) : Option GoList := do
  let x ← l.get e
  let l ← l.setNext x.prev x.next
  let x ← l.get e
  let l ← l.setPrev x.next x.prev
  let l ← l.setNext e .null
  let l ← l.setPrev e .null
  let l ← l.setList e false
  pure { l with len := l.len - 1 }

/-- `List.Remove(e)`: `if e.list == l { l.remove(e) }; return e.Value` (the returned value is
not used by the package). -/
def GoList.Remove (l : GoList) (e : Ptr) : Option GoList := do
  let x ← l.get e
  if x.list then l.remove e else pure l

/-- `Element.Next`:
`if p := e.next; e.list != nil && p != &e.list.root { return p }; return nil`. -/
def GoList.Next (l : GoList) (e : Ptr) : Option Ptr := do
  let x ← l.get e
  pure (if x.list ∧ x.next ≠ .root then x.next else .null)

/-! ## Event, Events and the heap -/

/-- The `Event` struct. `mtx` is `true` while the mutex is held. -/
structure Event where
  mtx : Bool
  subscribers : GoList
  deriving DecidableEq, Repr

/-- The zero value `Event{}`. -/
def Event.zero : Event := { mtx := false, subscribers := GoList.zero }

/-- The `Events` struct: `list` is `none` for a nil map, otherwise the map from event name to
`*Event` (an index into the heap of events); `all` is embedded by value. -/
structure Events where
  mtx : Bool
  list : Option (List (String × Nat))
  all : Event
  deriving DecidableEq, Repr

/-- The zero value of `Events`. -/
def Events.zero : Events := { mtx := false, list := none, all := Event.zero }

/-- A `*Event`: the address of the registry's `all` field or of an event on the heap. -/
inductive Chan
  | all
  | ev (i : Nat)
  deriving DecidableEq, Repr

/-- The closures of type `Unsubscribe` with their captured variables.
* `single e newSubscription done`: returned by `Event.On`; `done` is the state of its `once`;
* `multi unsubscribes done`: returned by `Events.SubscribeTo` for a non-empty name list. -/
inductive Unsub
  | single (e : Chan) (newSubscription : Ptr) (done : Bool)
  | multi (unsubscribes : List Nat) (done : Bool)
  deriving DecidableEq, Repr

/-- One invocation of a user callback: `fn` was called with `args`, from the subscriber list
of `chan` at element `slot`. -/
structure Call where
  chan : Chan
  slot : Ptr
  fn : Nat
  args : Payload
  deriving DecidableEq, Repr

/-- The program state. -/
structure World where
  events : List Event
  reg : Events
  handles : List Unsub
  log : List Call
  deriving DecidableEq, Repr

/-- A state with no event on the heap and a zero-value registry. -/
def World.zero : World := { events := [], reg := Events.zero, handles := [], log := [] }

/-- What a user callback may do when it is invoked: call an `Unsubscribe` closure, subscribe
to a channel (`On`), trigger a channel (`Event.Trigger`), trigger a name of the registry
(`Events.Trigger`), or panic. -/
inductive Act
  | unsub (h : Nat)
  | on (c : Chan) (f : Nat)
  | trigger (c : Chan) (p : Payload)
  | fault
  | regTrigger (eventName : String) (data : Nat)
  deriving DecidableEq, Repr

/-- Abnormal ends of a call: a Go panic (with the state it left behind), a lock that can
never be acquired, or the embedding running out of fuel. -/
inductive Fault
  | panic (w : World)
  | deadlock (w : World)
  | timeout
  deriving DecidableEq, Repr

/-- Dereference a `*Event`. -/
def World.getEvent (w : World) : Chan → Option Event
  | .all => some w.reg.all
  | .ev i => w.events[i]?

/-- Store through a `*Event`. -/
def World.setEvent (w : World) : Chan → Event → World
  | .all, e => { w with reg := { w.reg with all := e } }
  | .ev i, e => { w with events := w.events.set i e }

/-- `e.mtx.Lock()`. -/
def lock (c : Chan) (w : World) : Except Fault World :=
  match w.getEvent c with
  | none => .error (.panic w)
  | some e => if e.mtx then .error (.deadlock w) else .ok (w.setEvent c { e with mtx := true })

/-- `e.mtx.Unlock()`. -/
def unlock (c : Chan) (w : World) : Except Fault World :=
  match w.getEvent c with
  | none => .error (.panic w)
  | some e => if e.mtx then .ok (w.setEvent c { e with mtx := false }) else .error (.panic w)

/-- Run a `container/list` operation on the subscriber list of `c`. -/
def onList (c : Chan) (w : World) (op : GoList → Option (GoList × α)) : Except Fault (α × World) :=
  match w.getEvent c with
  | none => .error (.panic w)
  | some e =>
    match op e.subscribers with
    | none => .error (.panic w)
    | some (l, a) => .ok (a, w.setEvent c { e with subscribers := l })

/-- `Event.On`: lock, `PushBack`, unlock, and return a fresh `Unsubscribe` closure (its index
in `World.handles`). -/
def Event.On (c : Chan) (subscriber : Sub) (w : World) : Except Fault (Nat × World) := do
  let w ← lock c w
  let (newSubscription, w) ← onList c w fun l => l.PushBack subscriber
  let w ← unlock c w
  pure (w.handles.length, { w with handles := w.handles ++ [.single c newSubscription false] })

/-- The body of the closure returned by `Event.On`, for the closure stored at `h`:
`once.Do(func() { lock; e.subscribers.Remove(newSubscription); newSubscription = nil; unlock })`. -/
def callSingle (h : Nat) (w : World) : Except Fault World :=
  match w.handles[h]? with
  | some (.single e newSubscription done) =>
    if done then pure w
    else do
      let w ← lock e w
      let (_, w) ← onList e w fun l => (l.Remove newSubscription).map fun l => (l, ())
      let w ← unlock e w
      pure { w with handles := w.handles.set h (.single e .null true) }
  | _ => .error (.panic w)

/-- The loop `for _, unsubscribe := range unsubscribes { unsubscribe() }`. -/
def callEach : List Nat → World → Except Fault World
  | [], w => pure w
  | u :: us, w => do
    let w ← callSingle u w
    callEach us w

/-- Call the `Unsubscribe` closure stored at `h`. -/
def callUnsub (h : Nat) (w : World) : Except Fault World :=
  match w.handles[h]? with
  | some (.single _ _ _) => callSingle h w
  | some (.multi unsubscribes done) =>
    if done then pure w
    else do
      let w ← callEach unsubscribes w
      pure { w with handles := w.handles.set h (.multi unsubscribes true) }
  | none => .error (.panic w)

/-- `c.mtx.Lock()` on the registry. -/
def regLock (w : World) : Except Fault World :=
  if w.reg.mtx then .error (.deadlock w) else .ok { w with reg := { w.reg with mtx := true } }

/-- `c.mtx.Unlock()` on the registry. -/
def regUnlock (w : World) : Except Fault World :=
  if w.reg.mtx then .ok { w with reg := { w.reg with mtx := false } } else .error (.panic w)

/-- `Events.lazyInit`: `if nil == c.list { c.list = make(map[string]*Event) }`. -/
def Events.lazyInit (w : World) : World :=
  match w.reg.list with
  | none => { w with reg := { w.reg with list := some [] } }
  | some _ => w

/-- The map read `c.list[eventName]` (a read of a nil map finds nothing). -/
def Events.lookup (w : World) (eventName : String) : Option Nat :=
  w.reg.list.bind fun m => m.lookup eventName

/-- The body of `Events.Trigger`, `trig` being `Event.Trigger`: under the registry mutex
`lazyInit` and the map read `event, ok := c.list[eventName]`; after `c.mtx.Unlock()`,
`if ok { event.Trigger(data) }` and then `c.all.Trigger(&multiEventData{eventName, data})`. -/
def Events.triggerWith (trig : Chan → Payload → World → Except Fault World)
    (eventName : String) (data : Nat) (w : World) : Except Fault World := do
  let w ← regLock w
  let w := Events.lazyInit w
  let event := Events.lookup w eventName
  let w ← regUnlock w
  let w ← match event with
    | some i => trig (.ev i) (.data data) w
    | none => pure w
  trig .all (.multi eventName data) w

/-- Run the body of a user callback; `trig` is `Event.Trigger`. -/
def runActs (trig : Chan → Payload → World → Except Fault World) :
    List Act → World → Except Fault World
  | [], w => pure w
  | .unsub h :: as, w => do
    let w ← callUnsub h w
    runActs trig as w
  | .on c f :: as, w => do
    let (_, w) ← Event.On c (.fn f) w
    runActs trig as w
  | .trigger c p :: as, w => do
    let w ← trig c p w
    runActs trig as w
  | .fault :: _, w => .error (.panic w)
  | .regTrigger eventName data :: as, w => do
    let w ← Events.triggerWith trig eventName data w
    runActs trig as w

/-- Record the call `fn(args)` and run the callback's body. -/
def callUser (beh : Nat → List Act) (trig : Chan → Payload → World → Except Fault World)
    (c : Chan) (slot : Ptr) (fn : Nat) (args : Payload) (w : World) : Except Fault World :=
  runActs trig (beh fn) { w with log := w.log ++ [⟨c, slot, fn, args⟩] }

/-- The call `i.Value.(Subscriber[TEventData])(eventData)` for the stored function value `s`. -/
def callSub (beh : Nat → List Act) (trig : Chan → Payload → World → Except Fault World)
    (c : Chan) (slot : Ptr) (s : Sub) (eventData : Payload) (w : World) : Except Fault World :=
  match s, eventData with
  | .fn f, p => callUser beh trig c slot f p w
  | .all m, .multi eventName data => callUser beh trig c slot m (.multi eventName data) w
  | .named m eventName, .data data => callUser beh trig c slot m (.multi eventName data) w
  | _, _ => .error (.panic w)

/-- The loop of `Event.Trigger`, entered at the test `i != nil` with the mutex held:
`for ...; i != nil; i = i.Next() { unlock; i.Value(eventData); lock }` then `unlock`.
One unit of fuel is spent per test; a nested `Trigger` runs on the remaining fuel. -/
def triggerLoop (beh : Nat → List Act) : Nat → Chan → Ptr → Payload → World → Except Fault World
  | 0, _, _, _, _ => .error .timeout
  | fuel + 1, c, i, eventData, w =>
    if i = .null then unlock c w
    else do
      let w ← unlock c w
      let (s, w) ← onList c w fun l => ((l.get i).bind (·.Value)).map fun s => (l, s)
      let w ← callSub beh
        (fun c' p' w' => do
          let w' ← lock c' w'
          let (i', w') ← onList c' w' fun l => some (l, l.Front)
          triggerLoop beh fuel c' i' p' w')
        c i s eventData w
      let w ← lock c w
      let (i, w) ← onList c w fun l => (l.Next i).map fun n => (l, n)
      triggerLoop beh fuel c i eventData w

/-- `Event.Trigger`. -/
def Event.Trigger (beh : Nat → List Act) (fuel : Nat) (c : Chan) (eventData : Payload) (w : World) :
    Except Fault World := do
  let w ← lock c w
  let (i, w) ← onList c w fun l => some (l, l.Front)
  triggerLoop beh fuel c i eventData w

/-! ## The registry `Events` -/

/-- `Events.getSubscribers`: return the event stored for `eventName`; when there is none,
allocate `&Event{}` and store it in the map (a store into a nil map panics). -/
def Events.getSubscribers (eventName : String) (w : World) : Except Fault (Nat × World) :=
  match Events.lookup w eventName with
  | some eventSubscribers => pure (eventSubscribers, w)
  | none =>
    let eventSubscribers := w.events.length
    let w : World := { w with events := w.events ++ [Event.zero] }
    match w.reg.list with
    | none => .error (.panic w)
    | some m => pure (eventSubscribers, { w with reg := { w.reg with list := some ((eventName, eventSubscribers) :: m) } })

/-- `Events.On`. -/
def Events.On (eventName : String) (subscriber : Nat) (w : World) : Except Fault (Nat × World) := do
  let w ← regLock w
  let w := Events.lazyInit w
  let (eventSubscribers, w) ← Events.getSubscribers eventName w
  let w ← regUnlock w
  Event.On (.ev eventSubscribers) (.fn subscriber) w

/-- `Events.Subscribe`: `c.all.On` is called while the registry mutex is held. -/
def Events.Subscribe (subscriber : Nat) (w : World) : Except Fault (Nat × World) := do
  let w ← regLock w
  let w := Events.lazyInit w
  let (unsubscribe, w) ← Event.On .all (.all subscriber) w
  let w ← regUnlock w
  pure (unsubscribe, w)

/-- The loop of `Events.SubscribeTo`:
`unsubscribes[i] = c.getSubscribers(eventName).On(func(data) { subscriber(eventName, data) })`. -/
def subscribeEach (subscriber : Nat) : List String → World → Except Fault (List Nat × World)
  | [], w => pure ([], w)
  | eventName :: rest, w => do
    let (eventSubscribers, w) ← Events.getSubscribers eventName w
    let (u, w) ← Event.On (.ev eventSubscribers) (.named subscriber eventName) w
    let (us, w) ← subscribeEach subscriber rest w
    pure (u :: us, w)

/-- `Events.SubscribeTo`. -/
def Events.SubscribeTo (subscriber : Nat) (eventNames : List String) (w : World) :
    Except Fault (Nat × World) :=
  if eventNames.length = 0 then Events.Subscribe subscriber w
  else do
    let w ← regLock w
    let w := Events.lazyInit w
    let (unsubscribes, w) ← subscribeEach subscriber eventNames w
    let w ← regUnlock w
    pure (w.handles.length, { w with handles := w.handles ++ [.multi unsubscribes false] })

/-- `Events.Trigger`. -/
def Events.Trigger (beh : Nat → List Act) (fuel : Nat) (eventName : String) (data : Nat) (w : World) :
    Except Fault World :=
  Events.triggerWith (Event.Trigger beh fuel) eventName data w

/-! ## Asynchronous triggering

`triggerAsync` launches one goroutine per element and `TriggerAsync` waits for them on a
`sync.WaitGroup`.  A launched goroutine is a `Task`; the wait group is its counter.  The
goroutines are run one after the other, in the order a schedule `sched` puts them in: the
interleavings of goroutines whose callbacks run to completion one at a time.  The schedule
lists the goroutines that get to run: all of the launched ones when every goroutine returns,
and, when one panics, those that run before the program ends. -/

/-- A goroutine `go func(subscriber) { subscriber(eventData); wg.Done() }(i.Value)` launched
from element `slot` of the list of `chan`. -/
structure Task where
  chan : Chan
  slot : Ptr
  subscriber : Sub
  eventData : Payload
  deriving DecidableEq, Repr

/-- The loop of `triggerAsync`, run with the mutex held:
`for i := Front(); i != nil; i = i.Next() { go func(subscriber) {...}(i.Value) }`. -/
def asyncLoop : Nat → Chan → Ptr → Payload → World → Except Fault (List Task × World)
  | 0, _, _, _, _ => .error .timeout
  | fuel + 1, c, i, eventData, w =>
    if i = .null then pure ([], w)
    else do
      let (s, w) ← onList c w fun l => ((l.get i).bind (·.Value)).map fun s => (l, s)
      let (i', w) ← onList c w fun l => (l.Next i).map fun n => (l, n)
      let (ts, w) ← asyncLoop fuel c i' eventData w
      pure (⟨c, i, s, eventData⟩ :: ts, w)

/-- `Event.triggerAsync(wg, eventData)`: `wg.Add(e.subscribers.Len())` (read before the lock
is taken), then the loop under the lock.  Returns the new counter and the goroutines launched. -/
def Event.triggerAsync (fuel : Nat) (c : Chan) (eventData : Payload) (wg : Int) (w : World) :
    Except Fault (Int × List Task × World) := do
  let (n, w) ← onList c w fun l => some (l, l.Len)
  let wg := wg + n
  let w ← lock c w
  let (i, w) ← onList c w fun l => some (l, l.Front)
  let (ts, w) ← asyncLoop fuel c i eventData w
  let w ← unlock c w
  pure (wg, ts, w)

/-- The body of a goroutine: `subscriber(eventData); wg.Done()`.  A panic of the subscriber
is not recovered anywhere: the goroutine ends in it before `wg.Done()`. -/
def runTask (beh : Nat → List Act) (fuel : Nat) (t : Task) (wg : Int) (w : World) :
    Except Fault (Int × World) := do
  let w ← callSub beh (Event.Trigger beh fuel) t.chan t.slot t.subscriber t.eventData w
  pure (wg - 1, w)

/-- The goroutines of the list run in the given order.  All of them have been started by
`triggerAsync`: when one of them ends in a panic the program is bound to end with a panic,
and the goroutines behind it in the list still run before it does; the counter is not
decremented by the goroutine that panicked. -/
def runTasks (beh : Nat → List Act) (fuel : Nat) : List Task → Int → World →
    Except Fault (Int × World)
  | [], wg, w => pure (wg, w)
  | t :: ts, wg, w =>
    match runTask beh fuel t wg w with
    | .ok (wg, w) => runTasks beh fuel ts wg w
    | .error (.panic w1) =>
      match runTasks beh fuel ts wg w1 with
      | .ok (_, w2) => .error (.panic w2)
      | .error e => .error e
    | .error e => .error e

/-- `wg.Wait()` once every goroutine has run: it returns when the counter is zero and never
returns when the counter stays above zero (the counter cannot fall below zero here: `Done` is
called once per launched goroutine at most). -/
def wgWait (wg : Int) (w : World) : Except Fault World :=
  if wg = 0 then pure w else .error (.deadlock w)

/-- `Event.TriggerAsync`. -/
def Event.TriggerAsync (beh : Nat → List Act) (fuel : Nat) (sched : List Task → List Task)
    (c : Chan) (eventData : Payload) (w : World) : Except Fault World := do
  let (wg, ts, w) ← Event.triggerAsync fuel c eventData 0 w
  let (wg, w) ← runTasks beh fuel (sched ts) wg w
  wgWait wg w

/-- `Events.TriggerAsync`. -/
def Events.TriggerAsync (beh : Nat → List Act) (fuel : Nat) (sched : List Task → List Task)
    (eventName : String) (data : Nat) (w : World) : Except Fault World := do
  let w ← regLock w
  let w := Events.lazyInit w
  let eventSubscribers := Events.lookup w eventName
  let w ← regUnlock w
  let (wg, ts1, w) ← match eventSubscribers with
    | some i => Event.triggerAsync fuel (.ev i) (.data data) 0 w
    | none => pure (0, [], w)
  let (wg, ts2, w) ← Event.triggerAsync fuel .all (.multi eventName data) wg w
  let (wg, w) ← runTasks beh fuel (sched (ts1 ++ ts2)) wg w
  wgWait wg w

/-! ## Sequences of calls -/

/-- A call made by a client of the package. -/
inductive Op
  | on (eventName : String) (f : Nat)
  | subscribe (f : Nat)
  | subscribeTo (f : Nat) (eventNames : List String)
  | trigger (eventName : String) (data : Nat)
  | triggerAsync (eventName : String) (data : Nat)
  | unsub (h : Nat)
  deriving DecidableEq, Repr

/-- Make one call. -/
def Op.run (beh : Nat → List Act) (fuel : Nat) (sched : List Task → List Task) :
    Op → World → Except Fault World
  | .on eventName f, w => do
    let (_, w) ← Events.On eventName f w
    pure w
  | .subscribe f, w => do
    let (_, w) ← Events.Subscribe f w
    pure w
  | .subscribeTo f eventNames, w => do
    let (_, w) ← Events.SubscribeTo f eventNames w
    pure w
  | .trigger eventName data, w => Events.Trigger beh fuel eventName data w
  | .triggerAsync eventName data, w => Events.TriggerAsync beh fuel sched eventName data w
  | .unsub h, w => callUnsub h w

/-- Make the calls of a list one after the other. -/
def runOps (beh : Nat → List Act) (fuel : Nat) (sched : List Task → List Task) :
    List Op → World → Except Fault World
  | [], w => pure w
  | op :: ops, w => do
    let w ← op.run beh fuel sched w
    runOps beh fuel sched ops w

/-! ## The shape of a well-formed `container/list` -/

/-- The `next` field behind a pointer. -/
def GoList.nx (l : GoList) (p : Ptr) : Option Ptr := (l.get p).map (·.next)

/-- The `prev` field behind a pointer. -/
def GoList.pv (l : GoList) (p : Ptr) : Option Ptr := (l.get p).map (·.prev)

/-- The `next` pointers lead from `a` through the elements `ps` to `b`. -/
def Fwd (l : GoList) : Ptr → List Nat → Ptr → Prop
  | a, [], b => l.nx a = some b
  | a, p :: ps, b => l.nx a = some (.elem p) ∧ Fwd l (.elem p) ps b

/-- The `prev` pointers lead from `b` back through the elements `ps` to `a`. -/
def Bwd (l : GoList) : Ptr → List Nat → Ptr → Prop
  | a, [], b => l.pv b = some a
  | a, p :: ps, b => l.pv (.elem p) = some a ∧ Bwd l (.elem p) ps b

/-- The list `l` holds exactly the elements `ps`, in this order: the ring through the
sentinel is linked both ways, `len` is their number, and an allocated element has its
`list` field set exactly when it is one of them.  The ring is read after `lazyInit`, so the
zero value is the empty list. -/
structure Repr (l : GoList) (ps : List Nat) : Prop where
  nodup : ps.Nodup
  fwd : Fwd l.lazyInit .root ps .root
  bwd : Bwd l.lazyInit .root ps .root
  len : l.len = ps.length
  mem : ∀ (k : Nat) (x : Element), l.arena[k]? = some x → (x.list = true ↔ k ∈ ps)
  val : ∀ (k : Nat) (x : Element), l.arena[k]? = some x → ∃ s, x.Value = some s

/-- The function value stored in element `k`. -/
def GoList.valueAt (l : GoList) (k : Nat) : Option Sub := (l.arena[k]?).bind (·.Value)

/-! ## Chains, expected calls -/

/-- The last node of the chain `a, ps`. -/
def lastP : Ptr → List Nat → Ptr
  | a, [] => a
  | _, p :: ps => lastP (.elem p) ps

/-- The first node of the chain `ps, b`. -/
def headP : List Nat → Ptr → Ptr
  | [], b => b
  | p :: _, _ => .elem p


/-- The user callback and the arguments that the stored function value `s` calls when it is
invoked with `eventData` (`none`: the Go type system excludes the combination). -/
def Sub.target : Sub → Payload → Option (Nat × Payload)
  | .fn f, p => some (f, p)
  | .all m, .multi eventName data => some (m, .multi eventName data)
  | .named m eventName, .data data => some (m, .multi eventName data)
  | _, _ => none

/-- The invocation made from slot `n` of the list `l` of channel `c` for `eventData`. -/
def callOf (c : Chan) (l : GoList) (eventData : Payload) (n : Nat) : Option Call :=
  (l.valueAt n).bind fun s => (s.target eventData).map fun t => ⟨c, .elem n, t.1, t.2⟩

/-- The invocations made from the slots `ps`, in order. -/
def callsOf (c : Chan) (l : GoList) (eventData : Payload) (ps : List Nat) : List Call :=
  ps.filterMap (callOf c l eventData)

/-- Every slot of `ps` holds a function value that fits `eventData` and whose user callback
does nothing but return. -/
def Passive (beh : Nat → List Act) (l : GoList) (eventData : Payload) (ps : List Nat) : Prop :=
  ∀ n ∈ ps, ∃ s t, l.valueAt n = some s ∧ s.target eventData = some t ∧ beh t.1 = []

/-- The callback `f` does nothing but call `Unsubscribe` closures of `Event.On` whose `once`
has already fired in the closure table `hs`. -/
def Quiet (beh : Nat → List Act) (hs : List Unsub) (f : Nat) : Prop :=
  ∀ a ∈ beh f, ∃ h c p, a = Act.unsub h ∧ hs[h]? = some (Unsub.single c p true)

/-- Every slot of `ps` holds a function value that fits `eventData` and whose user callback
is `Quiet` for the closure table `hs`. -/
def Calm (beh : Nat → List Act) (hs : List Unsub) (l : GoList) (eventData : Payload)
    (ps : List Nat) : Prop :=
  ∀ n ∈ ps, ∃ s t, l.valueAt n = some s ∧ s.target eventData = some t ∧ Quiet beh hs t.1

/-- The calls `c.On(f1); ...; c.On(fn)` in a row, returning the closures in order. -/
def onAll (c : Chan) : List Nat → World → Except Fault (List Nat × World)
  | [], w => pure ([], w)
  | f :: fs, w => do
    let (h, w) ← Event.On c (.fn f) w
    let (hs, w) ← onAll c fs w
    pure (h :: hs, w)

/-- The invocations `f1(args), ..., fn(args)` made from the consecutive slots
`start, start + 1, ...` of channel `c`. -/
def callsFrom (c : Chan) (args : Payload) : Nat → List Nat → List Call
  | _, [] => []
  | start, f :: fs => ⟨c, .elem start, f, args⟩ :: callsFrom c args (start + 1) fs

/-- The subscriber list of the channel of `eventName`; the zero-value list when the registry
has no channel of that name yet (the list `getSubscribers` would allocate). -/
def Events.subs (w : World) (eventName : String) : GoList :=
  match Events.lookup w eventName with
  | some i =>
    match w.events[i]? with
    | some e => e.subscribers
    | none => GoList.zero
  | none => GoList.zero

/-- The `*Event` stored for `eventName` (only meaningful when there is one). -/
def Events.chan (w : World) (eventName : String) : Chan :=
  .ev ((Events.lookup w eventName).getD 0)

/-- The registry and the heap of events fit together: the map sends different names to
different allocated events, and every event on the heap is unlocked and holds a well-formed
list. -/
structure WF (w : World) : Prop where
  map_lt : ∀ (m : List (String × Nat)), w.reg.list = some m → ∀ p ∈ m, p.2 < w.events.length
  map_nodup : ∀ (m : List (String × Nat)), w.reg.list = some m → (m.map Prod.snd).Nodup
  ev : ∀ (i : Nat) (e : Event), w.events[i]? = some e →
    e.mtx = false ∧ ∃ ps, Repr e.subscribers ps

/-- The slots filled by the loop of `SubscribeTo`: for each name in turn the next free slot
of the list of that name, `a n` being the number of elements the list of `n` has allocated
before the loop. -/
def targets (a : String → Nat) : List String → List (String × Nat)
  | [] => []
  | n :: ns => (n, a n) :: targets (fun k => if k = n then a n + 1 else a k) ns

/-- The slots a call `SubscribeTo(f, ns...)` made in the state `w` fills, each with the name
of its channel. -/
def Events.slotsOf (w : World) (ns : List String) : List (String × Nat) :=
  targets (fun n => (Events.subs w n).arena.length) ns

/-- The state `w1` has the registry map and the registry mutex of `w`. -/
def SameMap (w w1 : World) : Prop :=
  w1.reg.list = w.reg.list ∧ w1.reg.mtx = w.reg.mtx

/-- The state `w1` maps every name as `w` does and has the registry mutex of `w`. -/
def SameNames (w w1 : World) : Prop :=
  (∀ n : String, Events.lookup w1 n = Events.lookup w n) ∧ w1.reg.mtx = w.reg.mtx

/-- Every name that has a channel in `w` has the very same channel in `w1`. -/
def MapGrows (w w1 : World) : Prop :=
  ∀ (n : String) (i : Nat), Events.lookup w n = some i → Events.lookup w1 n = some i

/-- The goroutines launched by `triggerAsync` from the slots `ps`, in launch order. -/
def tasksOf (c : Chan) (l : GoList) (eventData : Payload) (ps : List Nat) : List Task :=
  ps.filterMap fun n => (l.valueAt n).map fun s => ⟨c, .elem n, s, eventData⟩

/-- The invocation a goroutine makes. -/
def Task.call (t : Task) : Option Call :=
  (t.subscriber.target t.eventData).map fun x => ⟨t.chan, t.slot, x.1, x.2⟩

/-- A registry at rest: it is well formed, no mutex is held and the catch-all list is well
formed. -/
structure Good (w : World) : Prop where
  wf : WF w
  mtx : w.reg.mtx = false
  all_mtx : w.reg.all.mtx = false
  all_repr : ∃ qs, Repr w.reg.all.subscribers qs

/-- The calls that subscribe. -/
def Op.subscribes : Op → Bool
  | .on _ _ => true
  | .subscribe _ => true
  | .subscribeTo _ _ => true
  | _ => false

/-- No channel mutex is held. -/
def Free (w : World) : Prop :=
  ∀ (c : Chan) (e : Event), w.getEvent c = some e → e.mtx = false

/-- No mutex is held: no channel mutex and not the registry mutex. -/
def Idle (w : World) : Prop := Free w ∧ w.reg.mtx = false

/-- The mutex of channel `c` is held and no other channel mutex is. -/
def FreeBut (c : Chan) (w : World) : Prop :=
  (∃ e, w.getEvent c = some e ∧ e.mtx = true) ∧
  ∀ (c' : Chan) (e : Event), c' ≠ c → w.getEvent c' = some e → e.mtx = false

/-- The states `w` and `w1` have the same channels with the same mutex states. -/
def MtxEq (w w1 : World) : Prop :=
  ∀ c : Chan, (w1.getEvent c).map (·.mtx) = (w.getEvent c).map (·.mtx)

/-- The call with outcome `r` does not end waiting for a mutex that is held, and what it
returns satisfies `Q`. -/
def Step {α : Type} (r : Except Fault α) (Q : α → Prop) : Prop :=
  (∀ w, r ≠ .error (.deadlock w)) ∧ ∀ a, r = .ok a → Q a

/-- The call `h()` made `n` times in a row. -/
def callTimes (h : Nat) : Nat → World → Except Fault World
  | 0, w => pure w
  | n + 1, w => do
    let w ← callUnsub h w
    callTimes h n w

/-! ## Sample states -/

/-- A state with one zero-value `Event` on the heap, at `Chan.ev 0`. -/
def World.one : World := { World.zero with events := [Event.zero] }

/-- The state after `On(1); On(2); On(3)` on the event of `World.one`. -/
def sample3 : World :=
  match onAll (.ev 0) [1, 2, 3] World.one with
  | .ok (_, w) => w
  | .error _ => World.zero

/-- The subscriber list of the event of `sample3`. -/
def sample3List : GoList :=
  match sample3.getEvent (.ev 0) with
  | some e => e.subscribers
  | none => GoList.zero

/-- The state an operation returns (the state itself when it does not return). -/
def after (w : World) (r : Except Fault (α × World)) : World :=
  match r with
  | .ok (_, w1) => w1
  | .error _ => w

/-- The registry after `On("a", 1)` on the zero value. -/
def sampleReg1 : World := after World.zero (Events.On "a" 1 World.zero)

/-- The registry after `On("a", 1); On("b", 2)`. -/
def sampleReg2 : World := after sampleReg1 (Events.On "b" 2 sampleReg1)

/-- The registry after `On("a", 1); On("b", 2); Subscribe(3)`. -/
def sampleReg : World := after sampleReg2 (Events.Subscribe 3 sampleReg2)

/-! ## container/list: the operations keep the shape -/


theorem GoList.get_put (l : GoList) (p q : Ptr) (y : Element) :
    (l.put p y).get q = if q = p ∧ (l.get p).isSome then some y else l.get q := by
  cases p <;> cases q <;> simp [GoList.get, GoList.put, List.getElem?_set]
  rename_i n m
  by_cases h : n = m
  · subst h
    by_cases h2 : n < l.arena.length
    · simp [h2]
    · have h3 : l.arena[n]? = none := List.getElem?_eq_none (by omega)
      simp [h2, h3]
  · simp [h, Ne.symm h]

theorem GoList.put_arena_length (l : GoList) (p : Ptr) (y : Element) :
    (l.put p y).arena.length = l.arena.length := by
  cases p <;> simp [GoList.put]

theorem GoList.put_len (l : GoList) (p : Ptr) (y : Element) : (l.put p y).len = l.len := by
  cases p <;> simp [GoList.put]

theorem GoList.setNext_eq {l : GoList} {p : Ptr} {x : Element} (h : l.get p = some x) (v : Ptr) :
    l.setNext p v = some (l.put p { x with next := v }) := by simp [GoList.setNext, h]

theorem GoList.setPrev_eq {l : GoList} {p : Ptr} {x : Element} (h : l.get p = some x) (v : Ptr) :
    l.setPrev p v = some (l.put p { x with prev := v }) := by simp [GoList.setPrev, h]

theorem GoList.setList_eq {l : GoList} {p : Ptr} {x : Element} (h : l.get p = some x) (b : Bool) :
    l.setList p b = some (l.put p { x with list := b }) := by simp [GoList.setList, h]

theorem GoList.get_put_of {l : GoList} {p : Ptr} {x : Element} (h : l.get p = some x) (y : Element)
    (q : Ptr) : (l.put p y).get q = if q = p then some y else l.get q := by
  rw [GoList.get_put]; simp [h]

theorem GoList.remove_spec (l : GoList) (n : Nat) (x xa xb : Element)
    (he : l.get (.elem n) = some x) (ha : l.get x.prev = some xa) (hb : l.get x.next = some xb)
    (hna : x.prev ≠ .elem n) (hnb : x.next ≠ .elem n) :
    ∃ r, l.remove (.elem n) = some r ∧ r.len = l.len - 1 ∧ r.arena.length = l.arena.length ∧
      ∀ q, r.get q =
        if q = .elem n then some { x with next := .null, prev := .null, list := false }
        else if q = x.next then
          some { (if x.next = x.prev then { xa with next := x.next } else xb) with prev := x.prev }
        else if q = x.prev then some { xa with next := x.next }
        else l.get q := by
  have hna' : Ptr.elem n ≠ x.prev := Ne.symm hna
  have hnb' : Ptr.elem n ≠ x.next := Ne.symm hnb
  have h1 := GoList.setNext_eq ha x.next
  have g1 := GoList.get_put_of ha { xa with next := x.next }
  have k1 := GoList.put_len l x.prev { xa with next := x.next }
  have a1 := GoList.put_arena_length l x.prev { xa with next := x.next }
  generalize l.put x.prev { xa with next := x.next } = l1 at h1 g1 k1 a1
  have he1 : l1.get (.elem n) = some x := by rw [g1]; simp [hna', he]
  have hb1 : l1.get x.next = some (if x.next = x.prev then { xa with next := x.next } else xb) := by
    rw [g1]; by_cases h : x.next = x.prev <;> simp [h, hb]
  have h2 := GoList.setPrev_eq hb1 x.prev
  have g2 := GoList.get_put_of hb1
    { (if x.next = x.prev then { xa with next := x.next } else xb) with prev := x.prev }
  have k2 := GoList.put_len l1 x.next
    { (if x.next = x.prev then { xa with next := x.next } else xb) with prev := x.prev }
  have a2 := GoList.put_arena_length l1 x.next
    { (if x.next = x.prev then { xa with next := x.next } else xb) with prev := x.prev }
  generalize l1.put x.next _ = l2 at h2 g2 k2 a2
  have he2 : l2.get (.elem n) = some x := by rw [g2]; simp [hnb', he1]
  have h3 := GoList.setNext_eq he2 .null
  have g3 := GoList.get_put_of he2 { x with next := .null }
  have k3 := GoList.put_len l2 (.elem n) { x with next := .null }
  have a3 := GoList.put_arena_length l2 (.elem n) { x with next := .null }
  generalize l2.put (.elem n) _ = l3 at h3 g3 k3 a3
  have he3 : l3.get (.elem n) = some { x with next := .null } := by rw [g3]; simp
  have h4 := GoList.setPrev_eq he3 .null
  have g4 := GoList.get_put_of he3 { x with next := .null, prev := .null }
  have k4 := GoList.put_len l3 (.elem n) { x with next := .null, prev := .null }
  have a4 := GoList.put_arena_length l3 (.elem n) { x with next := .null, prev := .null }
  generalize l3.put (.elem n) _ = l4 at h4 g4 k4 a4
  have he4 : l4.get (.elem n) = some { x with next := .null, prev := .null } := by rw [g4]; simp
  have h5 := GoList.setList_eq he4 false
  have g5 := GoList.get_put_of he4 { x with next := .null, prev := .null, list := false }
  have k5 := GoList.put_len l4 (.elem n) { x with next := .null, prev := .null, list := false }
  have a5 := GoList.put_arena_length l4 (.elem n) { x with next := .null, prev := .null, list := false }
  generalize l4.put (.elem n) _ = l5 at h5 g5 k5 a5
  refine ⟨{ l5 with len := l5.len - 1 }, ?_, ?_, ?_, ?_⟩
  · simp [GoList.remove, he, h1, he1, h2, h3, h4, h5]
  · simp [k5, k4, k3, k2, k1]
  · simp [a5, a4, a3, a2, a1]
  · intro q
    have : ({ l5 with len := l5.len - 1 } : GoList).get q = l5.get q := by cases q <;> rfl
    rw [this, g5, g4, g3, g2, g1]
    by_cases hq : q = .elem n
    · simp [hq]
    · by_cases hq2 : q = x.next
      · simp [hq2, hnb]
      · simp [hq, hq2]

theorem GoList.get_alloc (l : GoList) (y : Element) (q : Ptr) :
    ({ l with arena := l.arena ++ [y] } : GoList).get q =
      if q = .elem l.arena.length then some y else l.get q := by
  cases q with
  | null => simp [GoList.get]
  | root => simp [GoList.get]
  | elem m =>
    simp only [GoList.get, List.getElem?_append]
    by_cases h : m < l.arena.length
    · have : m ≠ l.arena.length := by omega
      simp [h, this]
    · by_cases h2 : m = l.arena.length
      · subst h2; simp
      · have h3 : l.arena[m]? = none := List.getElem?_eq_none (by omega)
        have h4 : ([y] : List Element)[m - l.arena.length]? = none :=
          List.getElem?_eq_none (by simp; omega)
        simp [h, h2, h3, h4]

theorem GoList.get_fresh (l : GoList) : l.get (.elem l.arena.length) = none := by
  simp [GoList.get]

theorem GoList.insertValue_spec (l : GoList) (v : Sub) (at_ : Ptr) (xa xb : Element)
    (ha : l.get at_ = some xa) (hb : l.get xa.next = some xb) :
    ∃ r, l.insertValue v at_ = some (r, .elem l.arena.length) ∧ r.len = l.len + 1 ∧
      r.arena.length = l.arena.length + 1 ∧
      ∀ q, r.get q =
        if q = .elem l.arena.length then
          some { next := xa.next, prev := at_, list := true, Value := some v }
        else if q = xa.next then
          some { (if xa.next = at_ then { xa with next := .elem l.arena.length } else xb) with
                  prev := .elem l.arena.length }
        else if q = at_ then some { xa with next := .elem l.arena.length }
        else l.get q := by
  have hfresh := l.get_fresh
  have hna : at_ ≠ .elem l.arena.length := by
    intro h; rw [h, hfresh] at ha; exact absurd ha (by simp)
  have hnb : xa.next ≠ .elem l.arena.length := by
    intro h; rw [h, hfresh] at hb; exact absurd hb (by simp)
  have hna' := Ne.symm hna
  have hnb' := Ne.symm hnb
  have g0 := l.get_alloc { next := .null, prev := .null, list := false, Value := some v }
  have a0 : ({ l with arena := l.arena ++
      [{ next := .null, prev := .null, list := false, Value := some v }] } : GoList).arena.length
      = l.arena.length + 1 := by simp
  have k0 : ({ l with arena := l.arena ++
      [{ next := .null, prev := .null, list := false, Value := some v }] } : GoList).len
      = l.len := rfl
  simp only [GoList.insertValue]
  generalize ({ l with arena := l.arena ++
      [{ next := .null, prev := .null, list := false, Value := some v }] } : GoList) = l0
      at g0 a0 k0
  generalize he : Ptr.elem l.arena.length = e at *
  have he0 : l0.get e = some { next := .null, prev := .null, list := false, Value := some v } := by
    rw [g0]; simp
  have h1 := GoList.setPrev_eq he0 at_
  have g1 := GoList.get_put_of he0 { next := .null, prev := at_, list := false, Value := some v }
  have k1 := GoList.put_len l0 e { next := .null, prev := at_, list := false, Value := some v }
  have a1 := GoList.put_arena_length l0 e { next := .null, prev := at_, list := false, Value := some v }
  simp only [] at h1
  generalize l0.put e _ = l1 at h1 g1 k1 a1
  have ha1 : l1.get at_ = some xa := by rw [g1, g0]; simp [hna, ha]
  have he1 : l1.get e = some { next := .null, prev := at_, list := false, Value := some v } := by
    rw [g1]; simp
  have h2 := GoList.setNext_eq he1 xa.next
  have g2 := GoList.get_put_of he1 { next := xa.next, prev := at_, list := false, Value := some v }
  have k2 := GoList.put_len l1 e { next := xa.next, prev := at_, list := false, Value := some v }
  have a2 := GoList.put_arena_length l1 e { next := xa.next, prev := at_, list := false, Value := some v }
  simp only [] at h2
  generalize l1.put e _ = l2 at h2 g2 k2 a2
  have he2 : l2.get e = some { next := xa.next, prev := at_, list := false, Value := some v } := by
    rw [g2]; simp
  have ha2 : l2.get at_ = some xa := by rw [g2]; simp [hna, ha1]
  have h3 := GoList.setNext_eq ha2 e
  have g3 := GoList.get_put_of ha2 { xa with next := e }
  have k3 := GoList.put_len l2 at_ { xa with next := e }
  have a3 := GoList.put_arena_length l2 at_ { xa with next := e }
  generalize l2.put at_ _ = l3 at h3 g3 k3 a3
  have he3 : l3.get e = some { next := xa.next, prev := at_, list := false, Value := some v } := by
    rw [g3]; simp [hna', he2]
  have hb3 : l3.get xa.next = some (if xa.next = at_ then { xa with next := e } else xb) := by
    rw [g3]; by_cases h : xa.next = at_
    · simp [h]
    · simp [h]; rw [g2, g1, g0]; simp [hnb, hb]
  have h4 := GoList.setPrev_eq hb3 e
  have g4 := GoList.get_put_of hb3 { (if xa.next = at_ then { xa with next := e } else xb) with prev := e }
  have k4 := GoList.put_len l3 xa.next { (if xa.next = at_ then { xa with next := e } else xb) with prev := e }
  have a4 := GoList.put_arena_length l3 xa.next
    { (if xa.next = at_ then { xa with next := e } else xb) with prev := e }
  generalize l3.put xa.next _ = l4 at h4 g4 k4 a4
  have he4 : l4.get e = some { next := xa.next, prev := at_, list := false, Value := some v } := by
    rw [g4]; simp [hnb', he3]
  have h5 := GoList.setList_eq he4 true
  have g5 := GoList.get_put_of he4 { next := xa.next, prev := at_, list := true, Value := some v }
  have k5 := GoList.put_len l4 e { next := xa.next, prev := at_, list := true, Value := some v }
  have a5 := GoList.put_arena_length l4 e { next := xa.next, prev := at_, list := true, Value := some v }
  simp only [] at h5
  generalize l4.put e _ = l5 at h5 g5 k5 a5
  refine ⟨{ l5 with len := l5.len + 1 }, ?_, ?_, ?_, ?_⟩
  · simp [GoList.insert, h1, ha1, h2, he2, h3, he3, h4, h5]
  · simp [k5, k4, k3, k2, k1, k0]
  · simp [a5, a4, a3, a2, a1, a0]
  · intro q
    have : ({ l5 with len := l5.len + 1 } : GoList).get q = l5.get q := by cases q <;> rfl
    rw [this, g5, g4, g3, g2, g1, g0]
    by_cases hq : q = e
    · simp [hq]
    · by_cases hq2 : q = xa.next
      · simp [hq2, hnb]
      · simp [hq, hq2]

/-- How `remove` changes the fields of the elements. -/
theorem GoList.remove_view (l : GoList) (n : Nat) (x xa xb : Element)
    (he : l.get (.elem n) = some x) (ha : l.get x.prev = some xa) (hb : l.get x.next = some xb)
    (hna : x.prev ≠ .elem n) (hnb : x.next ≠ .elem n) :
    ∃ r, l.remove (.elem n) = some r ∧ r.len = l.len - 1 ∧ r.arena.length = l.arena.length ∧
      (∀ q, r.nx q = if q = .elem n then some .null else if q = x.prev then some x.next else l.nx q) ∧
      (∀ q, r.pv q = if q = .elem n then some .null else if q = x.next then some x.prev else l.pv q) ∧
      (∀ q, (r.get q).map (·.list) = if q = .elem n then some false else (l.get q).map (·.list)) ∧
      (∀ q, (r.get q).map (·.Value) = (l.get q).map (·.Value)) := by
  obtain ⟨r, h1, h2, h3, h4⟩ := l.remove_spec n x xa xb he ha hb hna hnb
  refine ⟨r, h1, h2, h3, ?_, ?_, ?_, ?_⟩
  · intro q
    simp only [GoList.nx, h4]
    by_cases hq : q = .elem n
    · simp [hq]
    · by_cases hq2 : q = x.next
      · by_cases hq3 : x.next = x.prev
        · simp [hq2, hq3, hna]
        · simp [hq2, hq3, hnb, hb]
      · by_cases hq3 : q = x.prev
        · subst hq3; simp [hna, hq2]
        · simp [hq, hq2, hq3]
  · intro q
    simp only [GoList.pv, h4]
    by_cases hq : q = .elem n
    · simp [hq]
    · by_cases hq2 : q = x.next
      · simp [hq2, hnb]
      · by_cases hq3 : q = x.prev
        · subst hq3; simp [hna, hq2, ha]
        · simp [hq, hq2, hq3]
  · intro q
    simp only [h4]
    by_cases hq : q = .elem n
    · simp [hq]
    · by_cases hq2 : q = x.next
      · by_cases hq3 : x.next = x.prev
        · simp [hq2, hq3, hna, ha]
        · simp [hq2, hq3, hnb, hb]
      · by_cases hq3 : q = x.prev
        · subst hq3; simp [hna, hq2, ha]
        · simp [hq, hq2, hq3]
  · intro q
    simp only [h4]
    by_cases hq : q = .elem n
    · simp [hq, he]
    · by_cases hq2 : q = x.next
      · by_cases hq3 : x.next = x.prev
        · simp [hq2, hq3, hna, ha]
        · simp [hq2, hq3, hnb, hb]
      · by_cases hq3 : q = x.prev
        · subst hq3; simp [hna, hq2, ha]
        · simp [hq, hq2, hq3]

/-- How `insertValue` changes the fields of the elements. -/
theorem GoList.insertValue_view (l : GoList) (v : Sub) (at_ : Ptr) (xa xb : Element)
    (ha : l.get at_ = some xa) (hb : l.get xa.next = some xb) :
    ∃ r, l.insertValue v at_ = some (r, .elem l.arena.length) ∧ r.len = l.len + 1 ∧
      r.arena.length = l.arena.length + 1 ∧
      (∀ q, r.nx q = if q = .elem l.arena.length then some xa.next
        else if q = at_ then some (.elem l.arena.length) else l.nx q) ∧
      (∀ q, r.pv q = if q = .elem l.arena.length then some at_
        else if q = xa.next then some (.elem l.arena.length) else l.pv q) ∧
      (∀ q, (r.get q).map (·.list) =
        if q = .elem l.arena.length then some true else (l.get q).map (·.list)) ∧
      (∀ q, (r.get q).map (·.Value) =
        if q = .elem l.arena.length then some (some v) else (l.get q).map (·.Value)) := by
  obtain ⟨r, h1, h2, h3, h4⟩ := l.insertValue_spec v at_ xa xb ha hb
  have hfresh := l.get_fresh
  have hna : at_ ≠ .elem l.arena.length := by
    intro h; rw [h, hfresh] at ha; exact absurd ha (by simp)
  have hnb : xa.next ≠ .elem l.arena.length := by
    intro h; rw [h, hfresh] at hb; exact absurd hb (by simp)
  refine ⟨r, h1, h2, h3, ?_, ?_, ?_, ?_⟩
  · intro q
    simp only [GoList.nx, h4]
    by_cases hq : q = .elem l.arena.length
    · simp [hq]
    · by_cases hq2 : q = xa.next
      · by_cases hq3 : xa.next = at_
        · simp [hq2, hq3, hna]
        · simp [hq2, hq3, hnb, hb]
      · by_cases hq3 : q = at_
        · subst hq3; simp [hna, hq2]
        · simp [hq, hq2, hq3]
  · intro q
    simp only [GoList.pv, h4]
    by_cases hq : q = .elem l.arena.length
    · simp [hq]
    · by_cases hq2 : q = xa.next
      · simp [hq2, hnb]
      · by_cases hq3 : q = at_
        · subst hq3; simp [hna, hq2, ha]
        · simp [hq, hq2, hq3]
  · intro q
    simp only [h4]
    by_cases hq : q = .elem l.arena.length
    · simp [hq]
    · by_cases hq2 : q = xa.next
      · by_cases hq3 : xa.next = at_
        · simp [hq2, hq3, hna, ha]
        · simp [hq2, hq3, hnb, hb]
      · by_cases hq3 : q = at_
        · subst hq3; simp [hna, hq2, ha]
        · simp [hq, hq2, hq3]
  · intro q
    simp only [h4]
    by_cases hq : q = .elem l.arena.length
    · simp [hq]
    · by_cases hq2 : q = xa.next
      · by_cases hq3 : xa.next = at_
        · simp [hq2, hq3, hna, ha]
        · simp [hq2, hq3, hnb, hb]
      · by_cases hq3 : q = at_
        · subst hq3; simp [hna, hq2, ha]
        · simp [hq, hq2, hq3]

/-! ### Chains of pointers -/

theorem lastP_append (a : Ptr) (xs : List Nat) (y : Nat) (ys : List Nat) :
    lastP a (xs ++ y :: ys) = lastP (.elem y) ys := by
  induction xs generalizing a with
  | nil => rfl
  | cons x xs ih => exact ih _

theorem lastP_mem (a : Ptr) (xs : List Nat) : lastP a xs = a ∨ ∃ p ∈ xs, lastP a xs = .elem p := by
  induction xs generalizing a with
  | nil => exact Or.inl rfl
  | cons x xs ih =>
    right
    rcases ih (.elem x) with h | ⟨p, hp, h⟩
    · exact ⟨x, by simp, h⟩
    · exact ⟨p, by simp [hp], h⟩

theorem headP_mem (ys : List Nat) (b : Ptr) : headP ys b = b ∨ ∃ p ∈ ys, headP ys b = .elem p := by
  cases ys with
  | nil => exact Or.inl rfl
  | cons y ys => exact Or.inr ⟨y, by simp, rfl⟩

theorem fwd_append {l : GoList} {a b : Ptr} {xs ys : List Nat} {y : Nat} :
    Fwd l a (xs ++ y :: ys) b ↔ Fwd l a xs (.elem y) ∧ Fwd l (.elem y) ys b := by
  induction xs generalizing a with
  | nil => simp [Fwd]
  | cons x xs ih => simp [Fwd, ih, and_assoc]

theorem bwd_append {l : GoList} {a b : Ptr} {xs ys : List Nat} {y : Nat} :
    Bwd l a (xs ++ y :: ys) b ↔ Bwd l a xs (.elem y) ∧ Bwd l (.elem y) ys b := by
  induction xs generalizing a with
  | nil => simp [Bwd]
  | cons x xs ih => simp [Bwd, ih, and_assoc]

theorem fwd_head {l : GoList} {a b : Ptr} {ps : List Nat} (h : Fwd l a ps b) :
    l.nx a = some (headP ps b) := by
  cases ps with
  | nil => exact h
  | cons p ps => exact h.1

theorem fwd_last {l : GoList} {a b : Ptr} {ps : List Nat} (h : Fwd l a ps b) :
    l.nx (lastP a ps) = some b := by
  induction ps generalizing a with
  | nil => exact h
  | cons p ps ih => exact ih h.2

theorem bwd_head {l : GoList} {a b : Ptr} {ps : List Nat} (h : Bwd l a ps b) :
    l.pv (headP ps b) = some a := by
  cases ps with
  | nil => exact h
  | cons p ps => exact h.1

theorem bwd_last {l : GoList} {a b : Ptr} {ps : List Nat} (h : Bwd l a ps b) :
    l.pv b = some (lastP a ps) := by
  induction ps generalizing a with
  | nil => exact h
  | cons p ps ih => exact ih h.2

/-- A forward chain survives when the `next` fields of its nodes are not touched. -/
theorem fwd_frame {l r : GoList} {a b : Ptr} {ps : List Nat} (h : Fwd l a ps b)
    (ha : r.nx a = l.nx a) (hps : ∀ p ∈ ps, r.nx (.elem p) = l.nx (.elem p)) : Fwd r a ps b := by
  induction ps generalizing a with
  | nil => simpa [Fwd, ha] using h
  | cons p ps ih =>
    refine ⟨by rw [ha]; exact h.1, ih h.2 (hps p (by simp)) ?_⟩
    intro q hq; exact hps q (by simp [hq])

/-- A backward chain survives when the `prev` fields of its nodes are not touched. -/
theorem bwd_frame {l r : GoList} {a b : Ptr} {ps : List Nat} (h : Bwd l a ps b)
    (hb : r.pv b = l.pv b) (hps : ∀ p ∈ ps, r.pv (.elem p) = l.pv (.elem p)) : Bwd r a ps b := by
  induction ps generalizing a with
  | nil => simpa [Bwd, hb] using h
  | cons p ps ih =>
    refine ⟨by rw [hps p (by simp)]; exact h.1, ih h.2 ?_⟩
    intro q hq; exact hps q (by simp [hq])

/-- Redirect the last `next` pointer of a forward chain. -/
theorem fwd_retarget {l r : GoList} {a c d : Ptr} {xs : List Nat} (h : Fwd l a xs c)
    (hlast : r.nx (lastP a xs) = some d)
    (hrest : ∀ q, q ∈ a :: xs.map Ptr.elem → q ≠ lastP a xs → r.nx q = l.nx q)
    (hnd : (a :: xs.map Ptr.elem).Nodup) : Fwd r a xs d := by
  induction xs generalizing a with
  | nil => exact hlast
  | cons x xs ih =>
    have hax : a ≠ lastP (.elem x) xs := by
      intro e
      rcases lastP_mem (.elem x) xs with h1 | ⟨p, hp, h1⟩
      · rw [h1] at e; subst e; simp at hnd
      · rw [h1] at e; subst e
        simp only [List.map_cons, List.nodup_cons, List.mem_cons, List.mem_map] at hnd
        exact hnd.1 (Or.inr ⟨p, hp, rfl⟩)
    refine ⟨by rw [hrest a (by simp) hax]; exact h.1, ih h.2 hlast ?_ ?_⟩
    · intro q hq hne
      exact hrest q (by simp only [List.map_cons, List.mem_cons] at hq ⊢; exact Or.inr hq) hne
    · simp only [List.map_cons, List.nodup_cons] at hnd
      simpa using hnd.2

/-- Redirect the `prev` pointer of the node after a backward chain. -/
theorem bwd_retarget {l r : GoList} {a c d : Ptr} {xs : List Nat} (h : Bwd l a xs c)
    (hd : r.pv d = some (lastP a xs))
    (hrest : ∀ p ∈ xs, r.pv (.elem p) = l.pv (.elem p)) : Bwd r a xs d := by
  induction xs generalizing a with
  | nil => exact hd
  | cons x xs ih =>
    refine ⟨by rw [hrest x (by simp)]; exact h.1, ih h.2 hd ?_⟩
    intro q hq; exact hrest q (by simp [hq])

theorem fwd_isSome {l : GoList} {a b : Ptr} {ps : List Nat} (h : Fwd l a ps b) :
    ∀ p ∈ ps, ∃ x, l.get (.elem p) = some x := by
  induction ps generalizing a with
  | nil => simp
  | cons p ps ih =>
    intro q hq
    rcases List.mem_cons.1 hq with rfl | hq
    · have := fwd_head h.2
      simp only [GoList.nx, Option.map_eq_some'] at this
      obtain ⟨x, hx, _⟩ := this
      exact ⟨x, hx⟩
    · exact ih h.2 q hq

theorem nodup_chain {ps : List Nat} (h : ps.Nodup) : (Ptr.root :: ps.map Ptr.elem).Nodup := by
  refine List.nodup_cons.2 ⟨by simp, ?_⟩
  exact h.map (fun a b hab => by injection hab)

theorem GoList.lazyInit_arena (l : GoList) : l.lazyInit.arena = l.arena := by
  simp only [GoList.lazyInit, GoList.Init]; split <;> rfl

theorem GoList.lazyInit_get_elem (l : GoList) (k : Nat) : l.lazyInit.get (.elem k) = l.get (.elem k) := by
  simp [GoList.get, GoList.lazyInit_arena]

theorem GoList.nx_root (l : GoList) : l.nx .root = some l.root.next := rfl

theorem GoList.pv_root (l : GoList) : l.pv .root = some l.root.prev := rfl

theorem GoList.lazyInit_of_ne {l : GoList} (h : l.root.next ≠ .null) : l.lazyInit = l := by
  simp [GoList.lazyInit, h]

theorem GoList.lazyInit_init {l : GoList} (h : l.root.next = .null) : l.lazyInit = l.Init := by
  simp [GoList.lazyInit, h]

/-- A ring through the sentinel is already initialised. -/
theorem fwd_lazyInit {l : GoList} {ps : List Nat} (h : Fwd l .root ps .root) : l.lazyInit = l := by
  apply GoList.lazyInit_of_ne
  have := fwd_head h
  rw [GoList.nx_root] at this
  intro e; rw [e] at this
  rcases headP_mem ps .root with h1 | ⟨p, _, h1⟩ <;> rw [h1] at this <;> simp at this

theorem Repr.init_of_ne {l : GoList} {ps : List Nat} (h : Repr l ps) (hne : ps ≠ []) :
    l.lazyInit = l := by
  by_cases hn : l.root.next = .null
  · exfalso
    have h1 := fwd_head h.fwd
    rw [GoList.lazyInit_init hn] at h1
    cases ps with
    | nil => exact hne rfl
    | cons p ps => simp [GoList.nx, GoList.get, GoList.Init, headP] at h1
  · exact GoList.lazyInit_of_ne hn

theorem Repr.lt {l : GoList} {ps : List Nat} (h : Repr l ps) {p : Nat} (hp : p ∈ ps) :
    p < l.arena.length := by
  obtain ⟨x, hx⟩ := fwd_isSome h.fwd p hp
  rw [GoList.lazyInit_get_elem] at hx
  simp only [GoList.get] at hx
  exact (List.getElem?_eq_some.1 hx).1

theorem Repr.lazyInit_len {l : GoList} {ps : List Nat} (h : Repr l ps) :
    l.lazyInit.len = ps.length := by
  by_cases hn : l.root.next = .null
  · have h1 := fwd_head h.fwd
    rw [GoList.lazyInit_init hn] at h1 ⊢
    cases ps with
    | nil => rfl
    | cons p ps => simp [GoList.nx, GoList.get, GoList.Init, headP] at h1
  · rw [GoList.lazyInit_of_ne hn]; exact h.len

/-- The zero value is the empty list. -/
theorem repr_zero : Repr GoList.zero [] where
  nodup := List.nodup_nil
  fwd := by simp [Fwd, GoList.nx, GoList.get, GoList.lazyInit, GoList.Init, GoList.zero]
  bwd := by simp [Bwd, GoList.pv, GoList.get, GoList.lazyInit, GoList.Init, GoList.zero]
  len := rfl
  mem := by intro k x h; simp [GoList.zero] at h
  val := by intro k x h; simp [GoList.zero] at h

theorem GoList.valueAt_eq (l : GoList) (k : Nat) :
    l.valueAt k = ((l.get (.elem k)).map (·.Value)).join := by
  simp only [GoList.valueAt, GoList.get]
  cases l.arena[k]? <;> rfl

/-- `PushBack` appends a fresh element at the back and keeps everything else. -/
theorem Repr.pushBack {l : GoList} {ps : List Nat} (h : Repr l ps) (s : Sub) :
    ∃ r, l.PushBack s = some (r, .elem l.arena.length) ∧ Repr r (ps ++ [l.arena.length]) ∧
      r.arena.length = l.arena.length + 1 ∧ r.valueAt l.arena.length = some s ∧
      ∀ k, k ≠ l.arena.length → r.valueAt k = l.valueAt k := by
  have hfwd := h.fwd
  have hbwd := h.bwd
  have hlen := h.lazyInit_len
  have harena := l.lazyInit_arena
  have hmem := h.mem
  have hval := h.val
  have hlt : ∀ p ∈ ps, p < l.arena.length := fun p hp => h.lt hp
  simp only [GoList.PushBack]
  rw [← harena] at hmem hval hlt ⊢
  rw [show l.valueAt = l.lazyInit.valueAt from by
    funext k; simp [GoList.valueAt, harena]]
  generalize l.lazyInit = L at *
  -- the insertion point is the last node of the ring
  have hat : L.root.prev = lastP .root ps := by
    have := bwd_last hbwd
    rw [GoList.pv_root] at this
    exact Option.some.inj this
  have hlast := fwd_last hfwd
  rw [← hat] at hlast
  simp only [GoList.nx, Option.map_eq_some'] at hlast
  obtain ⟨xa, hxa, hxan⟩ := hlast
  have hxb : L.get xa.next = some L.root := by rw [hxan]; rfl
  obtain ⟨r, h1, h2, h3, hnx, hpv, hfl, hvl⟩ := L.insertValue_view s L.root.prev xa L.root hxa hxb
  have hne : L.root.prev ≠ .elem L.arena.length := by
    intro e; rw [e, L.get_fresh] at hxa; exact absurd hxa (by simp)
  have hnd := h.nodup
  have hfresh : L.arena.length ∉ ps := fun hp => absurd (hlt _ hp) (Nat.lt_irrefl _)
  have hF : Fwd r .root (ps ++ [L.arena.length]) .root := by
    refine fwd_append.2 ⟨fwd_retarget hfwd ?_ ?_ (nodup_chain hnd), ?_⟩
    · rw [← hat, hnx]; simp [hne]
    · intro q hq hq2
      rw [hnx]
      have : q ≠ .elem L.arena.length := by
        intro e; subst e
        simp only [List.mem_cons, List.mem_map] at hq
        rcases hq with hq | ⟨p, hp, hq⟩
        · cases hq
        · injection hq with hq; subst hq; exact hfresh hp
      rw [← hat] at hq2
      simp [this, hq2]
    · simp only [Fwd]; rw [hnx]; simp [hxan]
  have hB : Bwd r .root (ps ++ [L.arena.length]) .root := by
    refine bwd_append.2 ⟨bwd_retarget hbwd ?_ ?_, ?_⟩
    · rw [hpv, ← hat]; simp
    · intro p hp
      rw [hpv, hxan]
      have : Ptr.elem p ≠ .elem L.arena.length := by
        intro e; injection e with e; subst e; exact hfresh hp
      simp [this]
    · simp only [Bwd]; rw [hpv, hxan]; simp
  refine ⟨r, h1, ⟨?_, ?_, ?_, ?_, ?_, ?_⟩, h3, ?_, ?_⟩
  · exact List.nodup_append.2 ⟨hnd, by simp, by simpa using hfresh⟩
  · rw [fwd_lazyInit hF]; exact hF
  · rw [fwd_lazyInit hF]; exact hB
  · rw [h2, hlen]; simp
  · intro k x hx
    have hk := hfl (.elem k)
    by_cases hkl : k = L.arena.length
    · subst hkl; simp [GoList.get, hx] at hk; simp [hk]
    · have hne2 : Ptr.elem k ≠ .elem L.arena.length := by
        intro e; injection e with e; exact hkl e
      rw [if_neg hne2] at hk
      simp only [GoList.get, hx, Option.map_some'] at hk
      cases hy : L.arena[k]? with
      | none => rw [hy] at hk; simp at hk
      | some y =>
        rw [hy] at hk; simp only [Option.map_some', Option.some.injEq] at hk
        rw [hk, hmem k y hy]; simp [hkl]
  · intro k x hx
    have hk := hvl (.elem k)
    by_cases hkl : k = L.arena.length
    · subst hkl; simp [GoList.get, hx] at hk; exact ⟨s, hk⟩
    · have hne2 : Ptr.elem k ≠ .elem L.arena.length := by
        intro e; injection e with e; exact hkl e
      rw [if_neg hne2] at hk
      simp only [GoList.get, hx, Option.map_some'] at hk
      cases hy : L.arena[k]? with
      | none => rw [hy] at hk; simp at hk
      | some y =>
        rw [hy] at hk; simp only [Option.map_some', Option.some.injEq] at hk
        rw [hk]; exact hval k y hy
  · rw [GoList.valueAt_eq, hvl]; simp
  · intro k hk
    rw [GoList.valueAt_eq, GoList.valueAt_eq, hvl]
    have : Ptr.elem k ≠ .elem L.arena.length := by intro e; injection e with e; exact hk e
    simp [this]

theorem lastP_ne_of_not_mem {a : Ptr} {xs : List Nat} {n : Nat} (ha : a ≠ .elem n) (hn : n ∉ xs) :
    lastP a xs ≠ .elem n := by
  rcases lastP_mem a xs with h | ⟨p, hp, h⟩
  · rw [h]; exact ha
  · rw [h]; intro e; injection e with e; subst e; exact hn hp

theorem headP_ne_of_not_mem {b : Ptr} {ys : List Nat} {n : Nat} (hb : b ≠ .elem n) (hn : n ∉ ys) :
    headP ys b ≠ .elem n := by
  rcases headP_mem ys b with h | ⟨p, hp, h⟩
  · rw [h]; exact hb
  · rw [h]; intro e; injection e with e; subst e; exact hn hp

/-- The fields of a member of the list. -/
theorem Repr.get_mem {l : GoList} {pre post : List Nat} {n : Nat} (h : Repr l (pre ++ n :: post)) :
    ∃ x, l.get (.elem n) = some x ∧ x.next = headP post .root ∧ x.prev = lastP .root pre ∧
      x.list = true := by
  have hL := h.init_of_ne (by simp)
  have hf := h.fwd
  have hb := h.bwd
  rw [hL] at hf hb
  have h1 := fwd_head (fwd_append.1 hf).2
  have h2 := bwd_last (bwd_append.1 hb).1
  simp only [GoList.nx, Option.map_eq_some'] at h1
  obtain ⟨x, hx, hxn⟩ := h1
  simp only [GoList.pv, hx, Option.map_some', Option.some.injEq] at h2
  refine ⟨x, hx, hxn, h2, ?_⟩
  exact (h.mem n x hx).2 (by simp)

/-- `Remove` of a member unlinks exactly that element. -/
theorem Repr.remove_mem {l : GoList} {pre post : List Nat} {n : Nat}
    (h : Repr l (pre ++ n :: post)) :
    ∃ r, l.Remove (.elem n) = some r ∧ Repr r (pre ++ post) ∧
      r.arena.length = l.arena.length ∧ ∀ k, r.valueAt k = l.valueAt k := by
  have hL := h.init_of_ne (by simp)
  have hf := h.fwd
  have hb := h.bwd
  rw [hL] at hf hb
  obtain ⟨x, hx, hxn, hxp, hxl⟩ := h.get_mem
  have hnd := h.nodup
  have hnpre : n ∉ pre := fun hm => by
    have := (List.nodup_append.1 hnd).2.2
    exact this hm (by simp)
  have hnpost : n ∉ post := fun hm => by
    have := (List.nodup_append.1 hnd).2.1
    simp only [List.nodup_cons] at this
    exact this.1 hm
  have hdisj : ∀ p ∈ pre, p ∉ post := fun p hp hq => by
    have := (List.nodup_append.1 hnd).2.2
    exact this hp (by simp [hq])
  have hndpre : pre.Nodup := (List.nodup_append.1 hnd).1
  have hndpost : post.Nodup := by
    have := (List.nodup_append.1 hnd).2.1
    simp only [List.nodup_cons] at this
    exact this.2
  have hfa := (fwd_append.1 hf).1
  have hfb := (fwd_append.1 hf).2
  have hba := (bwd_append.1 hb).1
  have hbb := (bwd_append.1 hb).2
  -- the neighbours
  have hA := fwd_last hfa
  have hB := bwd_head hbb
  rw [← hxp] at hA
  rw [← hxn] at hB
  simp only [GoList.nx, Option.map_eq_some'] at hA
  simp only [GoList.pv, Option.map_eq_some'] at hB
  obtain ⟨xa, hxa, -⟩ := hA
  obtain ⟨xb, hxb, -⟩ := hB
  have hna : x.prev ≠ .elem n := by rw [hxp]; exact lastP_ne_of_not_mem (by simp) hnpre
  have hnb : x.next ≠ .elem n := by rw [hxn]; exact headP_ne_of_not_mem (by simp) hnpost
  obtain ⟨r, h1, h2, h3, hnx, hpv, hfl, hvl⟩ := l.remove_view n x xa xb hx hxa hxb hna hnb
  -- forward ring
  have hF1 : Fwd r .root pre (headP post .root) := by
    refine fwd_retarget hfa ?_ ?_ (nodup_chain hndpre)
    · rw [hnx, ← hxp, ← hxn]; simp [hna]
    · intro q hq hq2
      rw [hnx, hxp]
      have : q ≠ .elem n := by
        intro e; subst e
        simp only [List.mem_cons, List.mem_map] at hq
        rcases hq with hq | ⟨p, hp, hq⟩
        · cases hq
        · injection hq with hq; subst hq; exact hnpre hp
      simp [this, hq2]
  have hF : Fwd r .root (pre ++ post) .root := by
    cases post with
    | nil => simpa [headP] using hF1
    | cons q qs =>
      refine fwd_append.2 ⟨hF1, fwd_frame hfb.2 ?_ ?_⟩
      · rw [hnx, hxp]
        have c1 : Ptr.elem q ≠ .elem n := by
          intro e; injection e with e; subst e; exact hnpost (by simp)
        have c2 : Ptr.elem q ≠ lastP .root pre := by
          intro e
          exact lastP_ne_of_not_mem (a := .root) (by simp)
            (fun hm => hdisj q hm (by simp)) e.symm
        simp [c1, c2]
      · intro p hp
        rw [hnx, hxp]
        have c1 : Ptr.elem p ≠ .elem n := by
          intro e; injection e with e; subst e; exact hnpost (by simp [hp])
        have c2 : Ptr.elem p ≠ lastP .root pre := by
          intro e
          exact lastP_ne_of_not_mem (a := .root) (by simp)
            (fun hm => hdisj p hm (by simp [hp])) e.symm
        simp [c1, c2]
  -- backward ring
  have hB : Bwd r .root (pre ++ post) .root := by
    have hpre : ∀ p ∈ pre, r.pv (.elem p) = l.pv (.elem p) := by
      intro p hp
      rw [hpv, hxn]
      have c1 : Ptr.elem p ≠ .elem n := by
        intro e; injection e with e; subst e; exact hnpre hp
      have c2 : Ptr.elem p ≠ headP post .root := by
        intro e
        exact headP_ne_of_not_mem (b := .root) (by simp) (hdisj p hp) e.symm
      simp [c1, c2]
    cases post with
    | nil =>
      simp only [List.append_nil]
      refine bwd_retarget hba ?_ hpre
      rw [hpv, ← hxp]; simp [hxn, headP]
    | cons q qs =>
      refine bwd_append.2 ⟨bwd_retarget hba ?_ hpre, bwd_frame hbb.2 ?_ ?_⟩
      · rw [hpv, ← hxp]
        have c1 : Ptr.elem q ≠ .elem n := by
          intro e; injection e with e; subst e; exact hnpost (by simp)
        simp [c1, hxn, headP]
      · rw [hpv, hxn]; simp [headP]
      · intro p hp
        rw [hpv, hxn]
        have c1 : Ptr.elem p ≠ .elem n := by
          intro e; injection e with e; subst e; exact hnpost (by simp [hp])
        have c2 : p ≠ q := by
          intro e; subst e
          simp only [List.nodup_cons] at hndpost
          exact hndpost.1 hp
        simp [c1, c2, headP]
  refine ⟨r, ?_, ⟨?_, ?_, ?_, ?_, ?_, ?_⟩, h3, ?_⟩
  · simp [GoList.Remove, hx, hxl, h1]
  · exact List.nodup_append.2 ⟨hndpre, hndpost, fun p hp hq => hdisj p hp hq⟩
  · rw [fwd_lazyInit hF]; exact hF
  · rw [fwd_lazyInit hF]; exact hB
  · rw [h2, h.len]; simp; omega
  · intro k y hy
    have hk := hfl (.elem k)
    simp only [GoList.get, hy, Option.map_some'] at hk
    by_cases hkn : k = n
    · subst hkn; simp at hk; simp [hk, hnpre, hnpost]
    · have hne2 : Ptr.elem k ≠ .elem n := by intro e; injection e with e; exact hkn e
      rw [if_neg hne2] at hk
      cases hz : l.arena[k]? with
      | none => rw [hz] at hk; simp at hk
      | some z =>
        rw [hz] at hk; simp only [Option.map_some', Option.some.injEq] at hk
        rw [hk, h.mem k z hz]; simp [hkn]
  · intro k y hy
    have hk := hvl (.elem k)
    simp only [GoList.get, hy, Option.map_some'] at hk
    cases hz : l.arena[k]? with
    | none => rw [hz] at hk; simp at hk
    | some z =>
      rw [hz] at hk; simp only [Option.map_some', Option.some.injEq] at hk
      rw [hk]; exact h.val k z hz
  · intro k
    rw [GoList.valueAt_eq, GoList.valueAt_eq, hvl]

/-- `Remove` of an element that is no longer in the list changes nothing. -/
theorem Repr.remove_not_mem {l : GoList} {ps : List Nat} {n : Nat} (h : Repr l ps)
    (hn : n < l.arena.length) (hm : n ∉ ps) : l.Remove (.elem n) = some l := by
  have hx : l.arena[n]? = some l.arena[n] := List.getElem?_eq_getElem hn
  have hl : l.arena[n].list = false := by
    have := h.mem n _ hx
    cases hb : l.arena[n].list
    · rfl
    · exact absurd (this.1 hb) hm
  simp [GoList.Remove, GoList.get, hx, hl]

/-- `Front` is the first element, or nil for the empty list. -/
theorem Repr.front {l : GoList} {ps : List Nat} (h : Repr l ps) : l.Front = headP ps .null := by
  cases ps with
  | nil => simp [GoList.Front, h.len, headP]
  | cons p ps =>
    have hL := h.init_of_ne (by simp)
    have hf := fwd_head h.fwd
    rw [hL, GoList.nx_root] at hf
    have hlen := h.len
    have : l.len ≠ 0 := by rw [hlen]; simp; omega
    simp only [GoList.Front, this, if_false, headP]
    simpa [headP] using hf

/-- `Next` of a member is its successor, or nil at the back. -/
theorem Repr.next_mem {l : GoList} {pre post : List Nat} {n : Nat} (h : Repr l (pre ++ n :: post)) :
    l.Next (.elem n) = some (headP post .null) := by
  obtain ⟨x, hx, hxn, -, hxl⟩ := h.get_mem
  simp only [GoList.Next, hx, hxl, hxn, bind, Option.bind, pure]
  cases post <;> simp [headP]

/-- `Next` of an element that is no longer in the list is nil. -/
theorem Repr.next_not_mem {l : GoList} {ps : List Nat} {n : Nat} (h : Repr l ps)
    (hn : n < l.arena.length) (hm : n ∉ ps) : l.Next (.elem n) = some .null := by
  have hx : l.arena[n]? = some l.arena[n] := List.getElem?_eq_getElem hn
  have hl : l.arena[n].list = false := by
    have := h.mem n _ hx
    cases hb : l.arena[n].list
    · rfl
    · exact absurd (this.1 hb) hm
  simp [GoList.Next, GoList.get, hx, hl]

/-- Every allocated element holds a function value. -/
theorem Repr.value {l : GoList} {ps : List Nat} (h : Repr l ps) {n : Nat} (hn : n < l.arena.length) :
    ∃ s, l.valueAt n = some s ∧ (l.get (.elem n)).bind (·.Value) = some s := by
  have hx : l.arena[n]? = some l.arena[n] := List.getElem?_eq_getElem hn
  obtain ⟨s, hs⟩ := h.val n _ hx
  exact ⟨s, by simp [GoList.valueAt, hx, hs], by simp [GoList.get, hx, hs]⟩

/-- The elements of a list are determined by the list. -/
theorem Repr.unique {l : GoList} : ∀ {ps qs : List Nat}, Repr l ps → Repr l qs → ps = qs := by
  have key : ∀ (L : GoList) (ps qs : List Nat) (a : Ptr), Fwd L a ps .root → Fwd L a qs .root →
      ps.length ≤ qs.length → ps = qs := by
    intro L
    intro ps
    induction ps with
    | nil =>
      intro qs a h1 h2 _
      cases qs with
      | nil => rfl
      | cons q qs => simp [Fwd] at h1 h2; rw [h1] at h2; simp at h2
    | cons p ps ih =>
      intro qs a h1 h2 hlen
      cases qs with
      | nil => simp at hlen
      | cons q qs =>
        have e : p = q := by
          have := h1.1.symm.trans h2.1
          simpa using this
        subst e
        rw [ih qs _ h1.2 h2.2 (by simpa using hlen)]
  intro ps qs h1 h2
  have e : ps.length = qs.length := by
    have := h1.len.symm.trans h2.len
    exact_mod_cast this
  exact key _ ps qs _ h1.fwd h2.fwd (le_of_eq e)


/-! ## The heap of events -/

theorem World.getEvent_setEvent (w : World) (c c' : Chan) (e : Event) :
    (w.setEvent c e).getEvent c' =
      if c' = c ∧ (w.getEvent c).isSome then some e else w.getEvent c' := by
  cases c <;> cases c' <;> simp [World.getEvent, World.setEvent, List.getElem?_set]
  rename_i n m
  by_cases h : n = m
  · subst h
    by_cases h2 : n < w.events.length
    · simp [h2]
    · have h3 : w.events[n]? = none := List.getElem?_eq_none (by omega)
      simp [h2, h3]
  · simp [h, Ne.symm h]

theorem World.getEvent_setEvent_of {w : World} {c : Chan} {e0 : Event} (h : w.getEvent c = some e0)
    (e : Event) (c' : Chan) :
    (w.setEvent c e).getEvent c' = if c' = c then some e else w.getEvent c' := by
  rw [World.getEvent_setEvent]; simp [h]

theorem World.getEvent_setEvent_same {w : World} {c : Chan} {e0 : Event}
    (h : w.getEvent c = some e0) (e : Event) : (w.setEvent c e).getEvent c = some e := by
  rw [World.getEvent_setEvent_of h]; simp

theorem World.setEvent_setEvent (w : World) (c : Chan) (e1 e2 : Event) :
    (w.setEvent c e1).setEvent c e2 = w.setEvent c e2 := by
  cases c <;> simp [World.setEvent, List.set_set]

theorem World.setEvent_self {w : World} {c : Chan} {e : Event} (h : w.getEvent c = some e) :
    w.setEvent c e = w := by
  cases c with
  | all =>
    simp only [World.getEvent, Option.some.injEq] at h
    subst h; rfl
  | ev i =>
    simp only [World.getEvent] at h
    simp only [World.setEvent]
    have : w.events.set i e = w.events := by
      apply List.ext_getElem? ; intro j
      rw [List.getElem?_set]
      by_cases hij : i = j
      · subst hij; simp [h, (List.getElem?_eq_some.1 h).1]
      · simp [hij]
    rw [this]

@[simp] theorem World.setEvent_handles (w : World) (c : Chan) (e : Event) :
    (w.setEvent c e).handles = w.handles := by cases c <;> rfl

@[simp] theorem World.setEvent_log (w : World) (c : Chan) (e : Event) :
    (w.setEvent c e).log = w.log := by cases c <;> rfl

theorem World.setEvent_withLog (w : World) (c : Chan) (e : Event) (lg : List Call) :
    ({ w with log := lg } : World).setEvent c e = { w.setEvent c e with log := lg } := by
  cases c <;> rfl

theorem World.setEvent_withHandles (w : World) (c : Chan) (e : Event) (hs : List Unsub) :
    ({ w with handles := hs } : World).setEvent c e = { w.setEvent c e with handles := hs } := by
  cases c <;> rfl

@[simp] theorem World.getEvent_withLog (w : World) (c : Chan) (lg : List Call) :
    ({ w with log := lg } : World).getEvent c = w.getEvent c := by
  cases c <;> rfl

@[simp] theorem World.getEvent_withHandles (w : World) (c : Chan) (hs : List Unsub) :
    ({ w with handles := hs } : World).getEvent c = w.getEvent c := by
  cases c <;> rfl

/-! ## Locks and list operations on a known event -/

theorem lock_ok {w : World} {c : Chan} {l : GoList} (h : w.getEvent c = some ⟨false, l⟩) :
    lock c w = .ok (w.setEvent c ⟨true, l⟩) := by
  simp [lock, h]

theorem unlock_ok {w : World} {c : Chan} {l : GoList} (h : w.getEvent c = some ⟨true, l⟩) :
    unlock c w = .ok (w.setEvent c ⟨false, l⟩) := by
  simp [unlock, h]

theorem onList_ok {α : Type} {w : World} {c : Chan} {m : Bool} {l : GoList}
    (h : w.getEvent c = some ⟨m, l⟩) (op : GoList → Option (GoList × α)) {r : GoList} {a : α}
    (hop : op l = some (r, a)) : onList c w op = .ok (a, w.setEvent c ⟨m, r⟩) := by
  simp [onList, h, hop]

@[simp] theorem except_ok_bind {ε α β : Type} (a : α) (f : α → Except ε β) :
    (Except.ok a >>= f) = f a := rfl

@[simp] theorem except_error_bind {ε α β : Type} (e : ε) (f : α → Except ε β) :
    ((Except.error e : Except ε α) >>= f) = Except.error e := rfl

@[simp] theorem except_pure {ε α : Type} (a : α) : (pure a : Except ε α) = Except.ok a := rfl

/-- `Event.On` on an unlocked channel: the subscriber is pushed at the back and a fresh
closure is returned. -/
theorem Event.On_spec {w : World} {c : Chan} {l : GoList} {ps : List Nat}
    (h : w.getEvent c = some ⟨false, l⟩) (hr : Repr l ps) (s : Sub) :
    ∃ r, Repr r (ps ++ [l.arena.length]) ∧ r.arena.length = l.arena.length + 1 ∧
      r.valueAt l.arena.length = some s ∧ (∀ k, k ≠ l.arena.length → r.valueAt k = l.valueAt k) ∧
      Event.On c s w = .ok (w.handles.length,
        { w.setEvent c ⟨false, r⟩ with
          handles := w.handles ++ [.single c (.elem l.arena.length) false] }) := by
  obtain ⟨r, h1, h2, h3, h4, h5⟩ := hr.pushBack s
  refine ⟨r, h2, h3, h4, h5, ?_⟩
  have e1 := World.getEvent_setEvent_same h ⟨true, l⟩
  have e2 := World.getEvent_setEvent_same h ⟨true, r⟩
  have e3 : onList c (w.setEvent c ⟨true, l⟩) (fun l => l.PushBack s) =
      .ok (.elem l.arena.length, (w.setEvent c ⟨true, l⟩).setEvent c ⟨true, r⟩) :=
    onList_ok e1 _ h1
  simp only [Event.On, lock_ok h, except_ok_bind, e3, unlock_ok e2,
    World.setEvent_setEvent, except_pure, World.setEvent_handles]

/-- `Remove` of an allocated element leaves the list without it. -/
theorem Repr.remove {l : GoList} {ps : List Nat} (h : Repr l ps) {n : Nat}
    (hn : n < l.arena.length) :
    ∃ r, l.Remove (.elem n) = some r ∧ Repr r (ps.erase n) ∧
      r.arena.length = l.arena.length ∧ ∀ k, r.valueAt k = l.valueAt k := by
  by_cases hm : n ∈ ps
  · obtain ⟨pre, post, rfl⟩ := List.append_of_mem hm
    have hnpre : n ∉ pre := fun hp => by
      have := (List.nodup_append.1 h.nodup).2.2
      exact this hp (by simp)
    have he : (pre ++ n :: post).erase n = pre ++ post := by
      rw [List.erase_append_right _ hnpre, List.erase_cons_head]
    rw [he]
    exact h.remove_mem
  · refine ⟨l, h.remove_not_mem hn hm, ?_, rfl, fun _ => rfl⟩
    rw [List.erase_of_not_mem hm]; exact h

/-- The first call of the closure returned by `Event.On`: the element is removed from the
list and the closure is done. -/
theorem callSingle_spec {w : World} {h : Nat} {c : Chan} {n : Nat} {l : GoList} {ps : List Nat}
    (hh : w.handles[h]? = some (.single c (.elem n) false))
    (he : w.getEvent c = some ⟨false, l⟩) (hr : Repr l ps) (hn : n < l.arena.length) :
    ∃ r, Repr r (ps.erase n) ∧ r.arena.length = l.arena.length ∧
      (∀ k, r.valueAt k = l.valueAt k) ∧
      callSingle h w = .ok { w.setEvent c ⟨false, r⟩ with
        handles := w.handles.set h (.single c .null true) } := by
  obtain ⟨r, h1, h2, h3, h4⟩ := hr.remove hn
  refine ⟨r, h2, h3, h4, ?_⟩
  have e1 := World.getEvent_setEvent_same he ⟨true, l⟩
  have e2 := World.getEvent_setEvent_same he ⟨true, r⟩
  have e3 : onList c (w.setEvent c ⟨true, l⟩)
      (fun l => (l.Remove (.elem n)).map fun l => (l, ())) =
      .ok ((), (w.setEvent c ⟨true, l⟩).setEvent c ⟨true, r⟩) :=
    onList_ok e1 _ (by simp [h1])
  simp only [callSingle, hh, Bool.false_eq_true, if_false, lock_ok he, except_ok_bind, e3,
    World.setEvent_setEvent, unlock_ok e2, except_pure, World.setEvent_handles]

/-- A closure that is done does nothing. -/
theorem callSingle_done {w : World} {h : Nat} {c : Chan} {p : Ptr}
    (hh : w.handles[h]? = some (.single c p true)) : callSingle h w = .ok w := by
  simp [callSingle, hh]

theorem callUnsub_single {w : World} {h : Nat} {c : Chan} {p : Ptr} {d : Bool}
    (hh : w.handles[h]? = some (.single c p d)) : callUnsub h w = callSingle h w := by
  simp [callUnsub, hh]

/-! ## One pass of `Trigger` -/

theorem callSub_eq (beh : Nat → List Act) (trig : Chan → Payload → World → Except Fault World)
    (c : Chan) (slot : Ptr) (s : Sub) (p : Payload) (w : World) :
    callSub beh trig c slot s p w =
      match s.target p with
      | some t => callUser beh trig c slot t.1 t.2 w
      | none => .error (.panic w) := by
  cases s <;> cases p <;> rfl

theorem runActs_quiet (trig : Chan → Payload → World → Except Fault World) :
    ∀ (as : List Act) (w : World),
      (∀ a ∈ as, ∃ h c p, a = Act.unsub h ∧ w.handles[h]? = some (Unsub.single c p true)) →
      runActs trig as w = .ok w := by
  intro as
  induction as with
  | nil => intro w _; rfl
  | cons a as ih =>
    intro w hq
    obtain ⟨h, c, p, rfl, hh⟩ := hq a (by simp)
    simp only [runActs, callUnsub_single hh, callSingle_done hh, except_ok_bind]
    exact ih w (fun a ha => hq a (by simp [ha]))

theorem callUser_quiet {beh : Nat → List Act} (trig : Chan → Payload → World → Except Fault World)
    (c : Chan) (slot : Ptr) {f : Nat} (args : Payload) (w : World) (hf : Quiet beh w.handles f) :
    callUser beh trig c slot f args w = .ok { w with log := w.log ++ [⟨c, slot, f, args⟩] } :=
  runActs_quiet trig (beh f) _ hf

theorem passive_calm {beh : Nat → List Act} {l : GoList} {p : Payload} {ps : List Nat}
    (hp : Passive beh l p ps) (hs : List Unsub) : Calm beh hs l p ps := by
  intro n hn
  obtain ⟨s, t, h1, h2, h3⟩ := hp n hn
  exact ⟨s, t, h1, h2, fun a ha => by simp [h3] at ha⟩

theorem triggerLoop_zero (beh : Nat → List Act) (c : Chan) (i : Ptr) (p : Payload) (w : World) :
    triggerLoop beh 0 c i p w = .error .timeout := by
  simp [triggerLoop]

theorem triggerLoop_null (beh : Nat → List Act) (fuel : Nat) (c : Chan) (p : Payload) (w : World) :
    triggerLoop beh (fuel + 1) c .null p w = unlock c w := by
  simp [triggerLoop]

/-- One iteration of the loop of `Trigger` at an element `n` holding `s`. -/
theorem triggerLoop_elem {beh : Nat → List Act} {fuel : Nat} {c : Chan} {n : Nat} {p : Payload}
    {w : World} {l : GoList} {s : Sub} (h : w.getEvent c = some ⟨true, l⟩)
    (hv : l.valueAt n = some s) :
    triggerLoop beh (fuel + 1) c (.elem n) p w =
      (callSub beh (Event.Trigger beh fuel) c (.elem n) s p (w.setEvent c ⟨false, l⟩) >>= fun w1 =>
        lock c w1 >>= fun w2 =>
        onList c w2 (fun l => (l.Next (.elem n)).map fun i => (l, i)) >>= fun r =>
        triggerLoop beh fuel c r.1 p r.2) := by
  have e1 := World.getEvent_setEvent_same h ⟨false, l⟩
  have e3 : onList c (w.setEvent c ⟨false, l⟩)
      (fun l => ((l.get (.elem n)).bind (·.Value)).map fun s => (l, s)) =
      .ok (s, (w.setEvent c ⟨false, l⟩).setEvent c ⟨false, l⟩) :=
    onList_ok e1 _ (by
      have : (l.get (.elem n)).bind (·.Value) = some s := hv
      simp [this])
  rw [triggerLoop]
  simp only [reduceCtorEq, if_false, unlock_ok h, except_ok_bind, e3, World.setEvent_setEvent]
  rfl

theorem headP_append_cons (xs : List Nat) (y : Nat) (ys : List Nat) (b : Ptr) :
    headP (xs ++ y :: ys) b = headP (xs ++ [y]) b := by
  cases xs <;> rfl

/-- The loop of `Trigger` over a run `seg` of slots whose callbacks are quiet: each of them
is invoked once, in order, and the loop goes on behind the run with nothing else changed. -/
theorem triggerLoop_seg {beh : Nat → List Act} {c : Chan} {p : Payload} {l : GoList} :
    ∀ (seg pre rest : List Nat) (fuel : Nat) (w : World),
      w.getEvent c = some ⟨true, l⟩ → Repr l (pre ++ seg ++ rest) →
      Calm beh w.handles l p seg →
      triggerLoop beh (seg.length + fuel) c (headP (seg ++ rest) .null) p w =
        triggerLoop beh fuel c (headP rest .null) p
          { w with log := w.log ++ callsOf c l p seg } := by
  intro seg
  induction seg with
  | nil =>
    intro pre rest fuel w _ _ _
    simp [callsOf]
  | cons n seg ih =>
    intro pre rest fuel w h hr hp
    obtain ⟨s, t, hv, ht, hb⟩ := hp n (by simp)
    have hfuel : (n :: seg).length + fuel = (seg.length + fuel) + 1 := by simp; omega
    have hr' : Repr l (pre ++ n :: (seg ++ rest)) := by simpa using hr
    have hnext := hr'.next_mem
    have e1 := World.getEvent_setEvent_same h ⟨false, l⟩
    have hcall : callOf c l p n = some ⟨c, .elem n, t.1, t.2⟩ := by
      simp [callOf, hv, ht]
    obtain ⟨w1, hw1⟩ : ∃ w1 : World, w1 = { w.setEvent c ⟨false, l⟩ with
      log := w.log ++ [⟨c, .elem n, t.1, t.2⟩] } := ⟨_, rfl⟩
    have e2 : w1.getEvent c = some ⟨false, l⟩ := by
      rw [hw1]; exact (World.getEvent_withLog _ _ _).trans e1
    have e3 : (w1.setEvent c ⟨true, l⟩).getEvent c = some ⟨true, l⟩ :=
      World.getEvent_setEvent_same e2 _
    have e4 : onList c (w1.setEvent c ⟨true, l⟩)
        (fun l => (l.Next (.elem n)).map fun i => (l, i)) =
        .ok (headP (seg ++ rest) .null, (w1.setEvent c ⟨true, l⟩).setEvent c ⟨true, l⟩) :=
      onList_ok e3 _ (by simp [hnext])
    have e5 : (w1.setEvent c ⟨true, l⟩).setEvent c ⟨true, l⟩ =
        { w with log := w.log ++ [⟨c, .elem n, t.1, t.2⟩] } := by
      rw [World.setEvent_setEvent, hw1, World.setEvent_withLog, World.setEvent_setEvent,
        World.setEvent_self h]
    have hcs : callSub beh (Event.Trigger beh (seg.length + fuel)) c (.elem n) s p
        (w.setEvent c ⟨false, l⟩) = .ok w1 := by
      rw [callSub_eq, ht]
      simp only []
      rw [callUser_quiet _ _ _ _ _ (by rw [World.setEvent_handles]; exact hb), hw1,
        World.setEvent_log]
    rw [hfuel]
    show triggerLoop beh (seg.length + fuel + 1) c (.elem n) p w = _
    rw [triggerLoop_elem h hv, hcs]
    simp only [except_ok_bind, lock_ok e2, e4, e5]
    have hp' : Calm beh w.handles l p seg := fun m hm => hp m (by simp [hm])
    have hr2 : Repr l ((pre ++ [n]) ++ seg ++ rest) := by simpa using hr
    rw [ih (pre ++ [n]) rest fuel { w with log := w.log ++ [⟨c, .elem n, t.1, t.2⟩] }
      (by simpa using h) hr2 hp']
    simp [callsOf, hcall, List.filterMap_cons]

/-- `Trigger` on an unlocked channel whose callbacks are quiet: every slot is invoked once,
in list order, and nothing but the log changes. -/
theorem Event.Trigger_calm {beh : Nat → List Act} {c : Chan} {p : Payload} {l : GoList}
    {ps : List Nat} {w : World} {fuel : Nat}
    (h : w.getEvent c = some ⟨false, l⟩) (hr : Repr l ps) (hp : Calm beh w.handles l p ps)
    (hfuel : ps.length < fuel) :
    Event.Trigger beh fuel c p w = .ok { w with log := w.log ++ callsOf c l p ps } := by
  obtain ⟨k, rfl⟩ : ∃ k, fuel = ps.length + (k + 1) := ⟨fuel - ps.length - 1, by omega⟩
  have e1 := World.getEvent_setEvent_same h ⟨true, l⟩
  have e2 : onList c (w.setEvent c ⟨true, l⟩) (fun l => some (l, l.Front)) =
      .ok (headP ps .null, (w.setEvent c ⟨true, l⟩).setEvent c ⟨true, l⟩) :=
    onList_ok e1 _ (by rw [hr.front])
  have hseg := @triggerLoop_seg beh c p l ps [] [] (k + 1)
    (w.setEvent c ⟨true, l⟩) e1 (by simpa using hr) (by rw [World.setEvent_handles]; exact hp)
  simp only [List.append_nil] at hseg
  have hnull : headP [] Ptr.null = Ptr.null := rfl
  rw [hnull, triggerLoop_null] at hseg
  simp only [Event.Trigger, lock_ok h, except_ok_bind, e2, World.setEvent_setEvent, hseg]
  have e3 : ({ w.setEvent c ⟨true, l⟩ with
      log := (w.setEvent c ⟨true, l⟩).log ++ callsOf c l p ps } : World).getEvent c =
      some ⟨true, l⟩ := (World.getEvent_withLog _ _ _).trans e1
  rw [unlock_ok e3, World.setEvent_withLog, World.setEvent_setEvent, World.setEvent_self h,
    World.setEvent_log]

/-- `Trigger` on an unlocked channel whose callbacks only return. -/
theorem Event.Trigger_passive {beh : Nat → List Act} {c : Chan} {p : Payload} {l : GoList}
    {ps : List Nat} {w : World} {fuel : Nat}
    (h : w.getEvent c = some ⟨false, l⟩) (hr : Repr l ps) (hp : Passive beh l p ps)
    (hfuel : ps.length < fuel) :
    Event.Trigger beh fuel c p w = .ok { w with log := w.log ++ callsOf c l p ps } :=
  Event.Trigger_calm h hr (passive_calm hp _) hfuel

theorem callsOf_cons (c : Chan) (l : GoList) (p : Payload) (n : Nat) (ps : List Nat) (x : Call)
    (h : callOf c l p n = some x) : callsOf c l p (n :: ps) = x :: callsOf c l p ps := by
  simp [callsOf, List.filterMap_cons, h]

theorem callsOf_append (c : Chan) (l : GoList) (p : Payload) (ps qs : List Nat) :
    callsOf c l p (ps ++ qs) = callsOf c l p ps ++ callsOf c l p qs := by
  simp [callsOf, List.filterMap_append]

theorem callsOf_congr (c : Chan) {l r : GoList} (p : Payload) (ps : List Nat)
    (h : ∀ n ∈ ps, r.valueAt n = l.valueAt n) : callsOf c r p ps = callsOf c l p ps := by
  induction ps with
  | nil => rfl
  | cons n ps ih =>
    have e : callOf c r p n = callOf c l p n := by simp [callOf, h n (by simp)]
    simp only [callsOf, List.filterMap_cons, e]
    have := ih (fun m hm => h m (by simp [hm]))
    simp only [callsOf] at this
    rw [this]

theorem passive_congr {beh : Nat → List Act} {l r : GoList} {p : Payload} {ps : List Nat}
    (hp : Passive beh l p ps) (h : ∀ n ∈ ps, r.valueAt n = l.valueAt n) : Passive beh r p ps := by
  intro n hn
  obtain ⟨s, t, h1, h2, h3⟩ := hp n hn
  exact ⟨s, t, by rw [h n hn]; exact h1, h2, h3⟩

theorem passive_append {beh : Nat → List Act} {l : GoList} {p : Payload} {ps qs : List Nat}
    (h1 : Passive beh l p ps) (h2 : Passive beh l p qs) : Passive beh l p (ps ++ qs) := by
  intro n hn
  rcases List.mem_append.1 hn with h | h
  · exact h1 n h
  · exact h2 n h

/-- A row of `On` calls on an unlocked channel appends one slot per call, in order. -/
theorem onAll_spec {c : Chan} : ∀ (fs : List Nat) (w : World) (l : GoList) (ps : List Nat),
    w.getEvent c = some ⟨false, l⟩ → Repr l ps →
    ∃ hs w1 r, onAll c fs w = .ok (hs, w1) ∧ w1.getEvent c = some ⟨false, r⟩ ∧
      w1.log = w.log ∧ Repr r (ps ++ List.range' l.arena.length fs.length) ∧
      r.arena.length = l.arena.length + fs.length ∧
      (∀ k, k < l.arena.length → r.valueAt k = l.valueAt k) ∧
      (∀ k ∈ List.range' l.arena.length fs.length, ∃ f ∈ fs, r.valueAt k = some (.fn f)) ∧
      (∀ p, callsOf c r p (List.range' l.arena.length fs.length) =
        callsFrom c p l.arena.length fs) := by
  intro fs
  induction fs with
  | nil =>
    intro w l ps h hr
    exact ⟨[], w, l, rfl, h, rfl, by simpa using hr, by simp, fun _ _ => rfl, by simp,
      fun _ => rfl⟩
  | cons f fs ih =>
    intro w l ps h hr
    obtain ⟨r1, hr1, hlen1, hv1, hold1, hon⟩ := Event.On_spec h hr (.fn f)
    obtain ⟨w1, hw1⟩ : ∃ w1 : World, w1 = { w.setEvent c ⟨false, r1⟩ with
      handles := w.handles ++ [.single c (.elem l.arena.length) false] } := ⟨_, rfl⟩
    rw [← hw1] at hon
    have e1 : w1.getEvent c = some ⟨false, r1⟩ := by
      rw [hw1]
      exact (World.getEvent_withHandles _ _ _).trans (World.getEvent_setEvent_same h _)
    have elog : w1.log = w.log := by rw [hw1]; exact World.setEvent_log _ _ _
    obtain ⟨hs, w2, r, h2, hg2, hlog2, hr2, hlen2, hold2, hnew2, hcalls2⟩ := ih w1 r1 _ e1 hr1
    refine ⟨w.handles.length :: hs, w2, r, ?_, hg2, hlog2.trans elog, ?_, ?_, ?_, ?_, ?_⟩
    · simp only [onAll, hon, except_ok_bind, h2, except_pure]
    · rw [hlen1] at hr2
      simpa [List.range'_succ, List.append_assoc] using hr2
    · rw [hlen2, hlen1]; simp; omega
    · intro k hk
      rw [hold2 k (by omega), hold1 k (by omega)]
    · intro k hk
      simp only [List.length_cons, List.range'_succ, List.mem_cons] at hk
      rcases hk with rfl | hk
      · exact ⟨f, by simp, by rw [hold2 _ (by omega)]; exact hv1⟩
      · rw [hlen1] at hnew2
        obtain ⟨g, hg, hgv⟩ := hnew2 k hk
        exact ⟨g, by simp [hg], hgv⟩
    · intro p
      have hc : callOf c r p l.arena.length = some ⟨c, .elem l.arena.length, f, p⟩ := by
        simp [callOf, hold2 _ (show l.arena.length < r1.arena.length by omega), hv1, Sub.target]
      have := hcalls2 p
      rw [hlen1] at this
      simp only [List.length_cons, List.range'_succ, callsFrom]
      rw [callsOf_cons _ _ _ _ _ _ hc, this]

theorem World.st_getEvent {w : World} {c : Chan} {e0 : Event} (h : w.getEvent c = some e0)
    (e : Event) (hs : List Unsub) (lg : List Call) :
    ({ w.setEvent c e with handles := hs, log := lg } : World).getEvent c = some e := by
  have := World.getEvent_setEvent_same h e
  cases c <;> exact this

theorem World.st_setEvent (w : World) (c : Chan) (e e' : Event) (hs : List Unsub)
    (lg : List Call) :
    ({ w.setEvent c e with handles := hs, log := lg } : World).setEvent c e' =
      { w.setEvent c e' with handles := hs, log := lg } := by
  have := World.setEvent_setEvent w c e e'
  cases c <;> simp_all [World.setEvent]

theorem World.st_refl (w : World) (c : Chan) (e : Event) :
    w.setEvent c e = { w.setEvent c e with handles := w.handles, log := w.log } := by
  cases c <;> rfl

theorem World.st_self {w : World} {c : Chan} {e : Event} (h : w.getEvent c = some e)
    (hs : List Unsub) (lg : List Call) :
    ({ w.setEvent c e with handles := hs, log := lg } : World) =
      { w with handles := hs, log := lg } := by
  rw [World.setEvent_self h]

theorem calm_congr {beh : Nat → List Act} {hs : List Unsub} {l r : GoList} {p : Payload}
    {ps : List Nat} (hp : Calm beh hs l p ps) (h : ∀ n ∈ ps, r.valueAt n = l.valueAt n) :
    Calm beh hs r p ps := by
  intro n hn
  obtain ⟨s, t, h1, h2, h3⟩ := hp n hn
  exact ⟨s, t, by rw [h n hn]; exact h1, h2, h3⟩

theorem erase_split {pre post : List Nat} {m n : Nat} (hnd : (pre ++ m :: post).Nodup)
    (hne : n ≠ m) :
    (pre ++ m :: post).erase n = pre.erase n ++ m :: post.erase n := by
  rw [List.erase_append]
  split
  · rename_i hmem
    have hnp : n ∉ post := by
      intro hp
      have := (List.nodup_append.1 hnd).2.2
      exact this hmem (by simp [hp])
    rw [List.erase_of_not_mem hnp]
  · rename_i hmem
    rw [List.erase_cons_tail (by simpa using Ne.symm hne), List.erase_of_not_mem hmem]

/-- A pass of `Trigger` in which the callback of slot `m` calls the `Unsubscribe` closure `h`
of slot `n` and all other callbacks are quiet: the slots before `m` and `m` itself are
invoked; when `n = m` the pass ends there, otherwise it goes on with the slots behind `m`
other than `n`. -/
theorem Event.Trigger_remover {beh : Nat → List Act} {c : Chan} {p : Payload} {l : GoList}
    {pre post : List Nat} {m n h : Nat} {w : World} {fuel : Nat} {s : Sub} {t : Nat × Payload}
    (he : w.getEvent c = some ⟨false, l⟩) (hr : Repr l (pre ++ m :: post))
    (hpre : Calm beh w.handles l p pre)
    (hm : l.valueAt m = some s) (ht : s.target p = some t) (hb : beh t.1 = [.unsub h])
    (hh : w.handles[h]? = some (.single c (.elem n) false)) (hn : n < l.arena.length)
    (hpost : n ≠ m → Calm beh (w.handles.set h (.single c .null true)) l p (post.erase n))
    (hfuel : (pre ++ m :: post).length < fuel) :
    ∃ r, Repr r ((pre ++ m :: post).erase n) ∧ r.arena.length = l.arena.length ∧
      (∀ k, r.valueAt k = l.valueAt k) ∧
      Event.Trigger beh fuel c p w = .ok { w.setEvent c ⟨false, r⟩ with
        handles := w.handles.set h (.single c .null true),
        log := w.log ++ (callsOf c l p pre ++ ⟨c, .elem m, t.1, t.2⟩ ::
          (if n = m then [] else callsOf c l p (post.erase n))) } := by
  obtain ⟨F, rfl⟩ : ∃ F, fuel = pre.length + (F + 1) :=
    ⟨fuel - pre.length - 1, by simp at hfuel; omega⟩
  have hF : post.length < F := by simp at hfuel; omega
  -- the state in which the callback of `m` calls `h`
  obtain ⟨w3, hw3⟩ : ∃ w3 : World, w3 = { w with
    log := w.log ++ callsOf c l p pre ++ [⟨c, .elem m, t.1, t.2⟩] } := ⟨_, rfl⟩
  have he3 : w3.getEvent c = some ⟨false, l⟩ := by rw [hw3]; exact he
  have hh3 : w3.handles[h]? = some (.single c (.elem n) false) := by rw [hw3]; exact hh
  obtain ⟨r, hrr, hlen, hval, hcs⟩ := callSingle_spec hh3 he3 hr hn
  refine ⟨r, hrr, hlen, hval, ?_⟩
  -- entry and the slots before `m`
  have e1 := World.getEvent_setEvent_same he ⟨true, l⟩
  have e2 : onList c (w.setEvent c ⟨true, l⟩) (fun l => some (l, l.Front)) =
      .ok (headP (pre ++ m :: post) .null, (w.setEvent c ⟨true, l⟩).setEvent c ⟨true, l⟩) :=
    onList_ok e1 _ (by rw [hr.front])
  have hseg := @triggerLoop_seg beh c p l pre [] (m :: post) (F + 1)
    (w.setEvent c ⟨true, l⟩) e1 (by simpa using hr) (by rw [World.setEvent_handles]; exact hpre)
  have hhead : headP (m :: post) Ptr.null = .elem m := rfl
  rw [hhead] at hseg
  simp only [Event.Trigger, lock_ok he, except_ok_bind, e2, World.setEvent_setEvent, hseg]
  -- the iteration at `m`
  have e3 : ({ w.setEvent c ⟨true, l⟩ with
      log := (w.setEvent c ⟨true, l⟩).log ++ callsOf c l p pre } : World).getEvent c =
      some ⟨true, l⟩ := (World.getEvent_withLog _ _ _).trans e1
  rw [triggerLoop_elem e3 hm, callSub_eq, ht]
  simp only [callUser, hb, runActs]
  have e4 : ({ ({ w.setEvent c ⟨true, l⟩ with
      log := (w.setEvent c ⟨true, l⟩).log ++ callsOf c l p pre } : World).setEvent c
        ⟨false, l⟩ with
      log := (({ w.setEvent c ⟨true, l⟩ with
        log := (w.setEvent c ⟨true, l⟩).log ++ callsOf c l p pre } : World).setEvent c
          ⟨false, l⟩).log ++ [⟨c, .elem m, t.1, t.2⟩] } : World) = w3 := by
    rw [hw3, World.setEvent_withLog, World.setEvent_setEvent, World.setEvent_self he,
      World.setEvent_log]
  rw [e4, callUnsub_single hh3, hcs]
  simp only [except_ok_bind, except_pure]
  have e5 : ({ w3.setEvent c ⟨false, r⟩ with
      handles := w3.handles.set h (.single c .null true) } : World) =
      { w.setEvent c ⟨false, r⟩ with
        handles := w.handles.set h (.single c .null true),
        log := w.log ++ callsOf c l p pre ++ [⟨c, .elem m, t.1, t.2⟩] } := by
    rw [hw3]; cases c <;> rfl
  rw [e5, lock_ok (World.st_getEvent he _ _ _), World.st_setEvent]
  simp only [except_ok_bind]
  have hmlt : m < r.arena.length := by rw [hlen]; exact hr.lt (by simp)
  by_cases hnm : n = m
  · subst hnm
    have hnot : n ∉ (pre ++ n :: post).erase n := fun hmem =>
      ((List.Nodup.mem_erase_iff hr.nodup).1 hmem).1 rfl
    have e6 := onList_ok (World.st_getEvent he ⟨true, r⟩
      (w.handles.set h (.single c .null true))
      (w.log ++ callsOf c l p pre ++ [⟨c, .elem n, t.1, t.2⟩]))
      (fun l => (l.Next (.elem n)).map fun i => (l, i))
      (show _ = some (r, Ptr.null) by simp [hrr.next_not_mem hmlt hnot])
    rw [e6]
    obtain ⟨F, rfl⟩ : ∃ F', F = F' + 1 := ⟨F - 1, by omega⟩
    simp only [except_ok_bind, World.st_setEvent, triggerLoop_null]
    rw [unlock_ok (World.st_getEvent he _ _ _), World.st_setEvent]
    simp
  · have hsplit := erase_split hr.nodup hnm
    rw [hsplit] at hrr
    have e6 := onList_ok (World.st_getEvent he ⟨true, r⟩
      (w.handles.set h (.single c .null true))
      (w.log ++ callsOf c l p pre ++ [⟨c, .elem m, t.1, t.2⟩]))
      (fun l => (l.Next (.elem m)).map fun i => (l, i))
      (show _ = some (r, headP (post.erase n) .null) by simp [hrr.next_mem])
    rw [e6]
    simp only [except_ok_bind, World.st_setEvent]
    have hle : (post.erase n).length ≤ post.length := List.length_erase_le _ _
    obtain ⟨j, rfl⟩ : ∃ j, F = (post.erase n).length + (j + 1) :=
      ⟨F - (post.erase n).length - 1, by omega⟩
    have hseg2 := @triggerLoop_seg beh c p r (post.erase n) (pre.erase n ++ [m]) [] (j + 1)
      { w.setEvent c ⟨true, r⟩ with
        handles := w.handles.set h (.single c .null true),
        log := w.log ++ callsOf c l p pre ++ [⟨c, .elem m, t.1, t.2⟩] }
      (World.st_getEvent he _ _ _) (by simpa using hrr)
      (calm_congr (hpost hnm) fun k _ => hval k)
    simp only [List.append_nil] at hseg2
    have hnull : headP [] Ptr.null = Ptr.null := rfl
    rw [hseg2, hnull, triggerLoop_null, unlock_ok (World.st_getEvent he _ _ _),
      World.st_setEvent, callsOf_congr c p _ (fun k _ => hval k)]
    simp [hnm]

theorem callsOf_slot {c : Chan} {l : GoList} {p : Payload} {ps : List Nat} {x : Call}
    (h : x ∈ callsOf c l p ps) : ∃ k ∈ ps, x.slot = .elem k ∧ x.chan = c := by
  simp only [callsOf, List.mem_filterMap] at h
  obtain ⟨k, hk, hx⟩ := h
  refine ⟨k, hk, ?_⟩
  simp only [callOf, Option.bind_eq_some, Option.map_eq_some'] at hx
  obtain ⟨s, -, t, -, rfl⟩ := hx
  exact ⟨rfl, rfl⟩

theorem quiet_set {beh : Nat → List Act} {hs : List Unsub} {f h : Nat} {c : Chan} {q : Ptr}
    (hq : Quiet beh hs f) (hh : hs[h]? = some (.single c q false)) (u : Unsub) :
    Quiet beh (hs.set h u) f := by
  intro a ha
  obtain ⟨h', c', p', rfl, hd⟩ := hq a ha
  refine ⟨h', c', p', rfl, ?_⟩
  have hne : h ≠ h' := by
    rintro rfl
    rw [hh] at hd
    simp at hd
  rw [List.getElem?_set_ne hne]
  exact hd

theorem calm_set {beh : Nat → List Act} {hs : List Unsub} {l : GoList} {p : Payload}
    {ps : List Nat} {h : Nat} {c : Chan} {q : Ptr}
    (hc : Calm beh hs l p ps) (hh : hs[h]? = some (.single c q false)) (u : Unsub) :
    Calm beh (hs.set h u) l p ps := by
  intro n hn
  obtain ⟨s, t, h1, h2, h3⟩ := hc n hn
  exact ⟨s, t, h1, h2, quiet_set h3 hh u⟩

theorem calm_sub {beh : Nat → List Act} {hs : List Unsub} {l : GoList} {p : Payload}
    {ps qs : List Nat} (hc : Calm beh hs l p ps) (h : ∀ n ∈ qs, n ∈ ps) : Calm beh hs l p qs :=
  fun n hn => hc n (h n hn)

/-- The list after `On(f1); ...; On(fn)` on a channel whose list was empty. -/
theorem onAll_repr {c : Chan} {fs hs : List Nat} {w0 w : World} {l0 l : GoList} {m : Bool}
    (h0 : w0.getEvent c = some ⟨false, l0⟩) (hr0 : Repr l0 [])
    (h : onAll c fs w0 = .ok (hs, w)) (hl : w.getEvent c = some ⟨m, l⟩) :
    Repr l (List.range' l0.arena.length fs.length) := by
  obtain ⟨hs', w1, r, h1, hg, -, hr, -⟩ := onAll_spec fs w0 l0 [] h0 hr0
  rw [h] at h1
  simp only [Except.ok.injEq, Prod.mk.injEq] at h1
  obtain ⟨-, rfl⟩ := h1
  rw [hl] at hg
  simp only [Option.some.injEq, Event.mk.injEq] at hg
  obtain ⟨-, rfl⟩ := hg
  simpa using hr

/-! ## Closures stay in the table -/

theorem lock_handles {c : Chan} {w w1 : World} (h : lock c w = .ok w1) :
    w1.handles = w.handles := by
  unfold lock at h
  split at h
  · cases h
  · split at h
    · cases h
    · cases h; simp

theorem unlock_handles {c : Chan} {w w1 : World} (h : unlock c w = .ok w1) :
    w1.handles = w.handles := by
  unfold unlock at h
  split at h
  · cases h
  · split at h
    · cases h; simp
    · cases h

theorem onList_handles {α : Type} {c : Chan} {w w1 : World} {op : GoList → Option (GoList × α)}
    {a : α} (h : onList c w op = .ok (a, w1)) : w1.handles = w.handles := by
  unfold onList at h
  split at h
  · cases h
  · split at h
    · cases h
    · cases h; simp

theorem except_bind_ok {α β : Type} {x : Except Fault α} {f : α → Except Fault β} {b : β}
    (h : x >>= f = .ok b) : ∃ a, x = .ok a ∧ f a = .ok b := by
  cases x with
  | error e => cases h
  | ok a => exact ⟨a, rfl, h⟩

theorem Event.On_handles {c : Chan} {s : Sub} {w w1 : World} {h : Nat}
    (hon : Event.On c s w = .ok (h, w1)) : ∃ u, w1.handles = w.handles ++ [u] := by
  unfold Event.On at hon
  obtain ⟨wa, h1, hon⟩ := except_bind_ok hon
  obtain ⟨⟨e, wb⟩, h2, hon⟩ := except_bind_ok hon
  obtain ⟨wc, h3, hon⟩ := except_bind_ok hon
  cases hon
  exact ⟨.single c e false, by
    show wc.handles ++ _ = _
    rw [unlock_handles h3, onList_handles h2, lock_handles h1]⟩

theorem onAll_handles {c : Chan} : ∀ (fs : List Nat) {w w1 : World} {hs : List Nat},
    onAll c fs w = .ok (hs, w1) → ∃ us, w1.handles = w.handles ++ us := by
  intro fs
  induction fs with
  | nil =>
    intro w w1 hs h
    cases h
    exact ⟨[], by simp⟩
  | cons f fs ih =>
    intro w w1 hs h
    unfold onAll at h
    obtain ⟨⟨h0, wa⟩, h1, h⟩ := except_bind_ok h
    obtain ⟨⟨hs', wb⟩, h2, h⟩ := except_bind_ok h
    cases h
    obtain ⟨u, hu⟩ := Event.On_handles h1
    obtain ⟨us, hus⟩ := ih h2
    exact ⟨u :: us, by rw [hus, hu]; simp⟩

theorem callTimes_done {h : Nat} {c : Chan} {p : Ptr} : ∀ (k : Nat) {w : World},
    w.handles[h]? = some (.single c p true) → callTimes h k w = .ok w := by
  intro k
  induction k with
  | zero => intro w _; rfl
  | succ k ih =>
    intro w hh
    simp only [callTimes, callUnsub_single hh, callSingle_done hh, except_ok_bind]
    exact ih hh

/-- A call of a closure of `On` that has not run yet, followed by a pass over quiet
callbacks. -/
theorem callUnsub_then_trigger {beh : Nat → List Act} {c : Chan} {v : Payload} {w : World}
    {l : GoList} {ps : List Nat} {h n fuel : Nat}
    (he : w.getEvent c = some ⟨false, l⟩) (hr : Repr l ps)
    (hh : w.handles[h]? = some (.single c (.elem n) false)) (hn : n ∈ ps)
    (hq : Passive beh l v (ps.erase n)) (hfuel : ps.length < fuel) :
    ∃ r w1, Repr r (ps.erase n) ∧ (∀ k, r.valueAt k = l.valueAt k) ∧
      callUnsub h w = .ok w1 ∧ w1.getEvent c = some ⟨false, r⟩ ∧
      w1.handles = w.handles.set h (.single c .null true) ∧
      Event.Trigger beh fuel c v w1 =
        .ok { w1 with log := w1.log ++ callsOf c l v (ps.erase n) } := by
  obtain ⟨r, hrr, -, hval, hcs⟩ := callSingle_spec hh he hr (hr.lt hn)
  have e1 : ({ w.setEvent c ⟨false, r⟩ with
      handles := w.handles.set h (.single c .null true) } : World).getEvent c =
      some ⟨false, r⟩ :=
    (World.getEvent_withHandles _ _ _).trans (World.getEvent_setEvent_same he _)
  refine ⟨r, _, hrr, hval, (callUnsub_single hh).trans hcs, e1, rfl, ?_⟩
  rw [Event.Trigger_passive e1 hrr (passive_congr hq fun k _ => hval k)
    (lt_of_le_of_lt (List.length_erase_le _ _) hfuel), callsOf_congr c v _ (fun k _ => hval k)]

theorem callsOf_single {c : Chan} {l : GoList} {v : Payload} {n f : Nat}
    (h : l.valueAt n = some (.fn f)) : callsOf c l v [n] = [⟨c, .elem n, f, v⟩] := by
  simp [callsOf, callOf, h, Sub.target]

theorem passive_single {beh : Nat → List Act} {l : GoList} {v : Payload} {n f : Nat}
    (h : l.valueAt n = some (.fn f)) (hb : beh f = []) : Passive beh l v [n] := by
  intro k hk
  have : k = n := by simpa using hk
  subst this
  exact ⟨.fn f, (f, v), h, rfl, hb⟩

theorem World.with_log_self (w : World) : ({ w with log := w.log ++ [] } : World) = w := by
  cases w; simp

/-! ## The registry mutex and `lazyInit` -/

theorem regLock_ok {w : World} (hm : w.reg.mtx = false) :
    regLock w = .ok { w with reg := { w.reg with mtx := true } } := by
  simp [regLock, hm]

theorem regUnlock_ok {w : World} (hm : w.reg.mtx = true) :
    regUnlock w = .ok { w with reg := { w.reg with mtx := false } } := by
  simp [regUnlock, hm]

@[simp] theorem Events.lazyInit_events (w : World) : (Events.lazyInit w).events = w.events := by
  unfold Events.lazyInit; split <;> rfl

@[simp] theorem Events.lazyInit_handles (w : World) :
    (Events.lazyInit w).handles = w.handles := by
  unfold Events.lazyInit; split <;> rfl

@[simp] theorem Events.lazyInit_log (w : World) : (Events.lazyInit w).log = w.log := by
  unfold Events.lazyInit; split <;> rfl

@[simp] theorem Events.lazyInit_all (w : World) : (Events.lazyInit w).reg.all = w.reg.all := by
  unfold Events.lazyInit; split <;> rfl

@[simp] theorem Events.lazyInit_mtx (w : World) : (Events.lazyInit w).reg.mtx = w.reg.mtx := by
  unfold Events.lazyInit; split <;> rfl

theorem Events.lazyInit_list (w : World) :
    (Events.lazyInit w).reg.list = some (w.reg.list.getD []) := by
  unfold Events.lazyInit; split <;> simp_all

@[simp] theorem Events.lazyInit_getEvent (w : World) (c : Chan) :
    (Events.lazyInit w).getEvent c = w.getEvent c := by
  cases c <;> simp [World.getEvent]

@[simp] theorem Events.lookup_lazyInit (w : World) (n : String) :
    Events.lookup (Events.lazyInit w) n = Events.lookup w n := by
  unfold Events.lookup
  rw [Events.lazyInit_list]
  cases h : w.reg.list <;> simp

/-- Lock, `lazyInit`, unlock: the registry is as before, with an allocated map. -/
theorem regUnlock_lazyInit {w : World} (hm : w.reg.mtx = false) :
    regUnlock (Events.lazyInit { w with reg := { w.reg with mtx := true } }) =
      .ok (Events.lazyInit w) := by
  rw [regUnlock_ok (by simp)]
  obtain ⟨ev, ⟨m, li, al⟩, hs, lg⟩ := w
  simp only at hm
  subst hm
  cases li <;> rfl

@[simp] theorem Events.lookup_locked (w : World) (b : Bool) (n : String) :
    Events.lookup { w with reg := { w.reg with mtx := b } } n = Events.lookup w n := rfl

theorem World.getEvent_ev_withLog (w : World) (i : Nat) (lg : List Call) :
    ({ w with log := lg } : World).events[i]? = w.events[i]? := rfl

theorem lookup_mem {m : List (String × Nat)} {n : String} {i : Nat}
    (h : m.lookup n = some i) : (n, i) ∈ m := by
  induction m with
  | nil => simp at h
  | cons p m ih =>
    obtain ⟨k, j⟩ := p
    simp only [List.lookup] at h
    by_cases hk : n = k
    · subst hk
      simp at h
      subst h
      simp
    · have : (n == k) = false := by simpa using hk
      simp only [this] at h
      exact List.mem_cons_of_mem _ (ih h)

theorem Events.lookup_some {w : World} {n : String} {i : Nat}
    (h : Events.lookup w n = some i) : ∃ m, w.reg.list = some m ∧ (n, i) ∈ m := by
  unfold Events.lookup at h
  cases hl : w.reg.list with
  | none => simp [hl] at h
  | some m =>
    simp only [hl, Option.some_bind] at h
    exact ⟨m, rfl, lookup_mem h⟩

/-- The channel of a name is on the heap. -/
theorem WF.lookup_lt {w : World} (hwf : WF w) {n : String} {i : Nat}
    (h : Events.lookup w n = some i) : i < w.events.length := by
  obtain ⟨m, hl, hmem⟩ := Events.lookup_some h
  exact hwf.map_lt m hl _ hmem

/-- Different names have different channels. -/
theorem WF.lookup_inj {w : World} (hwf : WF w) {x y : String} {i : Nat}
    (hx : Events.lookup w x = some i) (hy : Events.lookup w y = some i) : x = y := by
  obtain ⟨m, hl, hmx⟩ := Events.lookup_some hx
  obtain ⟨m', hl', hmy⟩ := Events.lookup_some hy
  rw [hl] at hl'
  cases hl'
  have := List.inj_on_of_nodup_map (hwf.map_nodup m hl) hmx hmy rfl
  exact congrArg Prod.fst this

theorem Events.subs_of_lookup {w : World} {n : String} {i : Nat} {e : Event}
    (h : Events.lookup w n = some i) (he : w.events[i]? = some e) :
    Events.subs w n = e.subscribers := by
  simp [Events.subs, h, he]

theorem Events.subs_of_none {w : World} {n : String} (h : Events.lookup w n = none) :
    Events.subs w n = GoList.zero := by
  simp [Events.subs, h]

/-- `Events.Trigger` with quiet callbacks: one pass over the list of the named channel (when
the name has one), then one pass over the catch-all list. -/
theorem Events.Trigger_calls {beh : Nat → List Act} {w : World} {n : String} {v fuel : Nat}
    {ps qs : List Nat} (hm : w.reg.mtx = false) (hwf : WF w)
    (hN : Repr (Events.subs w n) ps) (hpN : Passive beh (Events.subs w n) (.data v) ps)
    (hall : w.reg.all.mtx = false) (hA : Repr w.reg.all.subscribers qs)
    (hpA : Passive beh w.reg.all.subscribers (.multi n v) qs)
    (hfN : ps.length < fuel) (hfA : qs.length < fuel) :
    Events.Trigger beh fuel n v w = .ok { Events.lazyInit w with
      log := w.log ++ (callsOf (Events.chan w n) (Events.subs w n) (.data v) ps ++
        callsOf .all w.reg.all.subscribers (.multi n v) qs) } := by
  have hgA : ∀ lg, ({ Events.lazyInit w with log := lg } : World).getEvent .all =
      some ⟨false, w.reg.all.subscribers⟩ := by
    intro lg
    show some (Events.lazyInit w).reg.all = _
    rw [Events.lazyInit_all, ← hall]
  unfold Events.Trigger Events.triggerWith
  rw [regLock_ok hm]
  simp only [except_ok_bind, Events.lookup_lazyInit, Events.lookup_locked,
    regUnlock_lazyInit hm]
  cases hl : Events.lookup w n with
  | none =>
    have hz : ps = [] := by
      rw [Events.subs_of_none hl] at hN
      exact Repr.unique hN repr_zero
    subst hz
    simp only [except_pure, except_ok_bind]
    rw [Event.Trigger_passive (hgA (Events.lazyInit w).log) hA hpA hfA]
    simp [callsOf]
  | some i =>
    obtain ⟨e, he⟩ : ∃ e, w.events[i]? = some e :=
      ⟨_, List.getElem?_eq_getElem (hwf.lookup_lt hl)⟩
    have hsub := Events.subs_of_lookup hl he
    have hmtx := (hwf.ev i e he).1
    have hg : (Events.lazyInit w).getEvent (.ev i) = some ⟨false, Events.subs w n⟩ := by
      rw [Events.lazyInit_getEvent, hsub, ← hmtx]
      exact he
    simp only []
    rw [Event.Trigger_passive hg hN hpN hfN]
    simp only [except_ok_bind]
    rw [Event.Trigger_passive (hgA _) hA hpA hfA]
    simp [Events.chan, hl, List.append_assoc]

/-! ## Subscribing through the registry -/

theorem World.setEvent_ev_events (w : World) (i : Nat) (e : Event) :
    (w.setEvent (.ev i) e).events = w.events.set i e := rfl

theorem World.setEvent_ev_reg (w : World) (i : Nat) (e : Event) :
    (w.setEvent (.ev i) e).reg = w.reg := rfl

/-- `On` on an event of the heap. -/
theorem On_ev_spec {w : World} {i : Nat} {e : Event} (hwf : WF w) (he : w.events[i]? = some e)
    (s : Sub) :
    ∃ w1 r, Event.On (.ev i) s w = .ok (w.handles.length, w1) ∧ WF w1 ∧ w1.reg = w.reg ∧
      w1.log = w.log ∧
      w1.handles = w.handles ++ [.single (.ev i) (.elem e.subscribers.arena.length) false] ∧
      w1.events = w.events.set i ⟨false, r⟩ ∧
      r.arena.length = e.subscribers.arena.length + 1 ∧
      r.valueAt e.subscribers.arena.length = some s ∧
      (∀ k, k ≠ e.subscribers.arena.length → r.valueAt k = e.subscribers.valueAt k) ∧
      ∀ ps, Repr e.subscribers ps → Repr r (ps ++ [e.subscribers.arena.length]) := by
  obtain ⟨hmtx, ps0, hr0⟩ := hwf.ev i e he
  have hg : w.getEvent (.ev i) = some ⟨false, e.subscribers⟩ := by
    rw [← hmtx]; exact he
  obtain ⟨r, hrr, hlen, hv, hold, hon⟩ := Event.On_spec hg hr0 s
  refine ⟨_, r, hon, ?_, rfl, rfl, rfl, rfl, hlen, hv, hold, ?_⟩
  · refine ⟨?_, ?_, ?_⟩
    · intro m hm p hp
      have := hwf.map_lt m hm p hp
      show p.2 < (w.events.set i _).length
      simpa using this
    · exact hwf.map_nodup
    · intro j e' hj
      have hj' : (w.events.set i ⟨false, r⟩)[j]? = some e' := hj
      rw [List.getElem?_set] at hj'
      split at hj'
      · split at hj'
        · cases hj'
          exact ⟨rfl, _, hrr⟩
        · cases hj'
      · exact hwf.ev j e' hj'
  · intro ps hps
    rw [Repr.unique hps hr0]
    exact hrr

theorem lookup_cons (m : List (String × Nat)) (k n : String) (i : Nat) :
    List.lookup n ((k, i) :: m) = if n = k then some i else List.lookup n m := by
  simp only [List.lookup]
  by_cases h : n = k
  · subst h; simp
  · have : (n == k) = false := by simpa using h
    simp [this, h]

/-- `getSubscribers` on an allocated map: the channel of the name is returned, allocated
first when the name has none; no subscriber list changes. -/
theorem getSubscribers_spec {w : World} (name : String) (hwf : WF w)
    (hl : w.reg.list.isSome = true) :
    ∃ i wa e, Events.getSubscribers name w = .ok (i, wa) ∧ WF wa ∧
      wa.reg.list.isSome = true ∧ wa.reg.mtx = w.reg.mtx ∧ wa.reg.all = w.reg.all ∧
      wa.log = w.log ∧ wa.handles = w.handles ∧
      Events.lookup wa name = some i ∧ wa.events[i]? = some e ∧
      e.subscribers = Events.subs w name ∧
      (∀ n, n ≠ name → Events.lookup wa n = Events.lookup w n) ∧
      (∀ n j, Events.lookup w n = some j → Events.lookup wa n = some j) ∧
      (∀ n, Events.subs wa n = Events.subs w n) ∧
      (∀ j, j < w.events.length → wa.events[j]? = w.events[j]?) ∧
      (Events.lookup w name = none →
        i = w.events.length ∧ wa.events = w.events ++ [Event.zero]) ∧
      ((Events.lookup w name).isSome = true → wa = w) := by
  obtain ⟨m, hm⟩ := Option.isSome_iff_exists.1 hl
  cases hlk : Events.lookup w name with
  | some i =>
    have hlt := hwf.lookup_lt hlk
    refine ⟨i, w, w.events[i], ?_, hwf, hl, rfl, rfl, rfl, rfl, hlk,
      List.getElem?_eq_getElem hlt, ?_, fun _ _ => rfl, fun _ _ h => h, fun _ => rfl,
      fun _ _ => rfl, fun h => (by cases h), fun _ => rfl⟩
    · simp [Events.getSubscribers, hlk]
    · rw [Events.subs_of_lookup hlk (List.getElem?_eq_getElem hlt)]
  | none =>
    obtain ⟨wa, hwa⟩ : ∃ wa : World, wa = { w with
      events := w.events ++ [Event.zero],
      reg := { w.reg with list := some ((name, w.events.length) :: m) } } := ⟨_, rfl⟩
    have hget : Events.getSubscribers name w = .ok (w.events.length, wa) := by
      simp [Events.getSubscribers, hlk, hm, hwa]
    have hlook : ∀ n, Events.lookup wa n =
        if n = name then some w.events.length else Events.lookup w n := by
      intro n
      rw [hwa]
      simp only [Events.lookup, hm, Option.some_bind]
      exact lookup_cons m name n _
    have hev : ∀ j, j < w.events.length → wa.events[j]? = w.events[j]? := by
      intro j hj
      rw [hwa]
      exact List.getElem?_append_left hj
    have hnew : wa.events[w.events.length]? = some Event.zero := by
      rw [hwa]
      show (w.events ++ [Event.zero])[w.events.length]? = _
      rw [List.getElem?_append_right (le_refl _)]
      simp
    have hsubs : ∀ n, Events.subs wa n = Events.subs w n := by
      intro n
      by_cases hn : n = name
      · subst hn
        rw [Events.subs_of_none hlk]
        have := hlook n
        simp only [if_true] at this
        rw [Events.subs_of_lookup this hnew]
        rfl
      · have h1 := hlook n
        simp only [hn, if_false] at h1
        cases h2 : Events.lookup w n with
        | none =>
          rw [Events.subs_of_none h2, Events.subs_of_none (h1.trans h2)]
        | some j =>
          have hj := hwf.lookup_lt h2
          rw [Events.subs_of_lookup h2 (List.getElem?_eq_getElem hj),
            Events.subs_of_lookup (h1.trans h2) ((hev j hj).trans (List.getElem?_eq_getElem hj))]
    refine ⟨w.events.length, wa, Event.zero, hget, ?_, by rw [hwa]; rfl, by rw [hwa],
      by rw [hwa], by rw [hwa], by rw [hwa], ?_, hnew, ?_, ?_, ?_, hsubs, hev,
      fun _ => ⟨rfl, by rw [hwa]⟩, fun h => (by simp at h)⟩
    · refine ⟨?_, ?_, ?_⟩
      · intro m' hm' p hp
        have hm2 : m' = (name, w.events.length) :: m := by
          rw [hwa] at hm'
          simpa using hm'.symm
        subst hm2
        have hlen : wa.events.length = w.events.length + 1 := by rw [hwa]; simp
        rw [hlen]
        rcases List.mem_cons.1 hp with rfl | hp
        · simp
        · have := hwf.map_lt m hm p hp
          omega
      · intro m' hm'
        have hm2 : m' = (name, w.events.length) :: m := by
          rw [hwa] at hm'
          simpa using hm'.symm
        subst hm2
        simp only [List.map_cons, List.nodup_cons]
        refine ⟨?_, hwf.map_nodup m hm⟩
        intro hmem
        obtain ⟨p, hp, hpe⟩ := List.mem_map.1 hmem
        have := hwf.map_lt m hm p hp
        omega
      · intro j e hj
        by_cases hjl : j < w.events.length
        · rw [hev j hjl] at hj
          exact hwf.ev j e hj
        · have hlen : wa.events.length = w.events.length + 1 := by rw [hwa]; simp
          have hj2 : j < wa.events.length := (List.getElem?_eq_some.1 hj).1
          have hje : j = w.events.length := by omega
          subst hje
          rw [hnew] at hj
          cases hj
          exact ⟨rfl, [], repr_zero⟩
    · have := hlook name
      simpa using this
    · rw [Events.subs_of_none hlk]; rfl
    · intro n hn
      have := hlook n
      simpa [hn] using this
    · intro n j hj
      have := hlook n
      by_cases hn : n = name
      · subst hn
        rw [hlk] at hj
        cases hj
      · simpa [hn, hj] using this

theorem Events.lookup_congr {w w1 : World} (h : w1.reg = w.reg) (n : String) :
    Events.lookup w1 n = Events.lookup w n := by
  simp [Events.lookup, h]

theorem WF.setMtx {w : World} (hwf : WF w) (b : Bool) :
    WF { w with reg := { w.reg with mtx := b } } :=
  ⟨hwf.map_lt, hwf.map_nodup, hwf.ev⟩

/-- One subscription through the registry: `c.getSubscribers(name).On(s)`, the registry
mutex being set to `b` in between. -/
theorem register_spec {w : World} (name : String) (s : Sub) (b : Bool) (hwf : WF w)
    (hl : w.reg.list.isSome = true) :
    ∃ i wa w1, Events.getSubscribers name w = .ok (i, wa) ∧
      Event.On (.ev i) s { wa with reg := { wa.reg with mtx := b } } =
        .ok (w.handles.length, w1) ∧ WF w1 ∧
      w1.reg.list.isSome = true ∧ w1.reg.mtx = b ∧ w1.reg.all = w.reg.all ∧
      w1.log = w.log ∧
      w1.handles = w.handles ++
        [.single (.ev i) (.elem (Events.subs w name).arena.length) false] ∧
      Events.lookup w1 name = some i ∧
      (∀ n, n ≠ name → Events.lookup w1 n = Events.lookup w n) ∧
      (∀ n j, Events.lookup w n = some j → Events.lookup w1 n = some j) ∧
      (∀ n, n ≠ name → Events.subs w1 n = Events.subs w n) ∧
      (Events.subs w1 name).arena.length = (Events.subs w name).arena.length + 1 ∧
      (Events.subs w1 name).valueAt (Events.subs w name).arena.length = some s ∧
      (∀ k, k ≠ (Events.subs w name).arena.length →
        (Events.subs w1 name).valueAt k = (Events.subs w name).valueAt k) ∧
      (∀ ps, Repr (Events.subs w name) ps →
        Repr (Events.subs w1 name) (ps ++ [(Events.subs w name).arena.length])) ∧
      ((Events.lookup w name).isSome = true → wa = w) := by
  obtain ⟨i, wa, e, hget, hwfa, hla, hma, halla, hloga, hha, hlka, hea, hesub, hne, hmono,
    hsubs, -, -, hsame⟩ := getSubscribers_spec name hwf hl
  obtain ⟨w1, r, hon, hwf1, hreg1, hlog1, hh1, hev1, hlen1, hv1, hold1, hrepr1⟩ :=
    @On_ev_spec { wa with reg := { wa.reg with mtx := b } } i e (hwfa.setMtx b) hea s
  have hon' : Event.On (.ev i) s { wa with reg := { wa.reg with mtx := b } } =
      .ok (w.handles.length, w1) := by rw [← hha]; exact hon
  have hh1' : w1.handles = w.handles ++ [.single (.ev i) (.elem e.subscribers.arena.length)
      false] := by rw [← hha]; exact hh1
  have hev1' : w1.events = wa.events.set i ⟨false, r⟩ := hev1
  have hlog1' : w1.log = wa.log := hlog1
  rw [hesub] at hh1' hlen1 hv1 hold1 hrepr1
  have hlk1 : ∀ n, Events.lookup w1 n = Events.lookup wa n := fun n =>
    (Events.lookup_congr hreg1 n).trans (Events.lookup_locked wa b n)
  have hilt : i < wa.events.length := (List.getElem?_eq_some.1 hea).1
  have hsub1 : Events.subs w1 name = r := by
    have : w1.events[i]? = some ⟨false, r⟩ := by
      rw [hev1']; simp [hilt]
    rw [Events.subs_of_lookup ((hlk1 name).trans hlka) this]
  refine ⟨i, wa, w1, hget, hon', hwf1, by rw [hreg1]; exact hla, by rw [hreg1],
    by rw [hreg1]; exact halla, hlog1'.trans hloga, hh1', (hlk1 name).trans hlka,
    fun n hn => (hlk1 n).trans (hne n hn), fun n j hj => (hlk1 n).trans (hmono n j hj), ?_,
    by rw [hsub1]; exact hlen1, by rw [hsub1]; exact hv1,
    fun k hk => by rw [hsub1]; exact hold1 k hk,
    fun ps hps => by rw [hsub1]; exact hrepr1 ps hps, hsame⟩
  intro n hn
  rw [← hsubs n]
  cases h2 : Events.lookup wa n with
  | none => rw [Events.subs_of_none h2, Events.subs_of_none ((hlk1 n).trans h2)]
  | some j =>
    have hj := hwfa.lookup_lt h2
    have hji : j ≠ i := by
      rintro rfl
      exact hn (hwfa.lookup_inj h2 hlka)
    have h3 : w1.events[j]? = wa.events[j]? := by
      rw [hev1', List.getElem?_set_ne (Ne.symm hji)]
    rw [Events.subs_of_lookup h2 (List.getElem?_eq_getElem hj),
      Events.subs_of_lookup ((hlk1 n).trans h2) (h3.trans (List.getElem?_eq_getElem hj))]

theorem Events.subs_congr {w w1 : World} (hlk : ∀ n, Events.lookup w1 n = Events.lookup w n)
    (hev : w1.events = w.events) (n : String) : Events.subs w1 n = Events.subs w n := by
  simp [Events.subs, hlk, hev]

theorem WF.enter {w : World} (hwf : WF w) (b : Bool) :
    WF (Events.lazyInit { w with reg := { w.reg with mtx := b } }) := by
  refine ⟨?_, ?_, ?_⟩
  · intro m hm p hp
    rw [Events.lazyInit_list] at hm
    rw [Events.lazyInit_events]
    cases hl : w.reg.list with
    | none =>
      have : m = [] := by simpa [hl] using hm.symm
      subst this
      simp at hp
    | some m' =>
      have : m = m' := by simpa [hl] using hm.symm
      subst this
      exact hwf.map_lt m hl p hp
  · intro m hm
    rw [Events.lazyInit_list] at hm
    cases hl : w.reg.list with
    | none =>
      have : m = [] := by simpa [hl] using hm.symm
      subst this
      simp
    | some m' =>
      have : m = m' := by simpa [hl] using hm.symm
      subst this
      exact hwf.map_nodup m hl
  · intro i e he
    rw [Events.lazyInit_events] at he
    exact hwf.ev i e he

/-- `Events.On` on an unlocked registry. -/
theorem Events.On_reg_spec {w : World} (name : String) (f : Nat) (hm : w.reg.mtx = false)
    (hwf : WF w) :
    ∃ i w1, Events.On name f w = .ok (w.handles.length, w1) ∧ WF w1 ∧
      w1.reg.list.isSome = true ∧ w1.reg.mtx = false ∧ w1.reg.all = w.reg.all ∧
      w1.log = w.log ∧
      w1.handles = w.handles ++
        [.single (.ev i) (.elem (Events.subs w name).arena.length) false] ∧
      Events.lookup w1 name = some i ∧
      (∀ n, n ≠ name → Events.lookup w1 n = Events.lookup w n) ∧
      (∀ n j, Events.lookup w n = some j → Events.lookup w1 n = some j) ∧
      (∀ n, n ≠ name → Events.subs w1 n = Events.subs w n) ∧
      (Events.subs w1 name).arena.length = (Events.subs w name).arena.length + 1 ∧
      (Events.subs w1 name).valueAt (Events.subs w name).arena.length = some (.fn f) ∧
      (∀ k, k ≠ (Events.subs w name).arena.length →
        (Events.subs w1 name).valueAt k = (Events.subs w name).valueAt k) ∧
      ∀ ps, Repr (Events.subs w name) ps →
        Repr (Events.subs w1 name) (ps ++ [(Events.subs w name).arena.length]) := by
  obtain ⟨W, hW⟩ : ∃ W : World, W = Events.lazyInit { w with reg := { w.reg with mtx := true } } :=
    ⟨_, rfl⟩
  have hWwf : WF W := by rw [hW]; exact hwf.enter true
  have hWl : W.reg.list.isSome = true := by rw [hW, Events.lazyInit_list]; rfl
  have hWlk : ∀ n, Events.lookup W n = Events.lookup w n := by
    intro n; rw [hW, Events.lookup_lazyInit, Events.lookup_locked]
  have hWev : W.events = w.events := by rw [hW, Events.lazyInit_events]
  have hWsubs := Events.subs_congr hWlk hWev
  have hWh : W.handles = w.handles := by rw [hW, Events.lazyInit_handles]
  have hWlog : W.log = w.log := by rw [hW, Events.lazyInit_log]
  have hWall : W.reg.all = w.reg.all := by rw [hW, Events.lazyInit_all]
  have hWm : W.reg.mtx = true := by rw [hW, Events.lazyInit_mtx]
  obtain ⟨i, wa, w1, hget, hon, hwf1, hl1, hm1, hall1, hlog1, hh1, hlk1, hne1, hmono1, hsub1,
    hlen1, hv1, hold1, hrepr1, -⟩ := register_spec name (.fn f) false hWwf hWl
  have hwam : wa.reg.mtx = true := by
    obtain ⟨i', wa', e, hget', -, -, hma, -⟩ := getSubscribers_spec name hWwf hWl
    rw [hget] at hget'
    cases hget'
    exact hma.trans hWm
  rw [hWh] at hon hh1
  rw [hWsubs] at hh1 hlen1 hv1 hold1 hrepr1
  refine ⟨i, w1, ?_, hwf1, hl1, hm1, hall1.trans hWall, hlog1.trans hWlog, hh1, hlk1,
    fun n hn => (hne1 n hn).trans (hWlk n), fun n j hj => hmono1 n j ((hWlk n).trans hj),
    fun n hn => (hsub1 n hn).trans (hWsubs n), hlen1, hv1, hold1, hrepr1⟩
  unfold Events.On
  rw [regLock_ok hm]
  simp only [except_ok_bind]
  rw [← hW, hget]
  simp only [except_ok_bind]
  rw [regUnlock_ok hwam]
  simp only [except_ok_bind]
  exact hon

/-- `Events.Subscribe` on an unlocked registry. -/
theorem Events.Subscribe_spec {w : World} {qs : List Nat} (f : Nat) (hm : w.reg.mtx = false)
    (hwf : WF w) (hall : w.reg.all.mtx = false) (hA : Repr w.reg.all.subscribers qs) :
    ∃ w1 r, Events.Subscribe f w = .ok (w.handles.length, w1) ∧ WF w1 ∧
      w1.reg.list.isSome = true ∧ w1.reg.mtx = false ∧ w1.reg.all = ⟨false, r⟩ ∧
      w1.log = w.log ∧ w1.events = w.events ∧
      w1.handles = w.handles ++
        [.single .all (.elem w.reg.all.subscribers.arena.length) false] ∧
      (∀ n, Events.lookup w1 n = Events.lookup w n) ∧
      Repr r (qs ++ [w.reg.all.subscribers.arena.length]) ∧
      r.arena.length = w.reg.all.subscribers.arena.length + 1 ∧
      r.valueAt w.reg.all.subscribers.arena.length = some (.all f) ∧
      ∀ k, k ≠ w.reg.all.subscribers.arena.length →
        r.valueAt k = w.reg.all.subscribers.valueAt k := by
  obtain ⟨W, hW⟩ : ∃ W : World, W = Events.lazyInit { w with reg := { w.reg with mtx := true } } :=
    ⟨_, rfl⟩
  have hWwf : WF W := by rw [hW]; exact hwf.enter true
  have hWl : W.reg.list.isSome = true := by rw [hW, Events.lazyInit_list]; rfl
  have hWlk : ∀ n, Events.lookup W n = Events.lookup w n := by
    intro n; rw [hW, Events.lookup_lazyInit, Events.lookup_locked]
  have hWev : W.events = w.events := by rw [hW, Events.lazyInit_events]
  have hWh : W.handles = w.handles := by rw [hW, Events.lazyInit_handles]
  have hWlog : W.log = w.log := by rw [hW, Events.lazyInit_log]
  have hWall : W.reg.all = w.reg.all := by rw [hW, Events.lazyInit_all]
  have hWm : W.reg.mtx = true := by rw [hW, Events.lazyInit_mtx]
  have hg : W.getEvent .all = some ⟨false, w.reg.all.subscribers⟩ := by
    show some W.reg.all = _
    rw [hWall, ← hall]
  obtain ⟨r, hrr, hlen, hv, hold, hon⟩ := Event.On_spec hg hA (.all f)
  rw [hWh] at hon
  obtain ⟨X, hX⟩ : ∃ X : World, X = { W.setEvent .all ⟨false, r⟩ with
    handles := w.handles ++ [.single .all (.elem w.reg.all.subscribers.arena.length) false] } :=
    ⟨_, rfl⟩
  rw [← hX] at hon
  have hXm : X.reg.mtx = true := by rw [hX]; exact hWm
  refine ⟨{ X with reg := { X.reg with mtx := false } }, r, ?_, ?_, ?_, rfl, ?_, ?_, ?_, ?_, ?_,
    hrr, hlen, hv, hold⟩
  · unfold Events.Subscribe
    rw [regLock_ok hm]
    simp only [except_ok_bind]
    rw [← hW, hon]
    simp only [except_ok_bind]
    rw [regUnlock_ok hXm]
    rfl
  · have hXev : X.events = w.events := by rw [hX]; exact hWev
    have hXl : X.reg.list = W.reg.list := by rw [hX]; rfl
    exact ⟨fun m hm' p hp => by
        have := hWwf.map_lt m (hXl ▸ hm') p hp
        rw [hWev] at this
        show p.2 < X.events.length
        rw [hXev]; exact this,
      fun m hm' => hWwf.map_nodup m (hXl ▸ hm'),
      fun i e he => hwf.ev i e (by rw [← hXev]; exact he)⟩
  · show X.reg.list.isSome = true
    rw [hX]; exact hWl
  · rw [hX]; rfl
  · show X.log = w.log
    rw [hX]; exact hWlog
  · show X.events = w.events
    rw [hX]; exact hWev
  · rw [hX]
  · intro n
    rw [← hWlk n, hX]
    rfl

theorem World.setMtx_self {w : World} {b : Bool} (h : w.reg.mtx = b) :
    ({ w with reg := { w.reg with mtx := b } } : World) = w := by
  subst h; rfl

theorem Events.chan_of_lookup {w : World} {n : String} {i : Nat}
    (h : Events.lookup w n = some i) : Events.chan w n = .ev i := by
  simp [Events.chan, h]

/-- The loop of `SubscribeTo` on an allocated map. -/
theorem subscribeEach_spec (f : Nat) : ∀ (ns : List String) (w : World), WF w →
    w.reg.list.isSome = true →
    ∃ us w1, subscribeEach f ns w = .ok (us, w1) ∧ WF w1 ∧ w1.reg.list.isSome = true ∧
      w1.reg.mtx = w.reg.mtx ∧ w1.reg.all = w.reg.all ∧ w1.log = w.log ∧
      us = List.range' w.handles.length ns.length ∧
      w1.handles = w.handles ++ (targets (fun n => (Events.subs w n).arena.length) ns).map
        (fun t => Unsub.single (Events.chan w1 t.1) (.elem t.2) false) ∧
      (∀ n j, Events.lookup w n = some j → Events.lookup w1 n = some j) ∧
      (∀ n, n ∈ ns → (Events.lookup w1 n).isSome = true) ∧
      (∀ n, n ∉ ns → Events.lookup w1 n = Events.lookup w n) ∧
      (∀ n, (Events.subs w1 n).arena.length = (Events.subs w n).arena.length + ns.count n) ∧
      (∀ n k, k < (Events.subs w n).arena.length →
        (Events.subs w1 n).valueAt k = (Events.subs w n).valueAt k) ∧
      (∀ n k, (Events.subs w n).arena.length ≤ k →
        k < (Events.subs w n).arena.length + ns.count n →
        (Events.subs w1 n).valueAt k = some (.named f n)) ∧
      ∀ n ps, Repr (Events.subs w n) ps →
        Repr (Events.subs w1 n) (ps ++ List.range' (Events.subs w n).arena.length (ns.count n)) := by
  intro ns
  induction ns with
  | nil =>
    intro w hwf hl
    refine ⟨[], w, rfl, hwf, hl, rfl, rfl, rfl, rfl, by simp [targets], fun _ _ h => h,
      fun n hn => (by simp at hn), fun _ _ => rfl, fun n => (by simp), fun _ _ _ => rfl,
      fun n k h1 h2 => (by simp at h2; omega), fun n ps h => (by simpa using h)⟩
  | cons name rest ih =>
    intro w hwf hl
    obtain ⟨i, wa, w', hget, hon, hwf', hl', hm', hall', hlog', hh', hlk', hne', hmono', hsub',
      hlen', hv', hold', hrepr', -⟩ := register_spec name (.named f name) w.reg.mtx hwf hl
    have hwam : wa.reg.mtx = w.reg.mtx := by
      obtain ⟨i', wa', e, hget', -, -, hma, -⟩ := getSubscribers_spec name hwf hl
      rw [hget] at hget'
      cases hget'
      exact hma
    rw [World.setMtx_self hwam] at hon
    obtain ⟨us, w1, hsub, hwf1, hl1, hm1, hall1, hlog1, hus, hh1, hmono1, hin1, hnin1, hlen1,
      hold1, hnew1, hrepr1⟩ := ih w' hwf' hl'
    have ha' : (fun n => (Events.subs w' n).arena.length) =
        fun k => if k = name then (Events.subs w name).arena.length + 1
          else (Events.subs w k).arena.length := by
      funext k
      by_cases hk : k = name
      · subst hk; simp [hlen']
      · simp [hk, hsub' k hk]
    have hw'len : w'.handles.length = w.handles.length + 1 := by rw [hh']; simp
    refine ⟨w.handles.length :: us, w1, ?_, hwf1, hl1, hm1.trans hm', hall1.trans hall',
      hlog1.trans hlog', ?_, ?_, fun n j hj => hmono1 n j (hmono' n j hj), ?_, ?_, ?_, ?_, ?_,
      ?_⟩
    · simp only [subscribeEach, hget, except_ok_bind, hon, hsub, except_pure]
    · rw [hus, hw'len]
      simp [List.range'_succ]
    · rw [hh1, hh', ha']
      simp only [targets, List.map_cons, List.append_assoc, List.singleton_append]
      rw [Events.chan_of_lookup (hmono1 name i hlk')]
    · intro n hn
      rcases List.mem_cons.1 hn with rfl | hn
      · rw [hmono1 n i hlk']; rfl
      · exact hin1 n hn
    · intro n hn
      have h1 : n ≠ name := fun h => hn (by simp [h])
      have h2 : n ∉ rest := fun h => hn (by simp [h])
      rw [hnin1 n h2, hne' n h1]
    · intro n
      rw [hlen1 n]
      by_cases hk : n = name
      · subst hk; rw [hlen']; simp; omega
      · rw [hsub' n hk, List.count_cons_of_ne hk]
    · intro n k hk
      by_cases hn : n = name
      · subst hn
        rw [hold1 n k (by rw [hlen']; omega), hold' k (by omega)]
      · rw [hold1 n k (by rw [hsub' n hn]; exact hk), hsub' n hn]
    · intro n k h1 h2
      by_cases hn : n = name
      · subst hn
        rw [List.count_cons_self] at h2
        by_cases hk : k = (Events.subs w n).arena.length
        · subst hk
          rw [hold1 n _ (by rw [hlen']; omega)]
          exact hv'
        · exact hnew1 n k (by rw [hlen']; omega) (by rw [hlen']; omega)
      · rw [List.count_cons_of_ne hn] at h2
        exact hnew1 n k (by rw [hsub' n hn]; exact h1) (by rw [hsub' n hn]; exact h2)
    · intro n ps hps
      by_cases hn : n = name
      · subst hn
        have := hrepr1 n _ (hrepr' ps hps)
        rw [hlen'] at this
        rw [List.count_cons_self, List.range'_succ]
        simpa [List.append_assoc] using this
      · have := hrepr1 n ps (by rw [hsub' n hn]; exact hps)
        rw [hsub' n hn] at this
        rw [List.count_cons_of_ne hn]
        exact this

theorem targets_mem : ∀ (ns : List String) (a : String → Nat) (n : String) (s : Nat),
    (n, s) ∈ targets a ns ↔ a n ≤ s ∧ s < a n + ns.count n := by
  intro ns
  induction ns with
  | nil => intro a n s; simp [targets]
  | cons m ns ih =>
    intro a n s
    simp only [targets, List.mem_cons, Prod.mk.injEq, ih]
    by_cases hn : n = m
    · subst hn
      simp only [true_and, if_true, List.count_cons_self]
      omega
    · simp only [hn, false_and, false_or, if_false, List.count_cons_of_ne hn]

theorem targets_length (ns : List String) : ∀ a, (targets a ns).length = ns.length := by
  induction ns with
  | nil => intro a; rfl
  | cons m ns ih => intro a; simp [targets, ih]

/-- `SubscribeTo` with at least one name, on an unlocked registry. -/
theorem Events.SubscribeTo_spec {w : World} (f : Nat) (ns : List String) (hns : ns ≠ [])
    (hm : w.reg.mtx = false) (hwf : WF w) :
    ∃ w1, Events.SubscribeTo f ns w = .ok (w.handles.length + ns.length, w1) ∧ WF w1 ∧
      w1.reg.list.isSome = true ∧ w1.reg.mtx = false ∧ w1.reg.all = w.reg.all ∧
      w1.log = w.log ∧
      w1.handles = w.handles ++ (targets (fun n => (Events.subs w n).arena.length) ns).map
        (fun t => Unsub.single (Events.chan w1 t.1) (.elem t.2) false) ++
        [.multi (List.range' w.handles.length ns.length) false] ∧
      (∀ n j, Events.lookup w n = some j → Events.lookup w1 n = some j) ∧
      (∀ n, n ∈ ns → (Events.lookup w1 n).isSome = true) ∧
      (∀ n, n ∉ ns → Events.lookup w1 n = Events.lookup w n) ∧
      (∀ n, (Events.subs w1 n).arena.length = (Events.subs w n).arena.length + ns.count n) ∧
      (∀ n k, k < (Events.subs w n).arena.length →
        (Events.subs w1 n).valueAt k = (Events.subs w n).valueAt k) ∧
      (∀ n k, (Events.subs w n).arena.length ≤ k →
        k < (Events.subs w n).arena.length + ns.count n →
        (Events.subs w1 n).valueAt k = some (.named f n)) ∧
      ∀ n ps, Repr (Events.subs w n) ps →
        Repr (Events.subs w1 n) (ps ++ List.range' (Events.subs w n).arena.length (ns.count n)) := by
  obtain ⟨W, hW⟩ : ∃ W : World, W = Events.lazyInit { w with reg := { w.reg with mtx := true } } :=
    ⟨_, rfl⟩
  have hWwf : WF W := by rw [hW]; exact hwf.enter true
  have hWl : W.reg.list.isSome = true := by rw [hW, Events.lazyInit_list]; rfl
  have hWlk : ∀ n, Events.lookup W n = Events.lookup w n := by
    intro n; rw [hW, Events.lookup_lazyInit, Events.lookup_locked]
  have hWev : W.events = w.events := by rw [hW, Events.lazyInit_events]
  have hWsubs := Events.subs_congr hWlk hWev
  have hWh : W.handles = w.handles := by rw [hW, Events.lazyInit_handles]
  have hWlog : W.log = w.log := by rw [hW, Events.lazyInit_log]
  have hWall : W.reg.all = w.reg.all := by rw [hW, Events.lazyInit_all]
  have hWm : W.reg.mtx = true := by rw [hW, Events.lazyInit_mtx]
  obtain ⟨us, w1, hsub, hwf1, hl1, hm1, hall1, hlog1, hus, hh1, hmono1, hin1, hnin1, hlen1,
    hold1, hnew1, hrepr1⟩ := subscribeEach_spec f ns W hWwf hWl
  have hfun : (fun n => (Events.subs W n).arena.length) =
      fun n => (Events.subs w n).arena.length := by
    funext n; rw [hWsubs]
  rw [hWh, hfun] at hh1
  rw [hWh] at hus
  have hlk' : ∀ n, Events.lookup { w1 with reg := { w1.reg with mtx := false } } n =
      Events.lookup w1 n := fun n => Events.lookup_locked w1 false n
  have hsubs' : ∀ n, Events.subs { w1 with reg := { w1.reg with mtx := false } } n =
      Events.subs w1 n := fun n => Events.subs_congr hlk' rfl n
  have hchan' : ∀ n, Events.chan { w1 with reg := { w1.reg with mtx := false } } n =
      Events.chan w1 n := fun n => by simp [Events.chan, hlk']
  have hlen : w1.handles.length = w.handles.length + ns.length := by
    rw [hh1]; simp [targets_length]
  refine ⟨{ ({ w1 with reg := { w1.reg with mtx := false } } : World) with
    handles := w1.handles ++ [.multi us false] }, ?_,
    ⟨(hwf1.setMtx false).map_lt, (hwf1.setMtx false).map_nodup, (hwf1.setMtx false).ev⟩, hl1, rfl,
    hall1.trans hWall, hlog1.trans hWlog, ?_, ?_, ?_, ?_, ?_, ?_, ?_, ?_⟩
  · unfold Events.SubscribeTo
    have hne : ¬ ns.length = 0 := by
      intro h0; exact hns (List.length_eq_zero.1 h0)
    rw [if_neg hne, regLock_ok hm]
    simp only [except_ok_bind]
    rw [← hW, hsub]
    simp only [except_ok_bind]
    rw [regUnlock_ok (hm1.trans hWm)]
    simp only [except_ok_bind, except_pure]
    rw [← hlen]
  · show w1.handles ++ [.multi us false] = _
    rw [hh1, hus]
    congr 2
  · intro n j hj
    exact hmono1 n j ((hWlk n).trans hj)
  · exact hin1
  · intro n hn
    exact (hnin1 n hn).trans (hWlk n)
  · intro n
    show (Events.subs w1 n).arena.length = _
    rw [hlen1 n, hWsubs]
  · intro n k hk
    show (Events.subs w1 n).valueAt k = _
    rw [hold1 n k (by rw [hWsubs]; exact hk), hWsubs]
  · intro n k h1 h2
    exact hnew1 n k (by rw [hWsubs]; exact h1) (by rw [hWsubs]; exact h2)
  · intro n ps hps
    have := hrepr1 n ps (by rw [hWsubs]; exact hps)
    rw [hWsubs] at this
    exact this

/-- The closure of `On` run on an event of the heap. -/
theorem callSingle_ev_spec {w : World} {u i s : Nat} {e : Event} (hwf : WF w)
    (hh : w.handles[u]? = some (.single (.ev i) (.elem s) false))
    (he : w.events[i]? = some e) (hs : s < e.subscribers.arena.length) :
    ∃ w1 r, callSingle u w = .ok w1 ∧ WF w1 ∧ w1.reg = w.reg ∧ w1.log = w.log ∧
      w1.handles = w.handles.set u (.single (.ev i) .null true) ∧
      w1.events = w.events.set i ⟨false, r⟩ ∧
      r.arena.length = e.subscribers.arena.length ∧
      (∀ k, r.valueAt k = e.subscribers.valueAt k) ∧
      ∀ ps, Repr e.subscribers ps → Repr r (ps.erase s) := by
  obtain ⟨hmtx, ps0, hr0⟩ := hwf.ev i e he
  have hg : w.getEvent (.ev i) = some ⟨false, e.subscribers⟩ := by
    rw [← hmtx]; exact he
  obtain ⟨r, hrr, hlen, hval, hcs⟩ := callSingle_spec hh hg hr0 hs
  refine ⟨_, r, hcs, ?_, rfl, rfl, rfl, rfl, hlen, hval, ?_⟩
  · refine ⟨?_, hwf.map_nodup, ?_⟩
    · intro m hm p hp
      have := hwf.map_lt m hm p hp
      show p.2 < (w.events.set i _).length
      simpa using this
    · intro j e' hj
      have hj' : (w.events.set i ⟨false, r⟩)[j]? = some e' := hj
      rw [List.getElem?_set] at hj'
      split at hj'
      · split at hj'
        · cases hj'
          exact ⟨rfl, _, hrr⟩
        · cases hj'
      · exact hwf.ev j e' hj'
  · intro ps hps
    rw [Repr.unique hps hr0]
    exact hrr

theorem Events.subs_set {w w1 : World} {i : Nat} {e1 : Event} (hwf : WF w)
    (hreg : w1.reg = w.reg) (hev : w1.events = w.events.set i e1) {name : String}
    (hlk : Events.lookup w name = some i) :
    Events.subs w1 name = e1.subscribers ∧ ∀ n, n ≠ name → Events.subs w1 n = Events.subs w n := by
  have hlk1 : ∀ n, Events.lookup w1 n = Events.lookup w n := Events.lookup_congr hreg
  have hilt := hwf.lookup_lt hlk
  refine ⟨?_, ?_⟩
  · have : w1.events[i]? = some e1 := by rw [hev]; simp [hilt]
    rw [Events.subs_of_lookup ((hlk1 name).trans hlk) this]
  · intro n hn
    cases h2 : Events.lookup w n with
    | none => rw [Events.subs_of_none h2, Events.subs_of_none ((hlk1 n).trans h2)]
    | some j =>
      have hj := hwf.lookup_lt h2
      have hji : j ≠ i := by
        rintro rfl
        exact hn (hwf.lookup_inj h2 hlk)
      have h3 : w1.events[j]? = w.events[j]? := by
        rw [hev, List.getElem?_set_ne (Ne.symm hji)]
      rw [Events.subs_of_lookup h2 (List.getElem?_eq_getElem hj),
        Events.subs_of_lookup ((hlk1 n).trans h2) (h3.trans (List.getElem?_eq_getElem hj))]

/-- The loop of the closure of `SubscribeTo`: `Z` lists, for every closure called, its index,
the name of its channel and its slot. -/
theorem callEach_spec : ∀ (Z : List (Nat × String × Nat)) (w : World), WF w →
    (Z.map (·.1)).Nodup →
    (∀ z ∈ Z, ∃ i, Events.lookup w z.2.1 = some i ∧
      w.handles[z.1]? = some (.single (.ev i) (.elem z.2.2) false) ∧
      z.2.2 < (Events.subs w z.2.1).arena.length) →
    ∃ w2, callEach (Z.map (·.1)) w = .ok w2 ∧ WF w2 ∧ w2.reg = w.reg ∧ w2.log = w.log ∧
      w2.handles.length = w.handles.length ∧
      (∀ u, u ∉ Z.map (·.1) → w2.handles[u]? = w.handles[u]?) ∧
      (∀ n, (Events.subs w2 n).arena.length = (Events.subs w n).arena.length) ∧
      (∀ n k, (Events.subs w2 n).valueAt k = (Events.subs w n).valueAt k) ∧
      ∀ n qs, Repr (Events.subs w n) qs →
        Repr (Events.subs w2 n) (qs.filter fun s => decide ((n, s) ∉ Z.map (·.2))) := by
  intro Z
  induction Z with
  | nil =>
    intro w hwf _ _
    exact ⟨w, rfl, hwf, rfl, rfl, rfl, fun _ _ => rfl, fun _ => rfl, fun _ _ => rfl,
      fun n qs h => (by simpa using h)⟩
  | cons z Z ih =>
    intro w hwf hnd hZ
    obtain ⟨u, name, s⟩ := z
    obtain ⟨i, hlk, hh, hs⟩ := hZ (u, name, s) (by simp)
    simp only at hlk hh hs
    have hilt := hwf.lookup_lt hlk
    have he : w.events[i]? = some w.events[i] := List.getElem?_eq_getElem hilt
    have hsubs := Events.subs_of_lookup hlk he
    rw [hsubs] at hs
    obtain ⟨w1, r, hcs, hwf1, hreg1, hlog1, hh1, hev1, hlen1, hval1, hrepr1⟩ :=
      callSingle_ev_spec hwf hh he hs
    obtain ⟨hsn, hso⟩ := Events.subs_set hwf hreg1 hev1 hlk
    simp only at hsn
    have hlk1 : ∀ n, Events.lookup w1 n = Events.lookup w n := Events.lookup_congr hreg1
    have hnd' : (Z.map (·.1)).Nodup := (List.nodup_cons.1 hnd).2
    have hu : u ∉ Z.map (·.1) := (List.nodup_cons.1 hnd).1
    have hlenS : ∀ n, (Events.subs w1 n).arena.length = (Events.subs w n).arena.length := by
      intro n
      by_cases hn : n = name
      · subst hn; rw [hsn, hsubs, hlen1]
      · rw [hso n hn]
    have hvalS : ∀ n k, (Events.subs w1 n).valueAt k = (Events.subs w n).valueAt k := by
      intro n k
      by_cases hn : n = name
      · subst hn; rw [hsn, hsubs, hval1]
      · rw [hso n hn]
    obtain ⟨w2, hce, hwf2, hreg2, hlog2, hhl2, hh2, hlen2, hval2, hrepr2⟩ := ih w1 hwf1 hnd' (by
      intro z hz
      obtain ⟨j, h1, h2, h3⟩ := hZ z (by simp [hz])
      refine ⟨j, (hlk1 _).trans h1, ?_, by rw [hlenS]; exact h3⟩
      have hne : u ≠ z.1 := by
        rintro rfl
        exact hu (List.mem_map.2 ⟨z, hz, rfl⟩)
      rw [hh1, List.getElem?_set_ne hne]
      exact h2)
    refine ⟨w2, ?_, hwf2, hreg2.trans hreg1, hlog2.trans hlog1, ?_, ?_,
      fun n => (hlen2 n).trans (hlenS n), fun n k => (hval2 n k).trans (hvalS n k), ?_⟩
    · simp only [List.map_cons, callEach, hcs, except_ok_bind]
      exact hce
    · rw [hhl2, hh1]; simp
    · intro u' hu'
      simp only [List.map_cons, List.mem_cons, not_or] at hu'
      rw [hh2 u' hu'.2, hh1, List.getElem?_set_ne (Ne.symm hu'.1)]
    · intro n qs hqs
      by_cases hn : n = name
      · subst hn
        have h1 : Repr (Events.subs w1 n) (qs.erase s) := by
          rw [hsn]; exact hrepr1 qs (by rw [← hsubs]; exact hqs)
        have h2 := hrepr2 n _ h1
        rw [List.Nodup.erase_eq_filter hqs.nodup, List.filter_filter] at h2
        have hfun : (fun a => (decide ((n, a) ∉ List.map (fun x => x.2) Z) && (a != s))) =
            fun a => decide ((n, a) ∉ List.map (fun x => x.2) ((u, n, s) :: Z)) := by
          funext a
          rw [Bool.eq_iff_iff]
          simp only [Bool.and_eq_true, decide_eq_true_eq, bne_iff_ne, ne_eq, List.map_cons,
            List.mem_cons, Prod.mk.injEq, true_and, not_or]
          tauto
        rw [hfun] at h2
        exact h2
      · have h1 : Repr (Events.subs w1 n) qs := by rw [hso n hn]; exact hqs
        have h2 := hrepr2 n _ h1
        have hfun : (fun a => decide ((n, a) ∉ List.map (fun x => x.2) Z)) =
            fun a => decide ((n, a) ∉ List.map (fun x => x.2) ((u, name, s) :: Z)) := by
          funext a
          simp [hn]
        rw [hfun] at h2
        exact h2

/-! ## Sample states -/

theorem repr_sample3 : Repr sample3List [0, 1, 2] :=
  @onAll_repr (.ev 0) [1, 2, 3] [0, 1, 2] World.one sample3 GoList.zero sample3List false
    rfl repr_zero rfl rfl

theorem wf_zero : WF World.zero :=
  ⟨fun m hm => (by cases hm), fun m hm => (by cases hm), fun i e he => (by cases he)⟩

/-- What is known of the sample registry. -/
theorem sampleReg_spec : WF sampleReg ∧ Repr (Events.subs sampleReg "a") [0] ∧
    Repr (Events.subs sampleReg "b") [0] ∧ Repr sampleReg.reg.all.subscribers [0] := by
  obtain ⟨i1, w1, h1, hwf1, -, hm1, hall1, -, -, -, -, -, hsub1, -, -, -, hr1⟩ :=
    Events.On_reg_spec "a" 1 (rfl : World.zero.reg.mtx = false) wf_zero
  have e1 : Events.On "a" 1 World.zero = .ok (0, sampleReg1) := rfl
  rw [e1] at h1
  cases h1
  have ra : Repr (Events.subs sampleReg1 "a") [0] := hr1 [] repr_zero
  obtain ⟨i2, w2, h2, hwf2, -, hm2, hall2, -, -, -, -, -, hsub2, -, -, -, hr2⟩ :=
    Events.On_reg_spec "b" 2 hm1 hwf1
  have e2 : Events.On "b" 2 sampleReg1 = .ok (1, sampleReg2) := rfl
  rw [e2] at h2
  cases h2
  have rb : Repr (Events.subs sampleReg2 "b") [0] := hr2 [] repr_zero
  have ra2 : Repr (Events.subs sampleReg2 "a") [0] := by
    rw [hsub2 "a" (by decide)]; exact ra
  obtain ⟨w3, r, h3, hwf3, -, -, hall3, -, hev3, -, hlk3, hr3, -⟩ :=
    Events.Subscribe_spec 3 hm2 hwf2 (rfl : sampleReg2.reg.all.mtx = false)
      (show Repr sampleReg2.reg.all.subscribers [] from repr_zero)
  have e3 : Events.Subscribe 3 sampleReg2 = .ok (2, sampleReg) := rfl
  rw [e3] at h3
  cases h3
  refine ⟨hwf3, ?_, ?_, ?_⟩
  · rw [Events.subs_congr hlk3 hev3]; exact ra2
  · rw [Events.subs_congr hlk3 hev3]; exact rb
  · rw [hall3]; exact hr3

theorem callsOf_slots {beh : Nat → List Act} {c : Chan} {l : GoList} {p : Payload}
    {ps : List Nat} (hp : Passive beh l p ps) :
    (callsOf c l p ps).map (·.slot) = ps.map Ptr.elem := by
  induction ps with
  | nil => rfl
  | cons n ps ih =>
    obtain ⟨s, t, hv, ht, -⟩ := hp n (by simp)
    have hc : callOf c l p n = some ⟨c, .elem n, t.1, t.2⟩ := by simp [callOf, hv, ht]
    rw [callsOf_cons c l p n ps _ hc]
    simp only [List.map_cons]
    rw [ih (fun m hm => hp m (by simp [hm]))]

theorem callsOf_named {c : Chan} {l : GoList} {f v : Nat} {n : String} :
    ∀ (ks : List Nat), (∀ k ∈ ks, l.valueAt k = some (.named f n)) →
      callsOf c l (.data v) ks = ks.map fun k => ⟨c, .elem k, f, .multi n v⟩ := by
  intro ks
  induction ks with
  | nil => intro _; rfl
  | cons k ks ih =>
    intro h
    have hc : callOf c l (.data v) k = some ⟨c, .elem k, f, .multi n v⟩ := by
      simp [callOf, h k (by simp), Sub.target]
    rw [callsOf_cons c l _ k ks _ hc, ih (fun j hj => h j (by simp [hj]))]
    rfl

theorem zip_range_get {α β : Type} (g : β → α) : ∀ (T : List β) (pre post : List α),
    ∀ z ∈ (List.range' pre.length T.length).zip T,
      (pre ++ T.map g ++ post)[z.1]? = some (g z.2) := by
  intro T
  induction T with
  | nil => intro pre post z hz; simp at hz
  | cons t T ih =>
    intro pre post z hz
    simp only [List.length_cons, List.range'_succ, List.zip_cons_cons, List.mem_cons] at hz
    rcases hz with rfl | hz
    · show (pre ++ (t :: T).map g ++ post)[pre.length]? = some (g t)
      rw [List.append_assoc, List.getElem?_append_right (le_refl _)]
      simp
    · have := ih (pre ++ [t].map g) post z (by simpa using hz)
      simpa [List.append_assoc] using this

theorem zip_range_fst {β : Type} (T : List β) (s : Nat) :
    ((List.range' s T.length).zip T).map (·.1) = List.range' s T.length := by
  rw [← List.unzip_fst, List.unzip_zip (by simp)]

theorem zip_range_snd {β : Type} (T : List β) (s : Nat) :
    ((List.range' s T.length).zip T).map (·.2) = T := by
  rw [← List.unzip_snd, List.unzip_zip (by simp)]

theorem filter_targets (ns : List String) (a : String → Nat) (n : String) (ps : List Nat)
    (hps : ∀ k ∈ ps, k < a n) :
    (ps ++ List.range' (a n) (ns.count n)).filter
      (fun s => decide ((n, s) ∉ targets a ns)) = ps := by
  rw [List.filter_append]
  have h1 : ps.filter (fun s => decide ((n, s) ∉ targets a ns)) = ps := by
    rw [List.filter_eq_self]
    intro k hk
    have := hps k hk
    simp only [decide_eq_true_eq, targets_mem]
    omega
  have h2 : (List.range' (a n) (ns.count n)).filter
      (fun s => decide ((n, s) ∉ targets a ns)) = [] := by
    rw [List.filter_eq_nil_iff]
    intro k hk
    simp only [List.mem_range'_1] at hk
    simp only [decide_eq_true_eq, targets_mem, not_not]
    exact hk
  rw [h1, h2, List.append_nil]

/-- `SubscribeTo` with at least one name followed by a call of the closure it returned: every
subscriber list is back to the slots it had. -/
theorem subscribeTo_unsub_spec {w : World} (f : Nat) (ns : List String) (hns : ns ≠ [])
    (hm : w.reg.mtx = false) (hwf : WF w) :
    ∃ h w1 w2, Events.SubscribeTo f ns w = .ok (h, w1) ∧ callUnsub h w1 = .ok w2 ∧
      callUnsub h w2 = .ok w2 ∧ WF w2 ∧ w2.reg.mtx = false ∧ w2.reg.all = w.reg.all ∧
      w2.log = w.log ∧
      (∀ n j, Events.lookup w n = some j → Events.lookup w2 n = some j) ∧
      ∀ n ps, Repr (Events.subs w n) ps → Repr (Events.subs w2 n) ps ∧
        ∀ k ∈ ps, (Events.subs w2 n).valueAt k = (Events.subs w n).valueAt k := by
  obtain ⟨w1, hsub, hwf1, -, hm1, hall1, hlog1, hh1, hmono1, hin1, -, hlen1, hold1, -, hrepr1⟩ :=
    Events.SubscribeTo_spec f ns hns hm hwf
  obtain ⟨T, hT⟩ : ∃ T, T = targets (fun n => (Events.subs w n).arena.length) ns := ⟨_, rfl⟩
  rw [← hT] at hh1
  have hTlen : T.length = ns.length := by rw [hT]; exact targets_length ns _
  obtain ⟨Z, hZ⟩ : ∃ Z, Z = (List.range' w.handles.length T.length).zip T := ⟨_, rfl⟩
  have hZ1 : Z.map (·.1) = List.range' w.handles.length ns.length := by
    rw [hZ, zip_range_fst, hTlen]
  have hZ2 : Z.map (·.2) = T := by rw [hZ, zip_range_snd]
  have hhlen : w1.handles.length = w.handles.length + ns.length + 1 := by
    rw [hh1]; simp [hTlen, Nat.add_assoc]
  have hhh : w1.handles[w.handles.length + ns.length]? =
      some (.multi (List.range' w.handles.length ns.length) false) := by
    rw [hh1, List.getElem?_append_right (by simp [hTlen])]
    simp [hTlen]
  obtain ⟨w2, hce, hwf2, hreg2, hlog2, hhl2, hh2, -, hval2, hrepr2⟩ := callEach_spec Z w1 hwf1
    (by rw [hZ1]; exact List.nodup_range' _ _)
    (by
      intro z hz
      have hmemT : z.2 ∈ T := by
        rw [← hZ2]; exact List.mem_map.2 ⟨z, hz, rfl⟩
      have hmem : (z.2.1, z.2.2) ∈ targets (fun n => (Events.subs w n).arena.length) ns := by
        rw [← hT]; exact hmemT
      rw [targets_mem] at hmem
      have hcnt : 0 < ns.count z.2.1 := by omega
      have hin := hin1 z.2.1 (List.count_pos_iff.1 hcnt)
      obtain ⟨i, hi⟩ := Option.isSome_iff_exists.1 hin
      refine ⟨i, hi, ?_, by rw [hlen1]; exact hmem.2⟩
      rw [hh1, zip_range_get _ T w.handles _ z (by rw [← hZ]; exact hz),
        Events.chan_of_lookup hi])
  rw [hZ1] at hce hh2
  have hcu : callUnsub (w.handles.length + ns.length) w1 = .ok { w2 with
      handles := w2.handles.set (w.handles.length + ns.length)
        (.multi (List.range' w.handles.length ns.length) true) } := by
    simp only [callUnsub, hhh, hce, except_ok_bind, except_pure]
    rfl
  have hlk2 : ∀ n, Events.lookup w2 n = Events.lookup w1 n := Events.lookup_congr hreg2
  refine ⟨_, w1, _, hsub, hcu, ?_, ⟨hwf2.map_lt, hwf2.map_nodup, hwf2.ev⟩,
    by (show w2.reg.mtx = false); rw [hreg2]; exact hm1,
    by (show w2.reg.all = _); rw [hreg2]; exact hall1, hlog2.trans hlog1,
    fun n j hj => (hlk2 n).trans (hmono1 n j hj), ?_⟩
  · obtain ⟨h, hh⟩ : ∃ h, h = w.handles.length + ns.length := ⟨_, rfl⟩
    obtain ⟨us, hus⟩ : ∃ us, us = List.range' w.handles.length ns.length := ⟨_, rfl⟩
    rw [← hh, ← hus]
    have : ({ w2 with handles := w2.handles.set h (.multi us true) } : World).handles[h]? =
        some (.multi us true) := by
      show (w2.handles.set h (.multi us true))[h]? = _
      rw [List.getElem?_set_self (by rw [hhl2, hhlen]; omega)]
    simp only [callUnsub, this]
    rfl
  · intro n ps hps
    have h1 := hrepr2 n _ (hrepr1 n ps hps)
    rw [hZ2, hT, filter_targets ns _ n ps (fun k hk => hps.lt hk)] at h1
    refine ⟨h1, fun k hk => ?_⟩
    show (Events.subs w2 n).valueAt k = _
    rw [hval2, hold1 n k (hps.lt hk)]

theorem erase_last_fresh {qs : List Nat} {a : Nat} (h : a ∉ qs) : (qs ++ [a]).erase a = qs := by
  rw [List.erase_append_right _ h]
  simp

/-! ## Calls on a channel leave the registry map alone -/

theorem SameMap.same (w : World) : SameMap w w := ⟨rfl, rfl⟩

theorem SameMap.andThen {w w1 w2 : World} (h1 : SameMap w w1) (h2 : SameMap w1 w2) :
    SameMap w w2 := ⟨h2.1.trans h1.1, h2.2.trans h1.2⟩

theorem SameMap.setEvent (w : World) (c : Chan) (e : Event) : SameMap w (w.setEvent c e) := by
  cases c <;> exact ⟨rfl, rfl⟩

theorem lock_sameMap {c : Chan} {w w1 : World} (h : lock c w = .ok w1) : SameMap w w1 := by
  unfold lock at h
  split at h
  · cases h
  · split at h
    · cases h
    · cases h; exact SameMap.setEvent _ _ _

theorem unlock_sameMap {c : Chan} {w w1 : World} (h : unlock c w = .ok w1) : SameMap w w1 := by
  unfold unlock at h
  split at h
  · cases h
  · split at h
    · cases h; exact SameMap.setEvent _ _ _
    · cases h

theorem onList_sameMap {α : Type} {c : Chan} {w w1 : World}
    {op : GoList → Option (GoList × α)} {a : α} (h : onList c w op = .ok (a, w1)) :
    SameMap w w1 := by
  unfold onList at h
  split at h
  · cases h
  · split at h
    · cases h
    · cases h; exact SameMap.setEvent _ _ _

theorem Event.On_sameMap {c : Chan} {s : Sub} {w w1 : World} {h : Nat}
    (hon : Event.On c s w = .ok (h, w1)) : SameMap w w1 := by
  unfold Event.On at hon
  obtain ⟨wa, h1, hon⟩ := except_bind_ok hon
  obtain ⟨⟨e, wb⟩, h2, hon⟩ := except_bind_ok hon
  obtain ⟨wc, h3, hon⟩ := except_bind_ok hon
  cases hon
  exact (((lock_sameMap h1).andThen (onList_sameMap h2)).andThen (unlock_sameMap h3)).andThen
    ⟨rfl, rfl⟩

theorem callSingle_sameMap {h : Nat} {w w1 : World} (hc : callSingle h w = .ok w1) :
    SameMap w w1 := by
  unfold callSingle at hc
  split at hc
  · split at hc
    · cases hc; exact SameMap.same _
    · obtain ⟨wa, h1, hc⟩ := except_bind_ok hc
      obtain ⟨⟨u, wb⟩, h2, hc⟩ := except_bind_ok hc
      obtain ⟨wc, h3, hc⟩ := except_bind_ok hc
      cases hc
      exact (((lock_sameMap h1).andThen (onList_sameMap h2)).andThen (unlock_sameMap h3)).andThen
        ⟨rfl, rfl⟩
  · cases hc

theorem callEach_sameMap : ∀ (us : List Nat) {w w1 : World}, callEach us w = .ok w1 →
    SameMap w w1 := by
  intro us
  induction us with
  | nil => intro w w1 h; cases h; exact SameMap.same _
  | cons u us ih =>
    intro w w1 h
    unfold callEach at h
    obtain ⟨wa, h1, h⟩ := except_bind_ok h
    exact (callSingle_sameMap h1).andThen (ih h)

theorem callUnsub_sameMap {h : Nat} {w w1 : World} (hc : callUnsub h w = .ok w1) :
    SameMap w w1 := by
  unfold callUnsub at hc
  split at hc
  · exact callSingle_sameMap hc
  · split at hc
    · cases hc; exact SameMap.same _
    · obtain ⟨wa, h1, hc⟩ := except_bind_ok hc
      cases hc
      exact (callEach_sameMap _ h1).andThen ⟨rfl, rfl⟩
  · cases hc

/-! ## The registry map only grows -/

theorem MapGrows.self (w : World) : MapGrows w w := fun _ _ h => h

theorem MapGrows.comp {w w1 w2 : World} (h1 : MapGrows w w1) (h2 : MapGrows w1 w2) :
    MapGrows w w2 := fun n i h => h2 n i (h1 n i h)

theorem SameMap.grows {w w1 : World} (h : SameMap w w1) : MapGrows w w1 := by
  intro n i hn
  simpa [Events.lookup, h.1] using hn

theorem regLock_eq {w w1 : World} (h : regLock w = .ok w1) :
    w1 = { w with reg := { w.reg with mtx := true } } := by
  unfold regLock at h
  split at h
  · cases h
  · cases h; rfl

theorem regUnlock_eq {w w1 : World} (h : regUnlock w = .ok w1) :
    w1 = { w with reg := { w.reg with mtx := false } } := by
  unfold regUnlock at h
  split at h
  · cases h; rfl
  · cases h

theorem regLock_grows {w w1 : World} (h : regLock w = .ok w1) : MapGrows w w1 := by
  rw [regLock_eq h]; exact fun _ _ h => h

theorem regUnlock_grows {w w1 : World} (h : regUnlock w = .ok w1) : MapGrows w w1 := by
  rw [regUnlock_eq h]; exact fun _ _ h => h

theorem lazyInit_grows (w : World) : MapGrows w (Events.lazyInit w) := by
  intro n i h
  rw [Events.lookup_lazyInit]; exact h

/-! ## Calls made by callbacks keep every name on its channel -/

theorem sameNames_self (w : World) : SameNames w w := ⟨fun _ => rfl, rfl⟩

theorem sameNames_comp {w w1 w2 : World} (h1 : SameNames w w1) (h2 : SameNames w1 w2) :
    SameNames w w2 := ⟨fun n => (h2.1 n).trans (h1.1 n), h2.2.trans h1.2⟩

theorem SameMap.names {w w1 : World} (h : SameMap w w1) : SameNames w w1 :=
  ⟨fun n => by simp only [Events.lookup, h.1], h.2⟩

theorem sameNames_grows {w w1 : World} (h : SameNames w w1) : MapGrows w w1 := by
  intro n i hn
  rw [h.1 n]; exact hn

theorem regLock_mtx {w w1 : World} (h : regLock w = .ok w1) : w.reg.mtx = false := by
  unfold regLock at h
  split at h
  · cases h
  · rename_i hm
    simpa using hm

theorem triggerWith_sameNames {trig : Chan → Payload → World → Except Fault World}
    (ht : ∀ c p w w1, trig c p w = .ok w1 → SameNames w w1)
    {n : String} {v : Nat} {w w1 : World} (h : Events.triggerWith trig n v w = .ok w1) :
    SameNames w w1 := by
  unfold Events.triggerWith at h
  obtain ⟨wa, h1, h⟩ := except_bind_ok h
  simp only at h
  obtain ⟨wb, h2, h⟩ := except_bind_ok h
  have g0 : SameNames w wb := by
    refine ⟨fun k => ?_, ?_⟩
    · rw [regUnlock_eq h2, Events.lookup_locked, Events.lookup_lazyInit, regLock_eq h1]
      rfl
    · rw [regUnlock_eq h2, regLock_mtx h1]
  split at h
  · obtain ⟨wc, h3, h⟩ := except_bind_ok h
    exact sameNames_comp (sameNames_comp g0 (ht _ _ _ _ h3)) (ht _ _ _ _ h)
  · obtain ⟨wc, h3, h⟩ := except_bind_ok h
    cases h3
    exact sameNames_comp g0 (ht _ _ _ _ h)

theorem runActs_sameNames {trig : Chan → Payload → World → Except Fault World}
    (ht : ∀ c p w w1, trig c p w = .ok w1 → SameNames w w1) :
    ∀ (as : List Act) {w w1 : World}, runActs trig as w = .ok w1 → SameNames w w1 := by
  intro as
  induction as with
  | nil => intro w w1 h; cases h; exact sameNames_self _
  | cons a as ih =>
    intro w w1 h
    cases a
    next u =>
      simp only [runActs] at h
      obtain ⟨wa, h1, h⟩ := except_bind_ok h
      exact sameNames_comp (callUnsub_sameMap h1).names (ih h)
    next c f =>
      simp only [runActs] at h
      obtain ⟨⟨u, wa⟩, h1, h⟩ := except_bind_ok h
      exact sameNames_comp (Event.On_sameMap h1).names (ih h)
    next c p =>
      simp only [runActs] at h
      obtain ⟨wa, h1, h⟩ := except_bind_ok h
      exact sameNames_comp (ht c p w wa h1) (ih h)
    next =>
      simp only [runActs] at h
      cases h
    next n v =>
      simp only [runActs] at h
      obtain ⟨wa, h1, h⟩ := except_bind_ok h
      exact sameNames_comp (triggerWith_sameNames ht h1) (ih h)

theorem callSub_sameNames {beh : Nat → List Act}
    {trig : Chan → Payload → World → Except Fault World}
    (ht : ∀ c p w w1, trig c p w = .ok w1 → SameNames w w1)
    {c : Chan} {slot : Ptr} {s : Sub} {p : Payload} {w w1 : World}
    (h : callSub beh trig c slot s p w = .ok w1) : SameNames w w1 := by
  rw [callSub_eq] at h
  split at h
  · have h' := runActs_sameNames ht _ (show runActs trig (beh _) _ = .ok w1 from h)
    exact ⟨h'.1, h'.2⟩
  · cases h

theorem triggerLoop_sameNames (beh : Nat → List Act) : ∀ (fuel : Nat) (c : Chan) (i : Ptr)
    (p : Payload) (w w1 : World), triggerLoop beh fuel c i p w = .ok w1 → SameNames w w1 := by
  intro fuel
  induction fuel with
  | zero => intro c i p w w1 h; simp [triggerLoop] at h
  | succ fuel ih =>
    intro c i p w w1 h
    have htrig : ∀ c p w w1, Event.Trigger beh fuel c p w = .ok w1 → SameNames w w1 := by
      intro c p w w1 h
      unfold Event.Trigger at h
      obtain ⟨wa, h1, h⟩ := except_bind_ok h
      obtain ⟨⟨j, wb⟩, h2, h⟩ := except_bind_ok h
      exact sameNames_comp ((lock_sameMap h1).andThen (onList_sameMap h2)).names
        (ih _ _ _ _ _ h)
    by_cases hi : i = .null
    · subst hi
      rw [triggerLoop_null] at h
      exact (unlock_sameMap h).names
    · rw [triggerLoop] at h
      simp only [hi, if_false] at h
      obtain ⟨wa, h1, h⟩ := except_bind_ok h
      obtain ⟨⟨s, wb⟩, h2, h⟩ := except_bind_ok h
      obtain ⟨wc, h3, h⟩ := except_bind_ok h
      obtain ⟨wd, h4, h⟩ := except_bind_ok h
      obtain ⟨⟨j, we⟩, h5, h⟩ := except_bind_ok h
      exact sameNames_comp (sameNames_comp (sameNames_comp
        ((unlock_sameMap h1).andThen (onList_sameMap h2)).names (callSub_sameNames htrig h3))
        ((lock_sameMap h4).andThen (onList_sameMap h5)).names) (ih _ _ _ _ _ h)

theorem Event.Trigger_sameNames {beh : Nat → List Act} {fuel : Nat} {c : Chan} {p : Payload}
    {w w1 : World} (h : Event.Trigger beh fuel c p w = .ok w1) : SameNames w w1 := by
  unfold Event.Trigger at h
  obtain ⟨wa, h1, h⟩ := except_bind_ok h
  obtain ⟨⟨j, wb⟩, h2, h⟩ := except_bind_ok h
  exact sameNames_comp ((lock_sameMap h1).andThen (onList_sameMap h2)).names
    (triggerLoop_sameNames beh _ _ _ _ _ _ h)

theorem getSubscribers_grows {name : String} {w wa : World} {i : Nat}
    (h : Events.getSubscribers name w = .ok (i, wa)) :
    MapGrows w wa ∧ Events.lookup wa name = some i := by
  unfold Events.getSubscribers at h
  split at h
  · rename_i j hj
    cases h
    exact ⟨MapGrows.self _, hj⟩
  · rename_i hnone
    simp only at h
    split at h
    · cases h
    · rename_i m hm
      cases h
      refine ⟨?_, ?_⟩
      · intro n j hn
        have hne : n ≠ name := by
          rintro rfl
          rw [hnone] at hn
          cases hn
        have hm' : w.reg.list = some m := hm
        simp only [Events.lookup, hm', Option.some_bind] at hn
        simp only [Events.lookup, Option.some_bind, lookup_cons, hne, if_false]
        exact hn
      · simp [Events.lookup, lookup_cons]

theorem Events.On_grows {name : String} {f h : Nat} {w w1 : World}
    (hon : Events.On name f w = .ok (h, w1)) :
    MapGrows w w1 ∧ (Events.lookup w1 name).isSome = true := by
  unfold Events.On at hon
  obtain ⟨wa, h1, hon⟩ := except_bind_ok hon
  simp only at hon
  obtain ⟨⟨i, wb⟩, h2, hon⟩ := except_bind_ok hon
  obtain ⟨wc, h3, hon⟩ := except_bind_ok hon
  have g2 := getSubscribers_grows h2
  have g4 := (Event.On_sameMap hon).grows
  refine ⟨((((regLock_grows h1).comp (lazyInit_grows wa)).comp g2.1).comp
    (regUnlock_grows h3)).comp g4, ?_⟩
  rw [g4 name i (regUnlock_grows h3 name i g2.2)]
  rfl

theorem Events.Subscribe_grows {f h : Nat} {w w1 : World}
    (hon : Events.Subscribe f w = .ok (h, w1)) : MapGrows w w1 := by
  unfold Events.Subscribe at hon
  obtain ⟨wa, h1, hon⟩ := except_bind_ok hon
  simp only at hon
  obtain ⟨⟨i, wb⟩, h2, hon⟩ := except_bind_ok hon
  obtain ⟨wc, h3, hon⟩ := except_bind_ok hon
  cases hon
  exact (((regLock_grows h1).comp (lazyInit_grows wa)).comp (Event.On_sameMap h2).grows).comp
    (regUnlock_grows h3)

theorem subscribeEach_grows (f : Nat) : ∀ (ns : List String) {w w1 : World} {us : List Nat},
    subscribeEach f ns w = .ok (us, w1) →
    MapGrows w w1 ∧ ∀ n ∈ ns, (Events.lookup w1 n).isSome = true := by
  intro ns
  induction ns with
  | nil =>
    intro w w1 us h
    cases h
    exact ⟨MapGrows.self _, fun n hn => (by simp at hn)⟩
  | cons name rest ih =>
    intro w w1 us h
    unfold subscribeEach at h
    obtain ⟨⟨i, wa⟩, h1, h⟩ := except_bind_ok h
    obtain ⟨⟨u, wb⟩, h2, h⟩ := except_bind_ok h
    obtain ⟨⟨us', wc⟩, h3, h⟩ := except_bind_ok h
    cases h
    have g1 := getSubscribers_grows h1
    have g2 := (Event.On_sameMap h2).grows
    obtain ⟨g3, g4⟩ := ih h3
    refine ⟨(g1.1.comp g2).comp g3, ?_⟩
    intro n hn
    rcases List.mem_cons.1 hn with rfl | hn
    · rw [g3 n i (g2 n i g1.2)]; rfl
    · exact g4 n hn

theorem Events.SubscribeTo_grows {f h : Nat} {ns : List String} {w w1 : World}
    (hon : Events.SubscribeTo f ns w = .ok (h, w1)) :
    MapGrows w w1 ∧ ∀ n ∈ ns, (Events.lookup w1 n).isSome = true := by
  unfold Events.SubscribeTo at hon
  split at hon
  · rename_i h0
    have : ns = [] := List.length_eq_zero.1 h0
    subst this
    exact ⟨Events.Subscribe_grows hon, fun n hn => (by simp at hn)⟩
  · obtain ⟨wa, h1, hon⟩ := except_bind_ok hon
    simp only at hon
    obtain ⟨⟨us, wb⟩, h2, hon⟩ := except_bind_ok hon
    obtain ⟨wc, h3, hon⟩ := except_bind_ok hon
    cases hon
    obtain ⟨g2, g3⟩ := subscribeEach_grows f ns h2
    have g4 : MapGrows wb wc := regUnlock_grows h3
    have g5 : MapGrows wc { wc with handles := wc.handles ++ [.multi us false] } :=
      fun _ _ h => h
    refine ⟨((((regLock_grows h1).comp (lazyInit_grows wa)).comp g2).comp g4).comp g5, ?_⟩
    intro n hn
    obtain ⟨j, hj⟩ := Option.isSome_iff_exists.1 (g3 n hn)
    have := g5 n j (g4 n j hj)
    rw [this]; rfl

theorem Events.Trigger_grows {beh : Nat → List Act} {fuel : Nat} {n : String} {v : Nat}
    {w w1 : World} (h : Events.Trigger beh fuel n v w = .ok w1) : MapGrows w w1 :=
  sameNames_grows (triggerWith_sameNames (fun _ _ _ _ h => Event.Trigger_sameNames h) h)

theorem asyncLoop_sameMap : ∀ (fuel : Nat) (c : Chan) (i : Ptr) (p : Payload) (w w1 : World)
    (ts : List Task), asyncLoop fuel c i p w = .ok (ts, w1) → SameMap w w1 := by
  intro fuel
  induction fuel with
  | zero => intro c i p w w1 ts h; simp [asyncLoop] at h
  | succ fuel ih =>
    intro c i p w w1 ts h
    rw [asyncLoop] at h
    split at h
    · cases h; exact SameMap.same _
    · obtain ⟨⟨s, wa⟩, h1, h⟩ := except_bind_ok h
      obtain ⟨⟨j, wb⟩, h2, h⟩ := except_bind_ok h
      obtain ⟨⟨ts', wc⟩, h3, h⟩ := except_bind_ok h
      cases h
      exact ((onList_sameMap h1).andThen (onList_sameMap h2)).andThen (ih _ _ _ _ _ _ h3)

theorem Event.triggerAsync_sameMap {fuel : Nat} {c : Chan} {p : Payload} {wg wg1 : Int}
    {w w1 : World} {ts : List Task}
    (h : Event.triggerAsync fuel c p wg w = .ok (wg1, ts, w1)) : SameMap w w1 := by
  unfold Event.triggerAsync at h
  obtain ⟨⟨n, wa⟩, h1, h⟩ := except_bind_ok h
  simp only at h
  obtain ⟨wb, h2, h⟩ := except_bind_ok h
  obtain ⟨⟨i, wc⟩, h3, h⟩ := except_bind_ok h
  obtain ⟨⟨ts', wd⟩, h4, h⟩ := except_bind_ok h
  obtain ⟨we, h5, h⟩ := except_bind_ok h
  cases h
  exact ((((onList_sameMap h1).andThen (lock_sameMap h2)).andThen (onList_sameMap h3)).andThen
    (asyncLoop_sameMap _ _ _ _ _ _ _ h4)).andThen (unlock_sameMap h5)

theorem runTasks_sameNames (beh : Nat → List Act) (fuel : Nat) : ∀ (ts : List Task)
    (wg wg1 : Int) (w w1 : World), runTasks beh fuel ts wg w = .ok (wg1, w1) →
    SameNames w w1 := by
  intro ts
  induction ts with
  | nil => intro wg wg1 w w1 h; cases h; exact sameNames_self _
  | cons t ts ih =>
    intro wg wg1 w w1 h
    rw [runTasks] at h
    split at h
    · rename_i wg2 wa h1
      unfold runTask at h1
      obtain ⟨wb, h2, h1⟩ := except_bind_ok h1
      cases h1
      exact sameNames_comp (callSub_sameNames (fun _ _ _ _ h => Event.Trigger_sameNames h) h2)
        (ih _ _ _ _ h)
    · split at h <;> cases h
    · cases h

theorem wgWait_eq {wg : Int} {w w1 : World} (h : wgWait wg w = .ok w1) : w1 = w ∧ wg = 0 := by
  unfold wgWait at h
  split at h
  · cases h; exact ⟨rfl, by assumption⟩
  · cases h

theorem Events.TriggerAsync_grows {beh : Nat → List Act} {fuel : Nat}
    {sched : List Task → List Task} {n : String} {v : Nat}
    {w w1 : World} (h : Events.TriggerAsync beh fuel sched n v w = .ok w1) : MapGrows w w1 := by
  unfold Events.TriggerAsync at h
  obtain ⟨wa, h1, h⟩ := except_bind_ok h
  simp only at h
  obtain ⟨wb, h2, h⟩ := except_bind_ok h
  have g0 := ((regLock_grows h1).comp (lazyInit_grows wa)).comp (regUnlock_grows h2)
  split at h
  · obtain ⟨⟨wg, ts1, wc⟩, h3, h⟩ := except_bind_ok h
    obtain ⟨⟨wg2, ts2, wd⟩, h4, h⟩ := except_bind_ok h
    obtain ⟨⟨wg3, we⟩, h5, h⟩ := except_bind_ok h
    rw [(wgWait_eq h).1]
    exact ((g0.comp (Event.triggerAsync_sameMap h3).grows).comp
      (Event.triggerAsync_sameMap h4).grows).comp
      (sameNames_grows (runTasks_sameNames beh fuel _ _ _ _ _ h5))
  · obtain ⟨⟨wg, ts1, wc⟩, h3, h⟩ := except_bind_ok h
    cases h3
    obtain ⟨⟨wg2, ts2, wd⟩, h4, h⟩ := except_bind_ok h
    obtain ⟨⟨wg3, we⟩, h5, h⟩ := except_bind_ok h
    rw [(wgWait_eq h).1]
    exact (g0.comp (Event.triggerAsync_sameMap h4).grows).comp
      (sameNames_grows (runTasks_sameNames beh fuel _ _ _ _ _ h5))

theorem Op.run_grows {beh : Nat → List Act} {fuel : Nat} {sched : List Task → List Task}
    {op : Op} {w w1 : World} (h : op.run beh fuel sched w = .ok w1) : MapGrows w w1 := by
  cases op
  next n f =>
    simp only [Op.run] at h
    obtain ⟨⟨u, wa⟩, h1, h⟩ := except_bind_ok h
    cases h
    exact (Events.On_grows h1).1
  next f =>
    simp only [Op.run] at h
    obtain ⟨⟨u, wa⟩, h1, h⟩ := except_bind_ok h
    cases h
    exact Events.Subscribe_grows h1
  next f ns =>
    simp only [Op.run] at h
    obtain ⟨⟨u, wa⟩, h1, h⟩ := except_bind_ok h
    cases h
    exact (Events.SubscribeTo_grows h1).1
  next n v => exact Events.Trigger_grows h
  next n v => exact Events.TriggerAsync_grows h
  next u => exact (callUnsub_sameMap h).grows

theorem World.setEvent_events_length (w : World) (c : Chan) (e : Event) :
    (w.setEvent c e).events.length = w.events.length := by
  cases c <;> simp [World.setEvent]

theorem Event.On_events_length {c : Chan} {s : Sub} {w w1 : World} {h : Nat}
    (hon : Event.On c s w = .ok (h, w1)) : w1.events.length = w.events.length := by
  unfold Event.On at hon
  obtain ⟨wa, h1, hon⟩ := except_bind_ok hon
  obtain ⟨⟨e, wb⟩, h2, hon⟩ := except_bind_ok hon
  obtain ⟨wc, h3, hon⟩ := except_bind_ok hon
  cases hon
  have e1 : wa.events.length = w.events.length := by
    unfold lock at h1
    split at h1
    · cases h1
    · split at h1
      · cases h1
      · cases h1; exact World.setEvent_events_length _ _ _
  have e2 : wb.events.length = wa.events.length := by
    unfold onList at h2
    split at h2
    · cases h2
    · split at h2
      · cases h2
      · cases h2; exact World.setEvent_events_length _ _ _
  have e3 : wc.events.length = wb.events.length := by
    unfold unlock at h3
    split at h3
    · cases h3
    · split at h3
      · cases h3; exact World.setEvent_events_length _ _ _
      · cases h3
  show wc.events.length = _
  rw [e3, e2, e1]

/-- `Events.On` allocates an event exactly when the name has none. -/
theorem Events.On_alloc {w w1 : World} {name : String} {f h : Nat}
    (hon : Events.On name f w = .ok (h, w1)) :
    (Events.lookup w name = none →
      Events.lookup w1 name = some w.events.length ∧
      w1.events.length = w.events.length + 1) ∧
    ∀ j, Events.lookup w name = some j →
      Events.lookup w1 name = some j ∧ w1.events.length = w.events.length := by
  have hg := (Events.On_grows hon).1
  unfold Events.On at hon
  obtain ⟨wa, h1, hon⟩ := except_bind_ok hon
  simp only at hon
  obtain ⟨⟨i, wb⟩, h2, hon⟩ := except_bind_ok hon
  obtain ⟨wc, h3, hon⟩ := except_bind_ok hon
  have hlen := Event.On_events_length hon
  have hwc : wc.events = wb.events := by rw [regUnlock_eq h3]
  have hW : (Events.lazyInit wa).events = w.events := by
    rw [Events.lazyInit_events, regLock_eq h1]
  have hWlk : Events.lookup (Events.lazyInit wa) name = Events.lookup w name := by
    rw [Events.lookup_lazyInit, regLock_eq h1]; rfl
  have hlk1 : ∀ k, Events.lookup w1 k = Events.lookup wb k := by
    intro k
    have := (Event.On_sameMap hon).1
    simp only [Events.lookup, this, regUnlock_eq h3]
  have hwa : wa.events.length = w.events.length := by rw [regLock_eq h1]
  unfold Events.getSubscribers at h2
  rw [hWlk] at h2
  refine ⟨fun hnone => ?_, fun j hj => ?_⟩
  · rw [hnone] at h2
    simp only at h2
    split at h2
    · cases h2
    · cases h2
      refine ⟨?_, ?_⟩
      · rw [hlk1]
        simp [Events.lookup, lookup_cons, hwa]
      · rw [hlen, hwc]
        simp [hwa]
  · rw [hj] at h2
    cases h2
    exact ⟨hg name _ hj, by rw [hlen, hwc, hW]⟩

/-- A returned `Events.Trigger` leaves the map as `lazyInit` makes it: no name gains or
loses a channel. -/
theorem Events.Trigger_lookup {beh : Nat → List Act} {fuel : Nat} {n : String} {v : Nat}
    {w w1 : World} (h : Events.Trigger beh fuel n v w = .ok w1) (k : String) :
    Events.lookup w1 k = Events.lookup w k :=
  (triggerWith_sameNames (fun _ _ _ _ h => Event.Trigger_sameNames h) h).1 k

/-- A returned `Events.TriggerAsync` leaves the map as `lazyInit` makes it. -/
theorem Events.TriggerAsync_lookup {beh : Nat → List Act} {fuel : Nat}
    {sched : List Task → List Task} {n : String} {v : Nat}
    {w w1 : World} (h : Events.TriggerAsync beh fuel sched n v w = .ok w1) (k : String) :
    Events.lookup w1 k = Events.lookup w k := by
  unfold Events.TriggerAsync at h
  obtain ⟨wa, h1, h⟩ := except_bind_ok h
  simp only at h
  obtain ⟨wb, h2, h⟩ := except_bind_ok h
  have e0 : Events.lookup wb k = Events.lookup w k := by
    rw [regUnlock_eq h2, Events.lookup_locked, Events.lookup_lazyInit, regLock_eq h1]
    rfl
  have es : ∀ {x y : World}, SameMap x y → Events.lookup y k = Events.lookup x k := by
    intro x y hxy
    simp only [Events.lookup, hxy.1]
  split at h
  · obtain ⟨⟨wg, ts1, wc⟩, h3, h⟩ := except_bind_ok h
    obtain ⟨⟨wg2, ts2, wd⟩, h4, h⟩ := except_bind_ok h
    obtain ⟨⟨wg3, we⟩, h5, h⟩ := except_bind_ok h
    rw [(wgWait_eq h).1, (runTasks_sameNames beh fuel _ _ _ _ _ h5).1 k,
      es (Event.triggerAsync_sameMap h4), es (Event.triggerAsync_sameMap h3), e0]
  · obtain ⟨⟨wg, ts1, wc⟩, h3, h⟩ := except_bind_ok h
    cases h3
    obtain ⟨⟨wg2, ts2, wd⟩, h4, h⟩ := except_bind_ok h
    obtain ⟨⟨wg3, we⟩, h5, h⟩ := except_bind_ok h
    rw [(wgWait_eq h).1, (runTasks_sameNames beh fuel _ _ _ _ _ h5).1 k,
      es (Event.triggerAsync_sameMap h4), e0]

theorem runOps_grows {beh : Nat → List Act} {fuel : Nat} {sched : List Task → List Task} :
    ∀ (ops : List Op) {w w1 : World}, runOps beh fuel sched ops w = .ok w1 → MapGrows w w1 := by
  intro ops
  induction ops with
  | nil => intro w w1 h; cases h; exact MapGrows.self _
  | cons op ops ih =>
    intro w w1 h
    unfold runOps at h
    obtain ⟨wa, h1, h⟩ := except_bind_ok h
    exact (Op.run_grows h1).comp (ih h)

/-! ## Asynchronous triggering -/

theorem tasksOf_cons {c : Chan} {l : GoList} {p : Payload} {n : Nat} {s : Sub} (ps : List Nat)
    (h : l.valueAt n = some s) :
    tasksOf c l p (n :: ps) = ⟨c, .elem n, s, p⟩ :: tasksOf c l p ps := by
  simp [tasksOf, List.filterMap_cons, h]

/-- The loop of `triggerAsync` over the slots `seg`: one goroutine per slot, in order. -/
theorem asyncLoop_spec {c : Chan} {p : Payload} {l : GoList} :
    ∀ (seg pre : List Nat) (fuel : Nat) (w : World),
      w.getEvent c = some ⟨true, l⟩ → Repr l (pre ++ seg) →
      asyncLoop (seg.length + (fuel + 1)) c (headP seg .null) p w =
        .ok (tasksOf c l p seg, w) := by
  intro seg
  induction seg with
  | nil =>
    intro pre fuel w _ _
    simp [asyncLoop, headP, tasksOf]
  | cons n seg ih =>
    intro pre fuel w h hr
    obtain ⟨s, hv, hg⟩ := hr.value (n := n) (hr.lt (by simp))
    obtain ⟨x, hx, hxv⟩ := Option.bind_eq_some.1 hg
    have hnext := hr.next_mem
    have hself : w.setEvent c ⟨true, l⟩ = w := World.setEvent_self h
    have e1 : onList c w (fun l => ((l.get (.elem n)).bind (·.Value)).map fun s => (l, s)) =
        .ok (s, w.setEvent c ⟨true, l⟩) := onList_ok h _ (by simp [hx, hxv])
    have e2 : onList c w (fun l => (l.Next (.elem n)).map fun i => (l, i)) =
        .ok (headP seg .null, w.setEvent c ⟨true, l⟩) := onList_ok h _ (by simp [hnext])
    rw [hself] at e1 e2
    have hfuel : (n :: seg).length + (fuel + 1) = (seg.length + (fuel + 1)) + 1 := by
      simp; omega
    have hr2 : Repr l ((pre ++ [n]) ++ seg) := by simpa using hr
    rw [hfuel]
    show asyncLoop (seg.length + (fuel + 1) + 1) c (.elem n) p w = _
    rw [asyncLoop]
    simp only [reduceCtorEq, if_false, e1, except_ok_bind, e2, ih (pre ++ [n]) fuel w h hr2,
      except_pure, tasksOf_cons seg hv]

/-- `triggerAsync` on an unlocked channel: the counter grows by the number of slots and one
goroutine is launched per slot. -/
theorem Event.triggerAsync_spec {c : Chan} {p : Payload} {l : GoList} {ps : List Nat}
    {w : World} {fuel : Nat} (wg : Int) (h : w.getEvent c = some ⟨false, l⟩) (hr : Repr l ps)
    (hfuel : ps.length < fuel) :
    Event.triggerAsync fuel c p wg w = .ok (wg + ps.length, tasksOf c l p ps, w) := by
  obtain ⟨k, rfl⟩ : ∃ k, fuel = ps.length + (k + 1) := ⟨fuel - ps.length - 1, by omega⟩
  have e0 : onList c w (fun l => some (l, l.Len)) = .ok (l.Len, w.setEvent c ⟨false, l⟩) :=
    onList_ok h _ rfl
  rw [World.setEvent_self h] at e0
  have e1 := World.getEvent_setEvent_same h ⟨true, l⟩
  have e2 : onList c (w.setEvent c ⟨true, l⟩) (fun l => some (l, l.Front)) =
      .ok (headP ps .null, (w.setEvent c ⟨true, l⟩).setEvent c ⟨true, l⟩) :=
    onList_ok e1 _ (by rw [hr.front])
  have hloop := asyncLoop_spec (c := c) (p := p) (l := l) ps [] k (w.setEvent c ⟨true, l⟩) e1
    (by simpa using hr)
  have hlen : l.Len = (ps.length : Int) := hr.len
  simp only [Event.triggerAsync, e0, except_ok_bind, lock_ok h, e2, World.setEvent_setEvent,
    hloop, unlock_ok e1, World.setEvent_self h, except_pure, hlen]

/-- Goroutines whose callbacks only return: each makes its call and `wg.Done()`. -/
theorem runTasks_passive {beh : Nat → List Act} {fuel : Nat} : ∀ (ts : List Task) (wg : Int)
    (w : World), (∀ t ∈ ts, ∃ x, t.subscriber.target t.eventData = some x ∧ beh x.1 = []) →
    runTasks beh fuel ts wg w =
      .ok (wg - ts.length, { w with log := w.log ++ ts.filterMap Task.call }) := by
  intro ts
  induction ts with
  | nil =>
    intro wg w _
    simp only [runTasks, except_pure, List.length_nil, List.filterMap_nil, List.append_nil]
    rw [show wg - ((0 : Nat) : Int) = wg by simp]
  | cons t ts ih =>
    intro wg w h
    obtain ⟨x, hx, hb⟩ := h t (by simp)
    have hc : t.call = some ⟨t.chan, t.slot, x.1, x.2⟩ := by simp [Task.call, hx]
    have h1 : runTask beh fuel t wg w =
        .ok (wg - 1, { w with log := w.log ++ [⟨t.chan, t.slot, x.1, x.2⟩] }) := by
      simp only [runTask, callSub_eq, hx, callUser, hb, runActs, except_ok_bind, except_pure]
    simp only [runTasks, h1, except_ok_bind, ih _ _ (fun t' ht' => h t' (by simp [ht'])),
      List.filterMap_cons, hc, List.length_cons]
    congr 2
    · push_cast; ring
    · simp

theorem tasksOf_mem {c : Chan} {l : GoList} {p : Payload} {ps : List Nat} {t : Task}
    (h : t ∈ tasksOf c l p ps) :
    ∃ n s, n ∈ ps ∧ l.valueAt n = some s ∧ t = ⟨c, .elem n, s, p⟩ := by
  simp only [tasksOf, List.mem_filterMap, Option.map_eq_some'] at h
  obtain ⟨n, hn, s, hs, rfl⟩ := h
  exact ⟨n, s, hn, hs, rfl⟩

theorem tasksOf_calls (c : Chan) (l : GoList) (p : Payload) (ps : List Nat) :
    (tasksOf c l p ps).filterMap Task.call = callsOf c l p ps := by
  induction ps with
  | nil => rfl
  | cons n ps ih =>
    simp only [tasksOf, callsOf, List.filterMap_cons] at ih ⊢
    cases hv : l.valueAt n with
    | none => simp [callOf, hv, ih]
    | some s =>
      simp only [Option.map_some', List.filterMap_cons, Task.call, callOf, hv, Option.some_bind,
        ih]

theorem tasksOf_length {c : Chan} {l : GoList} {p : Payload} {ps : List Nat} (hr : Repr l ps) :
    (tasksOf c l p ps).length = ps.length ∧
    (tasksOf c l p ps).map (·.slot) = ps.map Ptr.elem := by
  have key : ∀ qs : List Nat, (∀ n ∈ qs, n < l.arena.length) →
      (tasksOf c l p qs).length = qs.length ∧
      (tasksOf c l p qs).map (·.slot) = qs.map Ptr.elem := by
    intro qs
    induction qs with
    | nil => intro _; exact ⟨rfl, rfl⟩
    | cons n qs ih =>
      intro h
      obtain ⟨s, hv, -⟩ := hr.value (n := n) (h n (by simp))
      obtain ⟨h1, h2⟩ := ih (fun m hm => h m (by simp [hm]))
      rw [tasksOf_cons qs hv]
      exact ⟨by simp [h1], by simp [h2]⟩
  exact key ps (fun n hn => hr.lt hn)

theorem tasksOf_passive {beh : Nat → List Act} {c : Chan} {l : GoList} {p : Payload}
    {ps : List Nat} (hp : Passive beh l p ps) :
    ∀ t ∈ tasksOf c l p ps, ∃ x, t.subscriber.target t.eventData = some x ∧ beh x.1 = [] := by
  intro t ht
  obtain ⟨n, s, hn, hv, rfl⟩ := tasksOf_mem ht
  obtain ⟨s', x, hv', hx, hb⟩ := hp n hn
  rw [hv] at hv'
  cases hv'
  exact ⟨x, hx, hb⟩

/-- Goroutines whose callbacks return or panic: every goroutine of the list makes its call;
the run returns or ends in a panic. -/
theorem runTasks_mixed {beh : Nat → List Act} {fuel : Nat} : ∀ (ts : List Task) (wg : Int)
    (w : World),
    (∀ t ∈ ts, ∃ x, t.subscriber.target t.eventData = some x ∧
      (beh x.1 = [] ∨ ∃ rest, beh x.1 = .fault :: rest)) →
    (∃ wg1, runTasks beh fuel ts wg w =
      .ok (wg1, { w with log := w.log ++ ts.filterMap Task.call })) ∨
    runTasks beh fuel ts wg w =
      .error (.panic { w with log := w.log ++ ts.filterMap Task.call }) := by
  intro ts
  induction ts with
  | nil =>
    intro wg w _
    left
    refine ⟨wg, ?_⟩
    simp [runTasks]
  | cons t ts ih =>
    intro wg w hall
    obtain ⟨x, hx, hb⟩ := hall t (by simp)
    have hc : t.call = some ⟨t.chan, t.slot, x.1, x.2⟩ := by simp [Task.call, hx]
    rcases hb with hb | ⟨rest, hb⟩
    · have h1 : runTask beh fuel t wg w =
          .ok (wg - 1, { w with log := w.log ++ [⟨t.chan, t.slot, x.1, x.2⟩] }) := by
        simp only [runTask, callSub_eq, hx, callUser, hb, runActs, except_ok_bind, except_pure]
      rw [runTasks, h1]
      simp only
      rcases ih (wg - 1) { w with log := w.log ++ [⟨t.chan, t.slot, x.1, x.2⟩] }
        (fun t' ht' => hall t' (by simp [ht'])) with ⟨wg1, h2⟩ | h2
      · left
        refine ⟨wg1, ?_⟩
        rw [h2]
        simp [List.filterMap_cons, hc]
      · right
        rw [h2]
        simp [List.filterMap_cons, hc]
    · have h1 : runTask beh fuel t wg w =
          .error (.panic { w with log := w.log ++ [⟨t.chan, t.slot, x.1, x.2⟩] }) := by
        simp only [runTask, callSub_eq, hx, callUser, hb, runActs, except_error_bind]
      right
      rw [runTasks, h1]
      simp only
      rcases ih wg { w with log := w.log ++ [⟨t.chan, t.slot, x.1, x.2⟩] }
        (fun t' ht' => hall t' (by simp [ht'])) with ⟨wg1, h2⟩ | h2
      · rw [h2]
        simp [List.filterMap_cons, hc]
      · rw [h2]
        simp [List.filterMap_cons, hc]

/-- Goroutines of which at least one panics, the others only returning: every goroutine of
the list makes its call and the run ends in a panic. -/
theorem runTasks_fault {beh : Nat → List Act} {fuel : Nat} : ∀ (ts : List Task) (wg : Int)
    (w : World),
    (∀ t ∈ ts, ∃ x, t.subscriber.target t.eventData = some x ∧
      (beh x.1 = [] ∨ ∃ rest, beh x.1 = .fault :: rest)) →
    (∃ t ∈ ts, ∃ x rest, t.subscriber.target t.eventData = some x ∧ beh x.1 = .fault :: rest) →
    runTasks beh fuel ts wg w =
      .error (.panic { w with log := w.log ++ ts.filterMap Task.call }) := by
  intro ts
  induction ts with
  | nil => intro wg w _ h; obtain ⟨t, ht, -⟩ := h; simp at ht
  | cons t ts ih =>
    intro wg w hall hex
    obtain ⟨x, hx, hb⟩ := hall t (by simp)
    have hc : t.call = some ⟨t.chan, t.slot, x.1, x.2⟩ := by simp [Task.call, hx]
    rcases hb with hb | ⟨rest, hb⟩
    · have h1 : runTask beh fuel t wg w =
          .ok (wg - 1, { w with log := w.log ++ [⟨t.chan, t.slot, x.1, x.2⟩] }) := by
        simp only [runTask, callSub_eq, hx, callUser, hb, runActs, except_ok_bind, except_pure]
      have hex' : ∃ t' ∈ ts, ∃ x rest, t'.subscriber.target t'.eventData = some x ∧
          beh x.1 = .fault :: rest := by
        obtain ⟨t', ht', x', rest', hx', hb'⟩ := hex
        rcases List.mem_cons.1 ht' with rfl | ht'
        · rw [hx] at hx'
          cases hx'
          rw [hb] at hb'
          cases hb'
        · exact ⟨t', ht', x', rest', hx', hb'⟩
      rw [runTasks, h1]
      simp only
      rw [ih (wg - 1) { w with log := w.log ++ [⟨t.chan, t.slot, x.1, x.2⟩] }
        (fun t' ht' => hall t' (by simp [ht'])) hex']
      simp [List.filterMap_cons, hc]
    · have h1 : runTask beh fuel t wg w =
          .error (.panic { w with log := w.log ++ [⟨t.chan, t.slot, x.1, x.2⟩] }) := by
        simp only [runTask, callSub_eq, hx, callUser, hb, runActs, except_error_bind]
      rw [runTasks, h1]
      simp only
      rcases runTasks_mixed ts wg { w with log := w.log ++ [⟨t.chan, t.slot, x.1, x.2⟩] }
        (fun t' ht' => hall t' (by simp [ht'])) with ⟨wg1, h2⟩ | h2
      · rw [h2]
        simp [List.filterMap_cons, hc]
      · rw [h2]
        simp [List.filterMap_cons, hc]

/-- `Events.TriggerAsync` with callbacks that only return and a schedule that runs every
launched goroutine once. -/
theorem Events.TriggerAsync_calls {beh : Nat → List Act} {w : World} {n : String} {v fuel : Nat}
    {sched : List Task → List Task} {ps qs : List Nat} (hm : w.reg.mtx = false) (hwf : WF w)
    (hN : Repr (Events.subs w n) ps) (hpN : Passive beh (Events.subs w n) (.data v) ps)
    (hall : w.reg.all.mtx = false) (hA : Repr w.reg.all.subscribers qs)
    (hpA : Passive beh w.reg.all.subscribers (.multi n v) qs)
    (hs : ∀ ts, (sched ts).Perm ts) (hfN : ps.length < fuel) (hfA : qs.length < fuel) :
    Events.TriggerAsync beh fuel sched n v w = .ok { Events.lazyInit w with
      log := w.log ++ (sched (tasksOf (Events.chan w n) (Events.subs w n) (.data v) ps ++
        tasksOf .all w.reg.all.subscribers (.multi n v) qs)).filterMap Task.call } := by
  have hgA : (Events.lazyInit w).getEvent .all = some ⟨false, w.reg.all.subscribers⟩ := by
    show some (Events.lazyInit w).reg.all = _
    rw [Events.lazyInit_all, ← hall]
  have hlenN := (tasksOf_length (c := Events.chan w n) (p := .data v) hN).1
  have hlenA := (tasksOf_length (c := .all) (p := .multi n v) hA).1
  have hpass : ∀ t ∈ sched (tasksOf (Events.chan w n) (Events.subs w n) (.data v) ps ++
      tasksOf .all w.reg.all.subscribers (.multi n v) qs),
      ∃ x, t.subscriber.target t.eventData = some x ∧ beh x.1 = [] := by
    intro t ht
    rcases List.mem_append.1 ((hs _).mem_iff.1 ht) with h | h
    · exact tasksOf_passive hpN t h
    · exact tasksOf_passive hpA t h
  have hslen : ((sched (tasksOf (Events.chan w n) (Events.subs w n) (.data v) ps ++
      tasksOf .all w.reg.all.subscribers (.multi n v) qs)).length : Int) =
      (ps.length : Int) + qs.length := by
    rw [(hs _).length_eq, List.length_append, hlenN, hlenA]
    push_cast; rfl
  unfold Events.TriggerAsync
  rw [regLock_ok hm]
  simp only [except_ok_bind, Events.lookup_lazyInit, Events.lookup_locked,
    regUnlock_lazyInit hm]
  cases hl : Events.lookup w n with
  | none =>
    have hz : ps = [] := by
      rw [Events.subs_of_none hl] at hN
      exact Repr.unique hN repr_zero
    subst hz
    simp only [except_pure, except_ok_bind]
    rw [Event.triggerAsync_spec 0 hgA hA hfA]
    simp only [except_ok_bind]
    have e : tasksOf (Events.chan w n) (Events.subs w n) (.data v) [] = [] := rfl
    rw [e] at hpass hslen ⊢
    rw [runTasks_passive _ _ _ hpass]
    simp only [except_ok_bind]
    simp only [List.length_nil, Nat.cast_zero, zero_add] at hslen
    rw [hslen]
    simp [wgWait]
  | some i =>
    obtain ⟨e, he⟩ : ∃ e, w.events[i]? = some e :=
      ⟨_, List.getElem?_eq_getElem (hwf.lookup_lt hl)⟩
    have hsub := Events.subs_of_lookup hl he
    have hmtx := (hwf.ev i e he).1
    have hg : (Events.lazyInit w).getEvent (.ev i) = some ⟨false, Events.subs w n⟩ := by
      rw [Events.lazyInit_getEvent, hsub, ← hmtx]
      exact he
    have hchan : Events.chan w n = .ev i := Events.chan_of_lookup hl
    rw [hchan] at hpass hslen ⊢
    simp only []
    rw [Event.triggerAsync_spec 0 hg hN hfN]
    simp only [except_ok_bind]
    rw [Event.triggerAsync_spec _ hgA hA hfA]
    simp only [except_ok_bind]
    rw [runTasks_passive _ _ _ hpass]
    simp only [except_ok_bind]
    rw [hslen]
    simp [wgWait]

theorem good_zero : Good World.zero := ⟨wf_zero, rfl, rfl, [], repr_zero⟩

/-- A subscribing call on a registry at rest returns and leaves a registry at rest. -/
theorem Op.run_good {beh : Nat → List Act} {fuel : Nat} {sched : List Task → List Task}
    {op : Op} {w : World} (hg : Good w) (hop : op.subscribes = true) :
    ∃ w1, op.run beh fuel sched w = .ok w1 ∧ Good w1 := by
  obtain ⟨qs, hqs⟩ := hg.all_repr
  have hsubscribe : ∀ f, ∃ w1, (do
      let (_, w) ← Events.Subscribe f w
      pure w : Except Fault World) = .ok w1 ∧ Good w1 := by
    intro f
    obtain ⟨w1, r, h1, hwf1, -, hm1, hall1, -, -, -, -, hrr, -⟩ :=
      Events.Subscribe_spec f hg.mtx hg.wf hg.all_mtx hqs
    refine ⟨w1, by simp only [h1, except_ok_bind, except_pure], hwf1, hm1, by rw [hall1], ?_⟩
    rw [hall1]
    exact ⟨_, hrr⟩
  cases op
  next n f =>
    obtain ⟨i, w1, h1, hwf1, -, hm1, hall1, -⟩ := Events.On_reg_spec n f hg.mtx hg.wf
    refine ⟨w1, by simp only [Op.run, h1, except_ok_bind, except_pure], hwf1, hm1,
      by rw [hall1]; exact hg.all_mtx, by rw [hall1]; exact ⟨qs, hqs⟩⟩
  next f => exact hsubscribe f
  next f ns =>
    by_cases hns : ns = []
    · subst hns
      exact hsubscribe f
    · obtain ⟨w1, h1, hwf1, -, hm1, hall1, -⟩ := Events.SubscribeTo_spec f ns hns hg.mtx hg.wf
      refine ⟨w1, by simp only [Op.run, h1, except_ok_bind, except_pure], hwf1, hm1,
        by rw [hall1]; exact hg.all_mtx, by rw [hall1]; exact ⟨qs, hqs⟩⟩
  next n v => cases hop
  next n v => cases hop
  next u => cases hop

/-! ## No call waits for a mutex held by its caller -/

theorem Step.pure {α : Type} {a : α} {Q : α → Prop} (h : Q a) :
    Step (Except.ok a : Except Fault α) Q :=
  ⟨fun _ h' => (by cases h'), fun b hb => (by cases hb; exact h)⟩

theorem Step.panic {α : Type} (w : World) (Q : α → Prop) :
    Step (Except.error (.panic w) : Except Fault α) Q :=
  ⟨fun _ h' => (by cases h'), fun b hb => (by cases hb)⟩

theorem Step.timeout {α : Type} (Q : α → Prop) :
    Step (Except.error .timeout : Except Fault α) Q :=
  ⟨fun _ h' => (by cases h'), fun b hb => (by cases hb)⟩

theorem Step.bind {α β : Type} {r : Except Fault α} {f : α → Except Fault β} {Q : α → Prop}
    {R : β → Prop} (h : Step r Q) (hf : ∀ a, Q a → Step (f a) R) : Step (r >>= f) R := by
  cases r with
  | error e =>
    refine ⟨fun w hw => h.1 w ?_, fun b hb => (by cases hb)⟩
    rw [except_error_bind] at hw
    cases hw
    rfl
  | ok a => exact hf a (h.2 a rfl)

theorem Step.mono {α : Type} {r : Except Fault α} {Q R : α → Prop} (h : Step r Q)
    (hqr : ∀ a, Q a → R a) : Step r R :=
  ⟨h.1, fun a ha => hqr a (h.2 a ha)⟩

theorem MtxEq.unchanged (w : World) : MtxEq w w := fun _ => rfl

theorem MtxEq.free {w w1 : World} (h : MtxEq w w1) (hf : Free w) : Free w1 := by
  intro c e he
  have := h c
  rw [he] at this
  cases hw : w.getEvent c with
  | none => rw [hw] at this; cases this
  | some e' =>
    rw [hw] at this
    simp only [Option.map_some', Option.some.injEq] at this
    rw [this]
    exact hf c e' hw

theorem MtxEq.freeBut {w w1 : World} {c : Chan} (h : MtxEq w w1) (hf : FreeBut c w) :
    FreeBut c w1 := by
  obtain ⟨⟨e, he, hm⟩, ho⟩ := hf
  refine ⟨?_, ?_⟩
  · have := h c
    rw [he] at this
    cases hw : w1.getEvent c with
    | none => rw [hw] at this; cases this
    | some e' =>
      rw [hw] at this
      simp only [Option.map_some', Option.some.injEq] at this
      exact ⟨e', rfl, this.trans hm⟩
  · intro c' e' hc he'
    have := h c'
    rw [he'] at this
    cases hw : w.getEvent c' with
    | none => rw [hw] at this; cases this
    | some e'' =>
      rw [hw] at this
      simp only [Option.map_some', Option.some.injEq] at this
      rw [this]
      exact ho c' e'' hc hw

theorem MtxEq.setSubscribers {w : World} {c : Chan} {e : Event} (he : w.getEvent c = some e)
    (l : GoList) : MtxEq w (w.setEvent c { e with subscribers := l }) := by
  intro c'
  rw [World.getEvent_setEvent_of he]
  by_cases h : c' = c
  · subst h; simp [he]
  · simp [h]

theorem lock_step {c : Chan} {w : World} (hf : Free w) : Step (lock c w) (FreeBut c) := by
  unfold lock
  cases he : w.getEvent c with
  | none => exact Step.panic _ _
  | some e =>
    have hm := hf c e he
    simp only [hm, Bool.false_eq_true, if_false]
    refine Step.pure ⟨⟨_, World.getEvent_setEvent_same he _, rfl⟩, ?_⟩
    intro c' e' hc he'
    rw [World.getEvent_setEvent_of he, if_neg hc] at he'
    exact hf c' e' he'

theorem unlock_step {c : Chan} {w : World} (hf : FreeBut c w) : Step (unlock c w) Free := by
  obtain ⟨⟨e, he, hm⟩, ho⟩ := hf
  unfold unlock
  simp only [he, hm, if_true]
  refine Step.pure ?_
  intro c' e' he'
  rw [World.getEvent_setEvent_of he] at he'
  by_cases hc : c' = c
  · rw [if_pos hc] at he'
    cases he'
    rfl
  · rw [if_neg hc] at he'
    exact ho c' e' hc he'

theorem onList_step {α : Type} {c : Chan} {w : World} {op : GoList → Option (GoList × α)} :
    Step (onList c w op) (fun r => MtxEq w r.2) := by
  unfold onList
  cases he : w.getEvent c with
  | none => exact Step.panic _ _
  | some e =>
    simp only
    cases hop : op e.subscribers with
    | none => exact Step.panic _ _
    | some r => exact Step.pure (MtxEq.setSubscribers he _)

theorem Free.withHandles {w : World} (hf : Free w) (hs : List Unsub) :
    Free { w with handles := hs } := fun c e he =>
  hf c e ((World.getEvent_withHandles w c hs).symm.trans he)

theorem Free.withLog {w : World} (hf : Free w) (lg : List Call) :
    Free { w with log := lg } := fun c e he =>
  hf c e ((World.getEvent_withLog w c lg).symm.trans he)

theorem Event.On_step {c : Chan} {s : Sub} {w : World} (hf : Free w) :
    Step (Event.On c s w) (fun r => Free r.2) := by
  unfold Event.On
  refine (lock_step hf).bind fun w1 h1 => ?_
  refine (onList_step (c := c)).bind fun r hr => ?_
  refine (unlock_step (hr.freeBut h1)).bind fun w3 h3 => ?_
  exact Step.pure (h3.withHandles _)

theorem callSingle_step {h : Nat} {w : World} (hf : Free w) : Step (callSingle h w) Free := by
  unfold callSingle
  split
  · split
    · exact Step.pure hf
    · refine (lock_step hf).bind fun w1 h1 => ?_
      refine (onList_step (c := _)).bind fun r hr => ?_
      refine (unlock_step (hr.freeBut h1)).bind fun w3 h3 => ?_
      exact Step.pure (h3.withHandles _)
  · exact Step.panic _ _

theorem callEach_step : ∀ (us : List Nat) {w : World}, Free w → Step (callEach us w) Free := by
  intro us
  induction us with
  | nil => intro w hf; exact Step.pure hf
  | cons u us ih =>
    intro w hf
    unfold callEach
    exact (callSingle_step hf).bind fun w1 h1 => ih h1

theorem callUnsub_step {h : Nat} {w : World} (hf : Free w) : Step (callUnsub h w) Free := by
  unfold callUnsub
  split
  · exact callSingle_step hf
  · split
    · exact Step.pure hf
    · refine (callEach_step _ hf).bind fun w1 h1 => ?_
      exact Step.pure (h1.withHandles _)
  · exact Step.panic _ _

theorem Step.also {α : Type} {r : Except Fault α} {Q R : α → Prop} (h : Step r Q)
    (hr : ∀ a, r = .ok a → R a) : Step r (fun a => Q a ∧ R a) :=
  ⟨h.1, fun a ha => ⟨h.2 a ha, hr a ha⟩⟩

theorem Free.lazyInit {w : World} (hf : Free w) : Free (Events.lazyInit w) := fun c e he =>
  hf c e ((Events.lazyInit_getEvent w c).symm.trans he)

theorem idle_lazyInit {w : World} (hi : Idle w) : Idle (Events.lazyInit w) :=
  ⟨hi.1.lazyInit, by rw [Events.lazyInit_mtx]; exact hi.2⟩

theorem callUnsub_idle {h : Nat} {w : World} (hi : Idle w) : Step (callUnsub h w) Idle :=
  (callUnsub_step hi.1).also fun _ h1 => (callUnsub_sameMap h1).2.trans hi.2

theorem Event.On_idle {c : Chan} {s : Sub} {w : World} (hi : Idle w) :
    Step (Event.On c s w) (fun r => Idle r.2) :=
  (Event.On_step hi.1).also fun r h1 => (@Event.On_sameMap c s w r.2 r.1 h1).2.trans hi.2

/-- The body of `Events.Trigger` entered with no mutex held: the registry mutex is taken and
released again before the first pass starts. -/
theorem triggerWith_idle {trig : Chan → Payload → World → Except Fault World}
    (ht : ∀ c p w, Idle w → Step (trig c p w) Idle) {n : String} {v : Nat} {w : World}
    (hi : Idle w) : Step (Events.triggerWith trig n v w) Idle := by
  unfold Events.triggerWith
  rw [regLock_ok hi.2]
  simp only [except_ok_bind, Events.lookup_lazyInit, Events.lookup_locked,
    regUnlock_lazyInit hi.2]
  cases Events.lookup w n with
  | none =>
    simp only [except_pure, except_ok_bind]
    exact ht _ _ _ (idle_lazyInit hi)
  | some i =>
    simp only []
    exact (ht _ _ _ (idle_lazyInit hi)).bind fun w1 h1 => ht _ _ _ h1

theorem runActs_idle {trig : Chan → Payload → World → Except Fault World}
    (ht : ∀ c p w, Idle w → Step (trig c p w) Idle) :
    ∀ (as : List Act) {w : World}, Idle w → Step (runActs trig as w) Idle := by
  intro as
  induction as with
  | nil => intro w hi; exact Step.pure hi
  | cons a as ih =>
    intro w hi
    cases a
    next u =>
      simp only [runActs]
      exact (callUnsub_idle hi).bind fun w1 h1 => ih h1
    next c f =>
      simp only [runActs]
      exact (Event.On_idle hi).bind fun r hr => ih hr
    next c p =>
      simp only [runActs]
      exact (ht c p w hi).bind fun w1 h1 => ih h1
    next =>
      simp only [runActs]
      exact Step.panic _ _
    next n v =>
      simp only [runActs]
      exact (triggerWith_idle ht hi).bind fun w1 h1 => ih h1

theorem idle_withLog {w : World} (hi : Idle w) (lg : List Call) :
    Idle { w with log := lg } := ⟨hi.1.withLog lg, hi.2⟩

theorem callSub_idle {beh : Nat → List Act}
    {trig : Chan → Payload → World → Except Fault World}
    (ht : ∀ c p w, Idle w → Step (trig c p w) Idle)
    {c : Chan} {slot : Ptr} {s : Sub} {p : Payload} {w : World} (hi : Idle w) :
    Step (callSub beh trig c slot s p w) Idle := by
  rw [callSub_eq]
  split
  · exact runActs_idle ht _ (idle_withLog hi _)
  · exact Step.panic _ _

theorem lock_idle {c : Chan} {w : World} (hi : Idle w) :
    Step (lock c w) (fun w1 => FreeBut c w1 ∧ w1.reg.mtx = false) :=
  (lock_step hi.1).also fun _ h1 => (lock_sameMap h1).2.trans hi.2

theorem unlock_idle {c : Chan} {w : World} (hb : FreeBut c w) (hm : w.reg.mtx = false) :
    Step (unlock c w) Idle :=
  (unlock_step hb).also fun _ h1 => (unlock_sameMap h1).2.trans hm

theorem onList_idle {α : Type} {c : Chan} {w : World} {op : GoList → Option (GoList × α)}
    (hm : w.reg.mtx = false) :
    Step (onList c w op) (fun r => MtxEq w r.2 ∧ r.2.reg.mtx = false) :=
  (onList_step (c := c)).also fun r h1 =>
    (@onList_sameMap α c w r.2 op r.1 h1).2.trans hm

theorem triggerLoop_idle (beh : Nat → List Act) : ∀ (fuel : Nat) (c : Chan) (i : Ptr)
    (p : Payload) (w : World), FreeBut c w → w.reg.mtx = false →
    Step (triggerLoop beh fuel c i p w) Idle := by
  intro fuel
  induction fuel with
  | zero =>
    intro c i p w _ _
    rw [triggerLoop_zero]
    exact Step.timeout _
  | succ fuel ih =>
    intro c i p w hb hm
    have htrig : ∀ c p w, Idle w → Step (Event.Trigger beh fuel c p w) Idle := by
      intro c p w hi
      unfold Event.Trigger
      refine (lock_idle hi).bind fun w1 h1 => ?_
      refine (onList_idle h1.2).bind fun r hr => ?_
      exact ih _ _ _ _ (hr.1.freeBut h1.1) hr.2
    by_cases hi : i = .null
    · subst hi
      rw [triggerLoop_null]
      exact unlock_idle hb hm
    · rw [triggerLoop]
      simp only [hi, if_false]
      refine (unlock_idle hb hm).bind fun w1 h1 => ?_
      refine (onList_idle h1.2).bind fun r hr => ?_
      refine (callSub_idle htrig ⟨hr.1.free h1.1, hr.2⟩).bind fun w3 h3 => ?_
      refine (lock_idle h3).bind fun w4 h4 => ?_
      refine (onList_idle h4.2).bind fun r5 hr5 => ?_
      exact ih _ _ _ _ (hr5.1.freeBut h4.1) hr5.2

theorem Event.Trigger_idle {beh : Nat → List Act} {fuel : Nat} {c : Chan} {p : Payload}
    {w : World} (hi : Idle w) : Step (Event.Trigger beh fuel c p w) Idle := by
  unfold Event.Trigger
  refine (lock_idle hi).bind fun w1 h1 => ?_
  refine (onList_idle h1.2).bind fun r hr => ?_
  exact triggerLoop_idle beh _ _ _ _ _ (hr.1.freeBut h1.1) hr.2

theorem Events.Trigger_reg_step {beh : Nat → List Act} {fuel : Nat} {n : String} {v : Nat}
    {w : World} (hf : Free w) (hm : w.reg.mtx = false) :
    Step (Events.Trigger beh fuel n v w) (fun w1 => Free w1 ∧ w1.reg.mtx = false) :=
  triggerWith_idle (fun _ _ _ hi => Event.Trigger_idle hi) ⟨hf, hm⟩

theorem free_sample3 : Free sample3 := by
  have hev : sample3.events = [⟨false, sample3List⟩] := rfl
  intro c e he
  cases c with
  | all =>
    simp only [World.getEvent, Option.some.injEq] at he
    subst he
    rfl
  | ev i =>
    simp only [World.getEvent, hev] at he
    cases i with
    | zero =>
      simp only [List.getElem?_cons_zero, Option.some.injEq] at he
      subst he
      rfl
    | succ i => simp at he

theorem free_sampleReg : Free sampleReg := by
  have hev : sampleReg.events = [⟨false, (Events.subs sampleReg "a")⟩,
      ⟨false, (Events.subs sampleReg "b")⟩] := rfl
  have hall : sampleReg.reg.all.mtx = false := rfl
  intro c e he
  cases c with
  | all =>
    simp only [World.getEvent, Option.some.injEq] at he
    subst he
    exact hall
  | ev i =>
    simp only [World.getEvent, hev] at he
    cases i with
    | zero =>
      simp only [List.getElem?_cons_zero, Option.some.injEq] at he
      subst he
      rfl
    | succ i =>
      cases i with
      | zero =>
        simp only [List.getElem?_cons_succ, List.getElem?_cons_zero, Option.some.injEq] at he
        subst he
        rfl
      | succ i => simp at he

theorem getSubscribers_step {name : String} {w : World} (hf : Free w) :
    Step (Events.getSubscribers name w) (fun r => Free r.2 ∧ r.2.reg.mtx = w.reg.mtx) := by
  unfold Events.getSubscribers
  split
  · exact Step.pure ⟨hf, rfl⟩
  · simp only
    split
    · exact Step.panic _ _
    · refine Step.pure ⟨?_, rfl⟩
      intro c e he
      cases c with
      | all => exact hf .all e he
      | ev j =>
        have he' : (w.events ++ [Event.zero])[j]? = some e := he
        by_cases hj : j < w.events.length
        · rw [List.getElem?_append_left hj] at he'
          exact hf (.ev j) e he'
        · rw [List.getElem?_append_right (by omega)] at he'
          have hmem : e ∈ [Event.zero] := by
            obtain ⟨hlt, hget⟩ := List.getElem?_eq_some.1 he'
            rw [← hget]
            exact List.getElem_mem _
          simp only [List.mem_singleton] at hmem
          subst hmem
          rfl

theorem Events.On_reg_step {name : String} {f : Nat} {w : World} (hf : Free w)
    (hm : w.reg.mtx = false) :
    Step (Events.On name f w) (fun r => Free r.2 ∧ r.2.reg.mtx = false) := by
  unfold Events.On
  rw [regLock_ok hm]
  simp only [except_ok_bind]
  have hW : Free (Events.lazyInit { w with reg := { w.reg with mtx := true } }) := by
    intro c e he
    rw [Events.lazyInit_getEvent] at he
    exact hf c e (by cases c <;> exact he)
  refine (getSubscribers_step hW).bind fun r hr => ?_
  have hrm : r.2.reg.mtx = true := by rw [hr.2, Events.lazyInit_mtx]
  rw [regUnlock_ok hrm]
  simp only [except_ok_bind]
  have hfree : Free { r.2 with reg := { r.2.reg with mtx := false } } := by
    intro c e he
    exact hr.1 c e (by cases c <;> exact he)
  have hs := @Event.On_step (.ev r.1) (.fn f) _ hfree
  exact ⟨hs.1, fun a ha => ⟨hs.2 a ha, (@Event.On_sameMap _ _ _ a.2 a.1 ha).2⟩⟩

theorem tasksOf_nodup {c : Chan} {l : GoList} {p : Payload} {ps : List Nat}
    (hr : Repr l ps) : (tasksOf c l p ps).Nodup := by
  have h := (tasksOf_length (c := c) (p := p) hr).2
  have hnd : ((tasksOf c l p ps).map (·.slot)).Nodup := by
    rw [h]
    exact hr.nodup.map (fun a b hab => by cases hab; rfl)
  exact hnd.of_map _

/-- What a subscribing call on a registry at rest keeps: the closures made so far, the
channel of every name, and the elements every list has allocated. -/
theorem Op.run_keeps {beh : Nat → List Act} {fuel : Nat} {sched : List Task → List Task}
    {op : Op} {w : World} (hg : Good w) (hop : op.subscribes = true) :
    ∃ w1, op.run beh fuel sched w = .ok w1 ∧ Good w1 ∧
      (∃ extra, w1.handles = w.handles ++ extra) ∧ MapGrows w w1 ∧
      (∀ n, (Events.subs w n).arena.length ≤ (Events.subs w1 n).arena.length) ∧
      (∀ n k, k < (Events.subs w n).arena.length →
        (Events.subs w1 n).valueAt k = (Events.subs w n).valueAt k) ∧
      w1.log = w.log := by
  obtain ⟨qs, hqs⟩ := hg.all_repr
  have hsubscribe : ∀ f, ∃ w1, (do
      let (_, w) ← Events.Subscribe f w
      pure w : Except Fault World) = .ok w1 ∧ Good w1 ∧
      (∃ extra, w1.handles = w.handles ++ extra) ∧ MapGrows w w1 ∧
      (∀ n, (Events.subs w n).arena.length ≤ (Events.subs w1 n).arena.length) ∧
      (∀ n k, k < (Events.subs w n).arena.length →
        (Events.subs w1 n).valueAt k = (Events.subs w n).valueAt k) ∧
      w1.log = w.log := by
    intro f
    obtain ⟨w1, r, h1, hwf1, -, hm1, hall1, hlog1, hev1, hh1, hlk1, hrr, -⟩ :=
      Events.Subscribe_spec f hg.mtx hg.wf hg.all_mtx hqs
    have hs := Events.subs_congr hlk1 hev1
    refine ⟨w1, by simp only [h1, except_ok_bind, except_pure],
      ⟨hwf1, hm1, by rw [hall1], by rw [hall1]; exact ⟨_, hrr⟩⟩, ⟨_, hh1⟩,
      fun n i hi => (hlk1 n).trans hi, fun n => by rw [hs], fun n k _ => by rw [hs], hlog1⟩
  cases op
  next n f =>
    obtain ⟨i, w1, h1, hwf1, -, hm1, hall1, hlog1, hh1, -, -, hmono, hoth, hlen, -, hold, -⟩ :=
      Events.On_reg_spec n f hg.mtx hg.wf
    refine ⟨w1, by simp only [Op.run, h1, except_ok_bind, except_pure],
      ⟨hwf1, hm1, by rw [hall1]; exact hg.all_mtx, by rw [hall1]; exact ⟨qs, hqs⟩⟩, ⟨_, hh1⟩,
      hmono, ?_, ?_, hlog1⟩
    · intro m
      by_cases hmn : m = n
      · subst hmn; rw [hlen]; omega
      · rw [hoth m hmn]
    · intro m k hk
      by_cases hmn : m = n
      · subst hmn
        exact hold k (by omega)
      · rw [hoth m hmn]
  next f => exact hsubscribe f
  next f ns =>
    by_cases hns : ns = []
    · subst hns
      exact hsubscribe f
    · obtain ⟨w1, h1, hwf1, -, hm1, hall1, hlog1, hh1, hmono, -, -, hlen, hold, -⟩ :=
        Events.SubscribeTo_spec f ns hns hg.mtx hg.wf
      refine ⟨w1, by simp only [Op.run, h1, except_ok_bind, except_pure],
        ⟨hwf1, hm1, by rw [hall1]; exact hg.all_mtx, by rw [hall1]; exact ⟨qs, hqs⟩⟩,
        ⟨_, by rw [hh1, List.append_assoc]⟩, hmono, fun n => by rw [hlen]; omega, hold, hlog1⟩
  next n v => cases hop
  next n v => cases hop
  next u => cases hop

/-- Subscribing calls in a row on a registry at rest. -/
theorem runOps_keeps {beh : Nat → List Act} {fuel : Nat} {sched : List Task → List Task} :
    ∀ (ops : List Op) (w : World), Good w → (∀ op ∈ ops, op.subscribes = true) →
    ∃ w1, runOps beh fuel sched ops w = .ok w1 ∧ Good w1 ∧
      (∃ extra, w1.handles = w.handles ++ extra) ∧ MapGrows w w1 ∧
      (∀ n, (Events.subs w n).arena.length ≤ (Events.subs w1 n).arena.length) ∧
      (∀ n k, k < (Events.subs w n).arena.length →
        (Events.subs w1 n).valueAt k = (Events.subs w n).valueAt k) ∧
      w1.log = w.log := by
  intro ops
  induction ops with
  | nil =>
    intro w hg _
    exact ⟨w, rfl, hg, ⟨[], by simp⟩, MapGrows.self _, fun _ => le_refl _, fun _ _ _ => rfl, rfl⟩
  | cons op ops ih =>
    intro w hg hops
    obtain ⟨w1, h1, hg1, ⟨x1, hh1⟩, hm1, hl1, hv1, hlog1⟩ :=
      @Op.run_keeps beh fuel sched op w hg (hops op (by simp))
    obtain ⟨w2, h2, hg2, ⟨x2, hh2⟩, hm2, hl2, hv2, hlog2⟩ :=
      ih w1 hg1 (fun o ho => hops o (by simp [ho]))
    refine ⟨w2, by simp only [runOps, h1, except_ok_bind, h2], hg2,
      ⟨x1 ++ x2, by rw [hh2, hh1, List.append_assoc]⟩, hm1.comp hm2,
      fun n => (hl1 n).trans (hl2 n), fun n k hk => ?_, hlog2.trans hlog1⟩
    rw [hv2 n k (lt_of_lt_of_le hk (hl1 n)), hv1 n k hk]

/-- `SubscribeTo` with at least one name, then subscribing calls, then a call of the closure
`SubscribeTo` returned: the slots it filled, and only they, leave the lists. -/
theorem subscribeTo_later_unsub {beh : Nat → List Act} {fuel : Nat}
    {sched : List Task → List Task} {w : World} (f : Nat) (ns : List String) (ops : List Op)
    (hns : ns ≠ []) (hg : Good w) (hops : ∀ op ∈ ops, op.subscribes = true) :
    ∃ h w1 w1' w2 us, Events.SubscribeTo f ns w = .ok (h, w1) ∧
      runOps beh fuel sched ops w1 = .ok w1' ∧ callUnsub h w1' = .ok w2 ∧
      Good w1' ∧ Good w2 ∧ w2.reg = w1'.reg ∧ w2.log = w.log ∧ w1'.log = w.log ∧
      h < w2.handles.length ∧ w2.handles[h]? = some (.multi us true) ∧
      (∀ n k, (Events.subs w2 n).valueAt k = (Events.subs w1' n).valueAt k) ∧
      (∀ n qs, Repr (Events.subs w1' n) qs → Repr (Events.subs w2 n) (qs.filter fun s =>
        decide ((n, s) ∉ targets (fun n => (Events.subs w n).arena.length) ns))) ∧
      ∀ t ∈ targets (fun n => (Events.subs w n).arena.length) ns,
        (Events.subs w1' t.1).valueAt t.2 = some (.named f t.1) := by
  obtain ⟨w1, hsub, hwf1, -, hm1, hall1, hlog1, hh1, hmono1, hin1, -, hlen1, hold1, hnew1, -⟩ :=
    Events.SubscribeTo_spec f ns hns hg.mtx hg.wf
  obtain ⟨qs0, hqs0⟩ := hg.all_repr
  have hg1 : Good w1 := ⟨hwf1, hm1, by rw [hall1]; exact hg.all_mtx,
    by rw [hall1]; exact ⟨qs0, hqs0⟩⟩
  obtain ⟨w1', hrun, hg1', ⟨extra, hhx⟩, hgrow, hlenx, hvalx, hlogx⟩ :=
    @runOps_keeps beh fuel sched ops w1 hg1 hops
  obtain ⟨T, hT⟩ : ∃ T, T = targets (fun n => (Events.subs w n).arena.length) ns := ⟨_, rfl⟩
  rw [← hT] at hh1 ⊢
  have hTlen : T.length = ns.length := by rw [hT]; exact targets_length ns _
  obtain ⟨Z, hZ⟩ : ∃ Z, Z = (List.range' w.handles.length T.length).zip T := ⟨_, rfl⟩
  have hZ1 : Z.map (·.1) = List.range' w.handles.length ns.length := by
    rw [hZ, zip_range_fst, hTlen]
  have hZ2 : Z.map (·.2) = T := by rw [hZ, zip_range_snd]
  have hhlen : w1.handles.length = w.handles.length + ns.length + 1 := by
    rw [hh1]; simp [hTlen, Nat.add_assoc]
  have hhh1 : w1.handles[w.handles.length + ns.length]? =
      some (.multi (List.range' w.handles.length ns.length) false) := by
    rw [hh1, List.getElem?_append_right (by simp [hTlen])]
    simp [hTlen]
  have hkeep : ∀ (u : Nat) (x : Unsub), w1.handles[u]? = some x →
      w1'.handles[u]? = some x := by
    intro u x hu
    have hlt : u < w1.handles.length := (List.getElem?_eq_some.1 hu).1
    rw [hhx, List.getElem?_append_left hlt]
    exact hu
  have hhh := hkeep _ _ hhh1
  have hTmem : ∀ n s, (n, s) ∈ T → (Events.lookup w1 n).isSome = true ∧
      s < (Events.subs w1 n).arena.length ∧ (Events.subs w n).arena.length ≤ s := by
    intro n s hmem
    rw [hT, targets_mem] at hmem
    have hcnt : 0 < ns.count n := by omega
    exact ⟨hin1 n (List.count_pos_iff.1 hcnt), by rw [hlen1]; exact hmem.2, hmem.1⟩
  obtain ⟨w2, hce, hwf2, hreg2, hlog2, hhl2, hh2, -, hval2, hrepr2⟩ := callEach_spec Z w1'
    hg1'.wf (by rw [hZ1]; exact List.nodup_range' _ _)
    (by
      intro z hz
      have hmemT : (z.2.1, z.2.2) ∈ T := by
        rw [← hZ2]; exact List.mem_map.2 ⟨z, hz, rfl⟩
      obtain ⟨hsome, hlt, -⟩ := hTmem _ _ hmemT
      obtain ⟨i, hi⟩ := Option.isSome_iff_exists.1 hsome
      refine ⟨i, hgrow _ _ hi, hkeep _ _ ?_, lt_of_lt_of_le hlt (hlenx _)⟩
      rw [hh1, zip_range_get _ T w.handles _ z (by rw [← hZ]; exact hz),
        Events.chan_of_lookup hi])
  rw [hZ1] at hce hh2
  rw [hZ2] at hrepr2
  obtain ⟨h, hh⟩ : ∃ h, h = w.handles.length + ns.length := ⟨_, rfl⟩
  obtain ⟨us, hus⟩ : ∃ us, us = List.range' w.handles.length ns.length := ⟨_, rfl⟩
  rw [← hh] at hsub hhh
  rw [← hus] at hhh hce
  have hcu : callUnsub h w1' = .ok { w2 with handles := w2.handles.set h (.multi us true) } := by
    simp only [callUnsub, hhh, hce, except_ok_bind, except_pure]
    rfl
  have hlt2 : h < w2.handles.length := by
    rw [hhl2]
    exact (List.getElem?_eq_some.1 hhh).1
  refine ⟨h, w1, w1', _, us, hsub, hrun, hcu,
    hg1', ⟨⟨hwf2.map_lt, hwf2.map_nodup, hwf2.ev⟩, ?_, ?_, ?_⟩, hreg2,
    hlog2.trans (hlogx.trans hlog1), hlogx.trans hlog1, ?_, ?_, hval2, hrepr2, ?_⟩
  · show w2.reg.mtx = false
    rw [hreg2]; exact hg1'.mtx
  · show w2.reg.all.mtx = false
    rw [hreg2]; exact hg1'.all_mtx
  · show ∃ qs, Repr w2.reg.all.subscribers qs
    rw [hreg2]; exact hg1'.all_repr
  · show h < (w2.handles.set h (.multi us true)).length
    simpa using hlt2
  · show (w2.handles.set h (.multi us true))[h]? = _
    rw [List.getElem?_set_self hlt2]
  · intro t ht
    obtain ⟨-, hlt, hge⟩ := hTmem t.1 t.2 ht
    rw [hvalx _ _ hlt]
    have hmem : (t.1, t.2) ∈ targets (fun n => (Events.subs w n).arena.length) ns := by
      rw [← hT]; exact ht
    rw [targets_mem] at hmem
    exact hnew1 t.1 t.2 hmem.1 hmem.2

/-! ## The claims -/

/-- C1: on a channel whose subscriber list is empty, after the calls `On(f1), ..., On(fn)` made
in a row (no unsubscribe), where every `fi` only returns when called, `Trigger(v)` returns
and the calls it makes are exactly `f1(v), ..., fn(v)`: one call per `On`, from consecutive
slots, in insertion order. -/
theorem trigger_calls_in_insertion_order (beh : Nat → List Act) (c : Chan) (fs : List Nat)
    (v : Payload) (w : World) (l : GoList) (fuel : Nat)
    (hc : w.getEvent c = some ⟨false, l⟩) (hl : Repr l [])
    (hb : ∀ f ∈ fs, beh f = []) (hfuel : fs.length < fuel) :
    ∃ hs w1, onAll c fs w = .ok (hs, w1) ∧
      Event.Trigger beh fuel c v w1 =
        .ok { w1 with log := w.log ++ callsFrom c v l.arena.length fs } := by
  obtain ⟨hs, w1, r, h1, hg, hlog, hr, -, -, hnew, hcalls⟩ := onAll_spec fs w l [] hc hl
  simp only [List.nil_append] at hr
  refine ⟨hs, w1, h1, ?_⟩
  have hp : Passive beh r v (List.range' l.arena.length fs.length) := by
    intro n hn
    obtain ⟨f, hf, hv⟩ := hnew n hn
    exact ⟨.fn f, (f, v), hv, rfl, hb f hf⟩
  rw [Event.Trigger_passive hg hr hp (by simpa using hfuel), hlog, hcalls]

/-- C1 at `On(1); On(2); Trigger(7)` on a new channel. -/
theorem trigger_calls_in_insertion_order_witness :
    ∃ hs w1, onAll (.ev 0) [1, 2] { World.zero with events := [Event.zero] } = .ok (hs, w1) ∧
      Event.Trigger (fun _ => []) 3 (.ev 0) (.data 7) w1 =
        .ok { w1 with log := [] ++ callsFrom (.ev 0) (.data 7) 0 [1, 2] } :=
  trigger_calls_in_insertion_order (fun _ => []) (.ev 0) [1, 2] (.data 7)
    { World.zero with events := [Event.zero] } GoList.zero 3 rfl repr_zero (fun _ _ => rfl)
    (by decide)

/-- C2: in a state where the closure `h` returned by `On` has not run yet and its slot `n` is
among the slots `ps` of the unlocked channel `c`, with the callbacks of the other slots quiet:
(1) `h()` returns, and a `Trigger(v)` that begins then returns after calling exactly the
slots of `ps` other than `n`, once each, in list order; (2) the same holds for the
`Trigger` after a pass in which the callback of some slot `m` called `h`; (3) none of these
calls comes from slot `n`. -/
theorem unsubscribed_slot_not_invoked_later (beh : Nat → List Act) (c : Chan) (v : Payload)
    (w : World) (l : GoList) (ps : List Nat) (h n fuel : Nat)
    (he : w.getEvent c = some ⟨false, l⟩) (hr : Repr l ps)
    (hh : w.handles[h]? = some (.single c (.elem n) false)) (hn : n ∈ ps)
    (hq : Calm beh (w.handles.set h (.single c .null true)) l v (ps.erase n))
    (hfuel : ps.length < fuel) :
    (∃ w1, callUnsub h w = .ok w1 ∧
      Event.Trigger beh fuel c v w1 =
        .ok { w1 with log := w1.log ++ callsOf c l v (ps.erase n) }) ∧
    (∀ pre m post s t, ps = pre ++ m :: post → Calm beh w.handles l v pre →
      l.valueAt m = some s → s.target v = some t → beh t.1 = [.unsub h] →
      ∃ w1, Event.Trigger beh fuel c v w = .ok w1 ∧
        Event.Trigger beh fuel c v w1 =
          .ok { w1 with log := w1.log ++ callsOf c l v (ps.erase n) }) ∧
    ∀ x ∈ callsOf c l v (ps.erase n), x.slot ≠ .elem n := by
  have hlt := hr.lt hn
  have hfuel2 : (ps.erase n).length < fuel :=
    lt_of_le_of_lt (List.length_erase_le _ _) hfuel
  refine ⟨?_, ?_, ?_⟩
  · obtain ⟨r, hrr, -, hval, hcs⟩ := callSingle_spec hh he hr hlt
    refine ⟨_, (callUnsub_single hh).trans hcs, ?_⟩
    have e1 : ({ w.setEvent c ⟨false, r⟩ with
        handles := w.handles.set h (.single c .null true) } : World).getEvent c =
        some ⟨false, r⟩ :=
      (World.getEvent_withHandles _ _ _).trans (World.getEvent_setEvent_same he _)
    rw [Event.Trigger_calm e1 hrr (calm_congr hq fun k _ => hval k) hfuel2,
      callsOf_congr c v _ (fun k _ => hval k)]
  · rintro pre m post s t rfl hpre hm ht hb
    obtain ⟨r, hrr, -, hval, htr⟩ := Event.Trigger_remover he hr hpre hm ht hb hh hlt
      (fun hne => calm_sub hq fun k hk => by
        rw [erase_split hr.nodup hne]; simp [hk]) hfuel
    refine ⟨_, htr, ?_⟩
    rw [Event.Trigger_calm (World.st_getEvent he _ _ _) hrr (calm_congr hq fun k _ => hval k) hfuel2,
      callsOf_congr c v _ (fun k _ => hval k)]
  · intro x hx hs
    obtain ⟨k, hk, hks, -⟩ := callsOf_slot hx
    rw [hs] at hks
    simp only [Ptr.elem.injEq] at hks
    subst hks
    exact ((List.Nodup.mem_erase_iff hr.nodup).1 hk).1 rfl

/-- C2 at the state after `On(1); On(2); On(3)`, where callback `2` calls the closure of the
third subscription: that closure is called directly, or by callback `2` during a pass. -/
theorem unsubscribed_slot_not_invoked_later_witness :
    (∃ w1, callUnsub 2 sample3 = .ok w1 ∧
      Event.Trigger (fun f => if f = 2 then [.unsub 2] else []) 4 (.ev 0) (.data 7) w1 =
        .ok { w1 with log := w1.log ++
          [⟨.ev 0, .elem 0, 1, .data 7⟩, ⟨.ev 0, .elem 1, 2, .data 7⟩] }) ∧
    (∃ w1, Event.Trigger (fun f => if f = 2 then [.unsub 2] else []) 4 (.ev 0) (.data 7)
        sample3 = .ok w1 ∧
      Event.Trigger (fun f => if f = 2 then [.unsub 2] else []) 4 (.ev 0) (.data 7) w1 =
        .ok { w1 with log := w1.log ++
          [⟨.ev 0, .elem 0, 1, .data 7⟩, ⟨.ev 0, .elem 1, 2, .data 7⟩] }) :=
  have key := unsubscribed_slot_not_invoked_later (fun f => if f = 2 then [.unsub 2] else [])
    (.ev 0) (.data 7) sample3 sample3List [0, 1, 2] 2 2 4 rfl repr_sample3 rfl (by decide)
    (by
      intro n hn
      have hn' : n = 0 ∨ n = 1 := by simpa using hn
      rcases hn' with rfl | rfl
      · exact ⟨.fn 1, (1, .data 7), rfl, rfl, fun a ha => by simp at ha⟩
      · refine ⟨.fn 2, (2, .data 7), rfl, rfl, fun a ha => ?_⟩
        have ha' : a = Act.unsub 2 := by simpa using ha
        exact ⟨2, .ev 0, .null, ha', rfl⟩)
    (by decide)
  ⟨key.1, key.2.1 [0] 1 [2] (.fn 2) (2, .data 7) rfl
    (fun n hn => by
      have hn' : n = 0 := by simpa using hn
      subst hn'
      exact ⟨.fn 1, (1, .data 7), rfl, rfl, fun a ha => by simp at ha⟩)
    rfl rfl rfl⟩

/-- C3: in a state where the closure `h` returned by `On` has not run yet and its slot `n` is
in the list of the unlocked channel `c`: one call `h()` returns and removes slot `n` only;
`N + 1` calls in a row return the very same state as one call; and after any further
`On` calls a call `h()` returns and changes nothing. -/
theorem unsubscribe_idempotent (c : Chan) (w : World) (l : GoList) (ps : List Nat) (h n : Nat)
    (he : w.getEvent c = some ⟨false, l⟩) (hr : Repr l ps)
    (hh : w.handles[h]? = some (.single c (.elem n) false)) (hn : n ∈ ps) :
    ∃ w1, callUnsub h w = .ok w1 ∧
      (∃ r, w1.getEvent c = some ⟨false, r⟩ ∧ Repr r (ps.erase n) ∧
        ∀ k, r.valueAt k = l.valueAt k) ∧
      (∀ N, callTimes h (N + 1) w = .ok w1) ∧
      ∀ c' gs hs w2, onAll c' gs w1 = .ok (hs, w2) → callUnsub h w2 = .ok w2 := by
  obtain ⟨r, hrr, -, hval, hcs⟩ := callSingle_spec hh he hr (hr.lt hn)
  have hlt : h < w.handles.length := (List.getElem?_eq_some.1 hh).1
  have hd : ({ w.setEvent c ⟨false, r⟩ with
      handles := w.handles.set h (.single c .null true) } : World).handles[h]? =
      some (.single c .null true) := by
    show (w.handles.set h (.single c .null true))[h]? = _
    simp [hlt]
  refine ⟨_, (callUnsub_single hh).trans hcs, ⟨r, ?_, hrr, hval⟩, ?_, ?_⟩
  · exact (World.getEvent_withHandles _ _ _).trans (World.getEvent_setEvent_same he _)
  · intro N
    simp only [callTimes, callUnsub_single hh, hcs, except_ok_bind]
    exact callTimes_done N hd
  · intro c' gs hs w2 hon
    obtain ⟨us, hus⟩ := onAll_handles gs hon
    have hd2 : w2.handles[h]? = some (.single c .null true) := by
      rw [hus, List.getElem?_append_left (by simpa using hlt)]
      exact hd
    rw [callUnsub_single hd2, callSingle_done hd2]

/-- C3 at the second of three subscriptions. -/
theorem unsubscribe_idempotent_witness :
    ∃ w1, callUnsub 1 sample3 = .ok w1 ∧
      (∃ r, w1.getEvent (.ev 0) = some ⟨false, r⟩ ∧ Repr r [0, 2] ∧
        ∀ k, r.valueAt k = sample3List.valueAt k) ∧
      (∀ N, callTimes 1 (N + 1) sample3 = .ok w1) ∧
      ∀ c' gs hs w2, onAll c' gs w1 = .ok (hs, w2) → callUnsub 1 w2 = .ok w2 :=
  unsubscribe_idempotent (.ev 0) sample3 sample3List [0, 1, 2] 1 1 rfl repr_sample3 rfl
    (by decide)

/-- C4: on a channel whose list is empty, after `On(s1); On(s2)` where the callback `s1`
calls the closure returned by its own `On`, `Trigger(v)` returns having called `s1(v)` and
nothing else: the element of `s1` has left the list when the loop asks for its `Next`, so
the pass ends and `s2` is not invoked. -/
theorem self_unsubscribe_ends_pass (beh : Nat → List Act) (c : Chan) (v : Payload) (w : World)
    (l : GoList) (s1 s2 fuel : Nat)
    (he : w.getEvent c = some ⟨false, l⟩) (hl : Repr l [])
    (hb : beh s1 = [.unsub w.handles.length]) (hfuel : 2 < fuel) :
    ∃ h1 w1 h2 w2 w3, Event.On c (.fn s1) w = .ok (h1, w1) ∧
      Event.On c (.fn s2) w1 = .ok (h2, w2) ∧
      Event.Trigger beh fuel c v w2 = .ok w3 ∧
      w3.log = w.log ++ [⟨c, .elem l.arena.length, s1, v⟩] := by
  obtain ⟨r1, hr1, hlen1, hv1, -, hon1⟩ := Event.On_spec he hl (.fn s1)
  obtain ⟨w1, hw1⟩ : ∃ w1 : World, w1 = { w.setEvent c ⟨false, r1⟩ with
    handles := w.handles ++ [.single c (.elem l.arena.length) false] } := ⟨_, rfl⟩
  rw [← hw1] at hon1
  have e1 : w1.getEvent c = some ⟨false, r1⟩ := by
    rw [hw1]
    exact (World.getEvent_withHandles _ _ _).trans (World.getEvent_setEvent_same he _)
  obtain ⟨r2, hr2, hlen2, -, hold2, hon2⟩ := Event.On_spec e1 hr1 (.fn s2)
  obtain ⟨w2, hw2⟩ : ∃ w2 : World, w2 = { w1.setEvent c ⟨false, r2⟩ with
    handles := w1.handles ++ [.single c (.elem r1.arena.length) false] } := ⟨_, rfl⟩
  rw [← hw2] at hon2
  have e2 : w2.getEvent c = some ⟨false, r2⟩ := by
    rw [hw2]
    exact (World.getEvent_withHandles _ _ _).trans (World.getEvent_setEvent_same e1 _)
  have hh : w2.handles[w.handles.length]? = some (.single c (.elem l.arena.length) false) := by
    rw [hw2, hw1]
    show ((w.handles ++ [_]) ++ [_])[w.handles.length]? = _
    rw [List.append_assoc, List.getElem?_append_right (le_refl _)]
    simp
  have hlog : w2.log = w.log := by
    rw [hw2, hw1]
    simp
  have hv : r2.valueAt l.arena.length = some (.fn s1) := by
    rw [hold2 _ (by omega)]; exact hv1
  have hr2' : Repr r2 ([] ++ l.arena.length :: [r1.arena.length]) := by simpa using hr2
  obtain ⟨r, -, -, -, htr⟩ := @Event.Trigger_remover beh c v r2 [] [r1.arena.length]
    l.arena.length l.arena.length w.handles.length w2 fuel (.fn s1) (s1, v) e2 hr2'
    (fun _ hk => by simp at hk) hv rfl hb hh (by omega) (fun hne => absurd rfl hne)
    (by simpa using hfuel)
  refine ⟨_, w1, _, w2, _, hon1, hon2, htr, ?_⟩
  simp [hlog, callsOf]

/-- C4 at `On(1); On(2); Trigger(7)` on a new channel, where callback `1` unsubscribes
itself: only callback `1` is invoked. -/
theorem self_unsubscribe_ends_pass_witness :
    ∃ h1 w1 h2 w2 w3, Event.On (.ev 0) (.fn 1) World.one = .ok (h1, w1) ∧
      Event.On (.ev 0) (.fn 2) w1 = .ok (h2, w2) ∧
      Event.Trigger (fun f => if f = 1 then [.unsub 0] else []) 3 (.ev 0) (.data 7) w2 =
        .ok w3 ∧
      w3.log = [] ++ [⟨.ev 0, .elem 0, 1, .data 7⟩] :=
  self_unsubscribe_ends_pass (fun f => if f = 1 then [.unsub 0] else []) (.ev 0) (.data 7)
    World.one GoList.zero 1 2 3 rfl repr_zero rfl (by decide)

/-- C5: a pass of `Trigger(v)` over the slots `pre ++ m :: post` in which the callback of slot
`m` calls the not yet run closure `h` of a slot `n` behind it (`n ∈ post`), all other callbacks
being quiet: the pass returns, its calls are those of `pre`, of `m`, and of the slots of `post`
other than `n`, once each and in list order, and no call comes from slot `n`. -/
theorem unsubscribed_ahead_is_skipped (beh : Nat → List Act) (c : Chan) (v : Payload)
    (w : World) (l : GoList) (pre post : List Nat) (m n h fuel : Nat) (s : Sub)
    (t : Nat × Payload)
    (he : w.getEvent c = some ⟨false, l⟩) (hr : Repr l (pre ++ m :: post))
    (hpre : Calm beh w.handles l v pre)
    (hm : l.valueAt m = some s) (ht : s.target v = some t) (hb : beh t.1 = [.unsub h])
    (hh : w.handles[h]? = some (.single c (.elem n) false)) (hn : n ∈ post)
    (hpost : Calm beh (w.handles.set h (.single c .null true)) l v (post.erase n))
    (hfuel : (pre ++ m :: post).length < fuel) :
    ∃ w1, Event.Trigger beh fuel c v w = .ok w1 ∧
      w1.log = w.log ++ (callsOf c l v pre ++ ⟨c, .elem m, t.1, t.2⟩ ::
        callsOf c l v (post.erase n)) ∧
      (∀ x ∈ callsOf c l v pre ++ ⟨c, .elem m, t.1, t.2⟩ :: callsOf c l v (post.erase n),
        x.slot ≠ .elem n) ∧
      ∃ r, w1.getEvent c = some ⟨false, r⟩ ∧ Repr r (pre ++ m :: post.erase n) := by
  have hnd := hr.nodup
  have hdis := (List.nodup_append.1 hnd).2.2
  have hnpre : n ∉ pre := fun hp => hdis hp (by simp [hn])
  have hnm : n ≠ m := by
    rintro rfl
    have := (List.nodup_append.1 hnd).2.1
    exact (List.nodup_cons.1 this).1 hn
  have hpostnd : post.Nodup := (List.nodup_cons.1 (List.nodup_append.1 hnd).2.1).2
  obtain ⟨r, hrr, -, -, htr⟩ := Event.Trigger_remover he hr hpre hm ht hb hh
    (hr.lt (by simp [hn])) (fun _ => hpost) hfuel
  rw [erase_split hnd hnm, List.erase_of_not_mem hnpre] at hrr
  refine ⟨_, htr, by simp [hnm], ?_, r, World.st_getEvent he _ _ _, hrr⟩
  intro x hx hs
  rcases List.mem_append.1 hx with hx | hx
  · obtain ⟨k, hk, hks, -⟩ := callsOf_slot hx
    rw [hs] at hks
    simp only [Ptr.elem.injEq] at hks
    exact hnpre (hks ▸ hk)
  · rcases List.mem_cons.1 hx with rfl | hx
    · simp only [Ptr.elem.injEq] at hs
      exact hnm hs.symm
    · obtain ⟨k, hk, hks, -⟩ := callsOf_slot hx
      rw [hs] at hks
      simp only [Ptr.elem.injEq] at hks
      subst hks
      exact ((List.Nodup.mem_erase_iff hpostnd).1 hk).1 rfl

/-- C5 at the state after `On(1); On(2); On(3)`, where callback `1` calls the closure of the
second subscription: callbacks `1` and `3` are invoked, callback `2` is not. -/
theorem unsubscribed_ahead_is_skipped_witness :
    ∃ w1, Event.Trigger (fun f => if f = 1 then [.unsub 1] else []) 4 (.ev 0) (.data 7)
        sample3 = .ok w1 ∧
      w1.log = [] ++ ([] ++ ⟨.ev 0, .elem 0, 1, .data 7⟩ :: [⟨.ev 0, .elem 2, 3, .data 7⟩]) ∧
      (∀ x ∈ [] ++ (⟨.ev 0, .elem 0, 1, .data 7⟩ : Call) :: [⟨.ev 0, .elem 2, 3, .data 7⟩],
        x.slot ≠ .elem 1) ∧
      ∃ r, w1.getEvent (.ev 0) = some ⟨false, r⟩ ∧ Repr r ([] ++ 0 :: [2]) :=
  unsubscribed_ahead_is_skipped (fun f => if f = 1 then [.unsub 1] else []) (.ev 0) (.data 7)
    sample3 sample3List [] [1, 2] 0 1 1 4 (.fn 1) (1, .data 7) rfl repr_sample3
    (fun _ hk => by simp at hk) rfl rfl rfl rfl (by decide)
    (fun k hk => by
      have hk' : k = 2 := by simpa using hk
      subst hk'
      exact ⟨.fn 3, (3, .data 7), rfl, rfl, fun a ha => by simp at ha⟩)
    (by decide)

/-- C6: on a channel whose list is empty, with a callback `f` that only returns: `On(f)`
twice gives two closures and two slots; `Trigger(v)` calls `f(v)` twice, once from each slot;
after calling either closure `Trigger(v)` calls `f(v)` once, from the slot of the other
subscription; after calling the other closure as well `Trigger(v)` calls nothing. -/
theorem two_ons_are_two_subscriptions (beh : Nat → List Act) (c : Chan) (v : Payload) (w : World)
    (l : GoList) (f fuel : Nat)
    (he : w.getEvent c = some ⟨false, l⟩) (hl : Repr l []) (hb : beh f = [])
    (hfuel : 2 < fuel) :
    ∃ h1 w1 h2 w2, Event.On c (.fn f) w = .ok (h1, w1) ∧ Event.On c (.fn f) w1 = .ok (h2, w2) ∧
      h1 ≠ h2 ∧
      Event.Trigger beh fuel c v w2 = .ok { w2 with log := w2.log ++
        [⟨c, .elem l.arena.length, f, v⟩, ⟨c, .elem (l.arena.length + 1), f, v⟩] } ∧
      (∃ w3 w4, callUnsub h1 w2 = .ok w3 ∧
        Event.Trigger beh fuel c v w3 =
          .ok { w3 with log := w3.log ++ [⟨c, .elem (l.arena.length + 1), f, v⟩] } ∧
        callUnsub h2 w3 = .ok w4 ∧ Event.Trigger beh fuel c v w4 = .ok w4) ∧
      ∃ w3 w4, callUnsub h2 w2 = .ok w3 ∧
        Event.Trigger beh fuel c v w3 =
          .ok { w3 with log := w3.log ++ [⟨c, .elem l.arena.length, f, v⟩] } ∧
        callUnsub h1 w3 = .ok w4 ∧ Event.Trigger beh fuel c v w4 = .ok w4 := by
  obtain ⟨r1, hr1, hlen1, hv1, -, hon1⟩ := Event.On_spec he hl (.fn f)
  obtain ⟨w1, hw1⟩ : ∃ w1 : World, w1 = { w.setEvent c ⟨false, r1⟩ with
    handles := w.handles ++ [.single c (.elem l.arena.length) false] } := ⟨_, rfl⟩
  rw [← hw1] at hon1
  have e1 : w1.getEvent c = some ⟨false, r1⟩ := by
    rw [hw1]
    exact (World.getEvent_withHandles _ _ _).trans (World.getEvent_setEvent_same he _)
  obtain ⟨r2, hr2, hlen2, hv2, hold2, hon2⟩ := Event.On_spec e1 hr1 (.fn f)
  obtain ⟨w2, hw2⟩ : ∃ w2 : World, w2 = { w1.setEvent c ⟨false, r2⟩ with
    handles := w1.handles ++ [.single c (.elem r1.arena.length) false] } := ⟨_, rfl⟩
  rw [← hw2] at hon2
  have e2 : w2.getEvent c = some ⟨false, r2⟩ := by
    rw [hw2]
    exact (World.getEvent_withHandles _ _ _).trans (World.getEvent_setEvent_same e1 _)
  have hH1 : w1.handles = w.handles ++ [.single c (.elem l.arena.length) false] := by
    rw [hw1]
  have hH2 : w2.handles = w.handles ++ [.single c (.elem l.arena.length) false,
      .single c (.elem (l.arena.length + 1)) false] := by
    rw [hw2]
    show w1.handles ++ _ = _
    rw [hH1, hlen1]; simp
  have hA : w2.handles[w.handles.length]? = some (.single c (.elem l.arena.length) false) := by
    rw [hH2, List.getElem?_append_right (le_refl _)]; simp
  have hB : w2.handles[w.handles.length + 1]? =
      some (.single c (.elem (l.arena.length + 1)) false) := by
    rw [hH2, List.getElem?_append_right (by omega)]; simp
  have hvA : r2.valueAt l.arena.length = some (.fn f) := by
    rw [hold2 _ (by omega)]; exact hv1
  have hvB : r2.valueAt (l.arena.length + 1) = some (.fn f) := by
    rw [← hlen1]; exact hv2
  have hr2' : Repr r2 [l.arena.length, l.arena.length + 1] := by
    rw [hlen1] at hr2; simpa using hr2
  have hne : l.arena.length ≠ l.arena.length + 1 := by omega
  have hpA : Passive beh r2 v [l.arena.length] := passive_single hvA hb
  have hpB : Passive beh r2 v [l.arena.length + 1] := passive_single hvB hb
  have hpAB : Passive beh r2 v [l.arena.length, l.arena.length + 1] :=
    passive_append hpA hpB
  have hnil : Passive beh r2 v [] := fun _ hk => by simp at hk
  have hH1len : w1.handles.length = w.handles.length + 1 := by rw [hH1]; simp
  refine ⟨_, w1, _, w2, hon1, hon2, by omega, ?_, ?_, ?_⟩
  · rw [Event.Trigger_passive e2 hr2' hpAB (by simpa using hfuel)]
    have : callsOf c r2 v [l.arena.length, l.arena.length + 1] =
        callsOf c r2 v [l.arena.length] ++ callsOf c r2 v [l.arena.length + 1] :=
      callsOf_append c r2 v [_] [_]
    rw [this, callsOf_single hvA, callsOf_single hvB]
    rfl
  · have hq : Passive beh r2 v ([l.arena.length, l.arena.length + 1].erase l.arena.length) := by
      simpa using hpB
    obtain ⟨r3, w3, hr3, hval3, hu3, e3, hH3, ht3⟩ :=
      @callUnsub_then_trigger beh c v w2 r2 _ _ _ fuel e2 hr2' hA (by simp) hq
        (by simpa using hfuel)
    have herase : [l.arena.length, l.arena.length + 1].erase l.arena.length =
        [l.arena.length + 1] := by simp
    rw [herase] at hr3 ht3
    rw [callsOf_single hvB] at ht3
    have hB3 : w3.handles[w.handles.length + 1]? =
        some (.single c (.elem (l.arena.length + 1)) false) := by
      rw [hH3, List.getElem?_set_ne (by omega)]; exact hB
    obtain ⟨r4, w4, -, -, hu4, -, -, ht4⟩ :=
      @callUnsub_then_trigger beh c v w3 r3 _ _ _ fuel e3 hr3 hB3 (by simp)
        (fun _ hk => by simp at hk) (by simpa using (by omega : 1 < fuel))
    refine ⟨w3, w4, hu3, ht3, by rw [hH1len]; exact hu4, ?_⟩
    rw [ht4]
    simp [callsOf, World.with_log_self]
  · have hq : Passive beh r2 v
        ([l.arena.length, l.arena.length + 1].erase (l.arena.length + 1)) := by
      simpa [List.erase_cons_tail, hne] using hpA
    have herase : [l.arena.length, l.arena.length + 1].erase (l.arena.length + 1) =
        [l.arena.length] := by simp [List.erase_cons_tail, hne]
    obtain ⟨r3, w3, hr3, hval3, hu3, e3, hH3, ht3⟩ :=
      @callUnsub_then_trigger beh c v w2 r2 _ _ _ fuel e2 hr2' hB (by simp) hq
        (by simpa using hfuel)
    rw [herase] at hr3 ht3
    rw [callsOf_single hvA] at ht3
    have hA3 : w3.handles[w.handles.length]? =
        some (.single c (.elem l.arena.length) false) := by
      rw [hH3, List.getElem?_set_ne (by omega)]; exact hA
    obtain ⟨r4, w4, -, -, hu4, -, -, ht4⟩ :=
      @callUnsub_then_trigger beh c v w3 r3 _ _ _ fuel e3 hr3 hA3 (by simp)
        (fun _ hk => by simp at hk) (by simpa using (by omega : 1 < fuel))
    refine ⟨w3, w4, by rw [hH1len]; exact hu3, ht3, hu4, ?_⟩
    rw [ht4]
    simp [callsOf, World.with_log_self]

/-- C6 at `On(1); On(1)` on a new channel. -/
theorem two_ons_are_two_subscriptions_witness :
    ∃ h1 w1 h2 w2, Event.On (.ev 0) (.fn 1) World.one = .ok (h1, w1) ∧
      Event.On (.ev 0) (.fn 1) w1 = .ok (h2, w2) ∧ h1 ≠ h2 ∧
      Event.Trigger (fun _ => []) 3 (.ev 0) (.data 7) w2 = .ok { w2 with log := w2.log ++
        [⟨.ev 0, .elem 0, 1, .data 7⟩, ⟨.ev 0, .elem (0 + 1), 1, .data 7⟩] } ∧
      (∃ w3 w4, callUnsub h1 w2 = .ok w3 ∧
        Event.Trigger (fun _ => []) 3 (.ev 0) (.data 7) w3 =
          .ok { w3 with log := w3.log ++ [⟨.ev 0, .elem (0 + 1), 1, .data 7⟩] } ∧
        callUnsub h2 w3 = .ok w4 ∧
        Event.Trigger (fun _ => []) 3 (.ev 0) (.data 7) w4 = .ok w4) ∧
      ∃ w3 w4, callUnsub h2 w2 = .ok w3 ∧
        Event.Trigger (fun _ => []) 3 (.ev 0) (.data 7) w3 =
          .ok { w3 with log := w3.log ++ [⟨.ev 0, .elem 0, 1, .data 7⟩] } ∧
        callUnsub h1 w3 = .ok w4 ∧
        Event.Trigger (fun _ => []) 3 (.ev 0) (.data 7) w4 = .ok w4 :=
  two_ons_are_two_subscriptions (fun _ => []) (.ev 0) (.data 7) World.one GoList.zero 1 3
    rfl repr_zero rfl (by decide)

/-- C7: on an unlocked registry whose callbacks only return, `Trigger(n, v)` returns; its
calls are first one call from every slot of the list of the channel of `n`, in list order,
made with `v`, and then one call from every slot of the catch-all list, in list order, made
with `(n, v)`. -/
theorem registry_trigger_named_then_all (beh : Nat → List Act) (w : World) (n : String)
    (v fuel : Nat) (ps qs : List Nat) (hm : w.reg.mtx = false) (hwf : WF w)
    (hN : Repr (Events.subs w n) ps) (hpN : Passive beh (Events.subs w n) (.data v) ps)
    (hall : w.reg.all.mtx = false) (hA : Repr w.reg.all.subscribers qs)
    (hpA : Passive beh w.reg.all.subscribers (.multi n v) qs)
    (hfN : ps.length < fuel) (hfA : qs.length < fuel) :
    ∃ w1 named catchAll, Events.Trigger beh fuel n v w = .ok w1 ∧
      w1.log = w.log ++ (named ++ catchAll) ∧
      named = callsOf (Events.chan w n) (Events.subs w n) (.data v) ps ∧
      catchAll = callsOf .all w.reg.all.subscribers (.multi n v) qs ∧
      named.map (·.slot) = ps.map Ptr.elem ∧ (∀ x ∈ named, x.chan = Events.chan w n) ∧
      catchAll.map (·.slot) = qs.map Ptr.elem ∧
      ∀ x ∈ catchAll, x.chan = .all ∧ x.args = .multi n v := by
  refine ⟨_, _, _, Events.Trigger_calls hm hwf hN hpN hall hA hpA hfN hfA, rfl, rfl, rfl,
    callsOf_slots hpN, fun x hx => ?_, callsOf_slots hpA, fun x hx => ?_⟩
  · obtain ⟨k, -, -, hc⟩ := callsOf_slot hx
    exact hc
  · obtain ⟨k, hk, -, hc⟩ := callsOf_slot hx
    refine ⟨hc, ?_⟩
    simp only [callsOf, List.mem_filterMap] at hx
    obtain ⟨j, -, hj⟩ := hx
    simp only [callOf, Option.bind_eq_some, Option.map_eq_some'] at hj
    obtain ⟨s, -, t, ht, rfl⟩ := hj
    cases s <;> simp [Sub.target] at ht
    · rw [← ht]
    · rw [← ht]

/-- C7 at the registry after `On("a", 1); On("b", 2); Subscribe(3)` and `Trigger("a", 5)`. -/
theorem registry_trigger_named_then_all_witness :
    ∃ w1 named catchAll, Events.Trigger (fun _ => []) 2 "a" 5 sampleReg = .ok w1 ∧
      w1.log = sampleReg.log ++ (named ++ catchAll) ∧
      named = callsOf (Events.chan sampleReg "a") (Events.subs sampleReg "a") (.data 5) [0] ∧
      catchAll = callsOf .all sampleReg.reg.all.subscribers (.multi "a" 5) [0] ∧
      named.map (·.slot) = [0].map Ptr.elem ∧
      (∀ x ∈ named, x.chan = Events.chan sampleReg "a") ∧
      catchAll.map (·.slot) = [0].map Ptr.elem ∧
      ∀ x ∈ catchAll, x.chan = .all ∧ x.args = .multi "a" 5 :=
  registry_trigger_named_then_all (fun _ => []) sampleReg "a" 5 2 [0] [0] rfl
    sampleReg_spec.1 sampleReg_spec.2.1
    (fun k hk => by
      have hk' : k = 0 := by simpa using hk
      subst hk'
      exact ⟨.fn 1, (1, .data 5), rfl, rfl, rfl⟩)
    rfl sampleReg_spec.2.2.2
    (fun k hk => by
      have hk' : k = 0 := by simpa using hk
      subst hk'
      exact ⟨.all 3, (3, .multi "a" 5), rfl, rfl, rfl⟩)
    (by decide) (by decide)

/-- C8: on an unlocked registry whose callbacks only return, with `X ≠ Y` and `X` mapped to
the event `i`: `Trigger(Y, v)` returns, none of its calls comes from the list of event `i`,
and event `i`, its list and the mapping of `X` are as before. -/
theorem trigger_other_name_isolated (beh : Nat → List Act) (w : World) (X Y : String)
    (i v fuel : Nat) (ps qs : List Nat) (hXY : X ≠ Y) (hX : Events.lookup w X = some i)
    (hm : w.reg.mtx = false) (hwf : WF w)
    (hN : Repr (Events.subs w Y) ps) (hpN : Passive beh (Events.subs w Y) (.data v) ps)
    (hall : w.reg.all.mtx = false) (hA : Repr w.reg.all.subscribers qs)
    (hpA : Passive beh w.reg.all.subscribers (.multi Y v) qs)
    (hfN : ps.length < fuel) (hfA : qs.length < fuel) :
    ∃ w1 calls, Events.Trigger beh fuel Y v w = .ok w1 ∧ w1.log = w.log ++ calls ∧
      (∀ x ∈ calls, x.chan ≠ .ev i) ∧
      w1.getEvent (.ev i) = w.getEvent (.ev i) ∧ Events.lookup w1 X = some i ∧
      Events.subs w1 X = Events.subs w X := by
  refine ⟨_, _, Events.Trigger_calls hm hwf hN hpN hall hA hpA hfN hfA, rfl, ?_, ?_, ?_, ?_⟩
  · intro x hx hxc
    rcases List.mem_append.1 hx with hx | hx
    · obtain ⟨k, hk, -, hc⟩ := callsOf_slot hx
      cases hl : Events.lookup w Y with
      | none =>
        rw [Events.subs_of_none hl] at hN
        have := Repr.unique hN repr_zero
        subst this
        simp at hk
      | some j =>
        rw [hxc] at hc
        simp only [Events.chan, hl, Option.getD_some, Chan.ev.injEq] at hc
        subst hc
        exact hXY (hwf.lookup_inj hX hl)
    · obtain ⟨k, -, -, hc⟩ := callsOf_slot hx
      rw [hxc] at hc
      cases hc
  · show (Events.lazyInit w).getEvent (.ev i) = _
    rw [Events.lazyInit_getEvent]
  · show Events.lookup (Events.lazyInit w) X = _
    rw [Events.lookup_lazyInit]; exact hX
  · exact Events.subs_congr (w := w) (fun n => Events.lookup_lazyInit w n)
      (Events.lazyInit_events w) X

/-- C8 at the registry after `On("a", 1); On("b", 2); Subscribe(3)`: `Trigger("b", 5)`
leaves the channel of `"a"` alone. -/
theorem trigger_other_name_isolated_witness :
    ∃ w1 calls, Events.Trigger (fun _ => []) 2 "b" 5 sampleReg = .ok w1 ∧
      w1.log = sampleReg.log ++ calls ∧ (∀ x ∈ calls, x.chan ≠ .ev 0) ∧
      w1.getEvent (.ev 0) = sampleReg.getEvent (.ev 0) ∧ Events.lookup w1 "a" = some 0 ∧
      Events.subs w1 "a" = Events.subs sampleReg "a" :=
  trigger_other_name_isolated (fun _ => []) sampleReg "a" "b" 0 5 2 [0] [0] (by decide) rfl rfl
    sampleReg_spec.1 sampleReg_spec.2.2.1
    (fun k hk => by
      have hk' : k = 0 := by simpa using hk
      subst hk'
      exact ⟨.fn 2, (2, .data 5), rfl, rfl, rfl⟩)
    rfl sampleReg_spec.2.2.2
    (fun k hk => by
      have hk' : k = 0 := by simpa using hk
      subst hk'
      exact ⟨.all 3, (3, .multi "b" 5), rfl, rfl, rfl⟩)
    (by decide) (by decide)

/-- C9: on a registry at rest, `SubscribeTo(f, ns...)` with `ns` not empty returns a closure
`h` and fills the slots `Events.slotsOf w ns`, all holding `f`; after any subscribing calls
`ops` made in between (`On`, `Subscribe`, `SubscribeTo`), one call of `h` returns and removes
exactly those slots: every named list keeps its other slots, those subscribed before and
those subscribed in between, in order and with their function values, and the catch-all list
and the log are untouched; a second call of `h` returns and changes nothing, also after
further subscribing calls `ops2`; and a `Trigger(n, v)` of any name `n` then makes exactly the
calls of the slots that are left (callbacks that only return), none from a slot of the
`SubscribeTo`. -/
theorem subscribeTo_handle_removes_all (beh : Nat → List Act) (sched : List Task → List Task)
    (w : World) (f : Nat) (ns : List String) (ops ops2 : List Op) (n : String) (v fuel : Nat)
    (hns : ns ≠ []) (hg : Good w) (hops : ∀ op ∈ ops, op.subscribes = true)
    (hops2 : ∀ op ∈ ops2, op.subscribes = true) :
    ∃ h w1 w1' w2, Events.SubscribeTo f ns w = .ok (h, w1) ∧
      runOps beh fuel sched ops w1 = .ok w1' ∧ callUnsub h w1' = .ok w2 ∧
      (∀ t ∈ Events.slotsOf w ns, (Events.subs w1' t.1).valueAt t.2 = some (.named f t.1)) ∧
      (∀ m qs, Repr (Events.subs w1' m) qs →
        Repr (Events.subs w2 m) (qs.filter fun k => decide ((m, k) ∉ Events.slotsOf w ns)) ∧
        ∀ k, (Events.subs w2 m).valueAt k = (Events.subs w1' m).valueAt k) ∧
      w2.reg = w1'.reg ∧ w2.log = w1'.log ∧
      callUnsub h w2 = .ok w2 ∧
      (∃ w3, runOps beh fuel sched ops2 w2 = .ok w3 ∧ callUnsub h w3 = .ok w3) ∧
      ∀ ps qs, Repr (Events.subs w1' n) ps →
        Passive beh (Events.subs w1' n) (.data v)
          (ps.filter fun k => decide ((n, k) ∉ Events.slotsOf w ns)) →
        Repr w1'.reg.all.subscribers qs → Passive beh w1'.reg.all.subscribers (.multi n v) qs →
        ps.length < fuel → qs.length < fuel →
        ∃ w3, Events.Trigger beh fuel n v w2 = .ok w3 ∧
          w3.log = w2.log ++ (callsOf (Events.chan w2 n) (Events.subs w1' n) (.data v)
              (ps.filter fun k => decide ((n, k) ∉ Events.slotsOf w ns)) ++
            callsOf .all w1'.reg.all.subscribers (.multi n v) qs) ∧
          ∀ x ∈ callsOf (Events.chan w2 n) (Events.subs w1' n) (.data v)
              (ps.filter fun k => decide ((n, k) ∉ Events.slotsOf w ns)),
            ∀ k, x.slot = .elem k → (n, k) ∉ Events.slotsOf w ns := by
  obtain ⟨h, w1, w1', w2, us, hsub, hrun, hcu, hg1', hg2, hreg2, hlog2, hlog1', hlt2, hh2,
    hval2, hrepr2, hnamed⟩ := @subscribeTo_later_unsub beh fuel sched w f ns ops hns hg hops
  have hdone : ∀ w3 : World, w3.handles[h]? = some (.multi us true) →
      callUnsub h w3 = .ok w3 := by
    intro w3 h3
    simp only [callUnsub, h3]
    rfl
  refine ⟨h, w1, w1', w2, hsub, hrun, hcu, hnamed, fun m qs hq => ⟨hrepr2 m qs hq, hval2 m⟩,
    hreg2, hlog2.trans hlog1'.symm, hdone w2 hh2, ?_, ?_⟩
  · obtain ⟨w3, h3, -, ⟨extra, hx⟩, -⟩ := @runOps_keeps beh fuel sched ops2 w2 hg2 hops2
    refine ⟨w3, h3, hdone w3 ?_⟩
    rw [hx, List.getElem?_append_left hlt2]
    exact hh2
  · intro ps qs hN hpN hA hpA hfN hfA
    have hN2 := hrepr2 n ps hN
    have hpN2 : Passive beh (Events.subs w2 n) (.data v)
        (ps.filter fun k => decide ((n, k) ∉ Events.slotsOf w ns)) :=
      passive_congr hpN (fun k _ => hval2 n k)
    have hlen : (ps.filter fun k => decide ((n, k) ∉ Events.slotsOf w ns)).length < fuel :=
      lt_of_le_of_lt (List.length_filter_le _ _) hfN
    have htr := Events.Trigger_calls hg2.mtx hg2.wf hN2 hpN2 hg2.all_mtx
      (by rw [hreg2]; exact hA) (by rw [hreg2]; exact hpA) hlen hfA
    refine ⟨_, htr, ?_, ?_⟩
    · show w2.log ++ _ = _
      rw [callsOf_congr _ _ _ (fun k _ => hval2 n k), hreg2]
      rfl
    · intro x hx k hk
      obtain ⟨k', hk', hs, -⟩ := callsOf_slot hx
      rw [hs] at hk
      cases hk
      simpa using (List.mem_filter.1 hk').2

/-- C9 at `ExampleEvents_SubscribeTo`: on the zero-value registry, `SubscribeTo(1, "event1",
"event2")`, then `SubscribeTo(2, "event2")`, then the first closure; and the whole example,
whose calls are `1("event1", 1)`, `1("event2", 2)`, `2("event2", 2)` and `2("event2", 4)`. -/
theorem subscribeTo_handle_removes_all_witness :
    (∃ h w1 w1' w2, Events.SubscribeTo 1 ["event1", "event2"] World.zero = .ok (h, w1) ∧
      runOps (fun _ => []) 3 id [.subscribeTo 2 ["event2"]] w1 = .ok w1' ∧
      callUnsub h w1' = .ok w2 ∧
      (∀ t ∈ Events.slotsOf World.zero ["event1", "event2"],
        (Events.subs w1' t.1).valueAt t.2 = some (.named 1 t.1)) ∧
      (∀ m qs, Repr (Events.subs w1' m) qs →
        Repr (Events.subs w2 m) (qs.filter fun k =>
          decide ((m, k) ∉ Events.slotsOf World.zero ["event1", "event2"])) ∧
        ∀ k, (Events.subs w2 m).valueAt k = (Events.subs w1' m).valueAt k) ∧
      w2.reg = w1'.reg ∧ w2.log = w1'.log ∧
      callUnsub h w2 = .ok w2 ∧
      (∃ w3, runOps (fun _ => []) 3 id [.on "event2" 3] w2 = .ok w3 ∧
        callUnsub h w3 = .ok w3) ∧
      ∀ ps qs, Repr (Events.subs w1' "event2") ps →
        Passive (fun _ => []) (Events.subs w1' "event2") (.data 4)
          (ps.filter fun k =>
            decide (("event2", k) ∉ Events.slotsOf World.zero ["event1", "event2"])) →
        Repr w1'.reg.all.subscribers qs →
        Passive (fun _ => []) w1'.reg.all.subscribers (.multi "event2" 4) qs →
        ps.length < 3 → qs.length < 3 →
        ∃ w3, Events.Trigger (fun _ => []) 3 "event2" 4 w2 = .ok w3 ∧
          w3.log = w2.log ++ (callsOf (Events.chan w2 "event2") (Events.subs w1' "event2")
              (.data 4) (ps.filter fun k =>
                decide (("event2", k) ∉ Events.slotsOf World.zero ["event1", "event2"])) ++
            callsOf .all w1'.reg.all.subscribers (.multi "event2" 4) qs) ∧
          ∀ x ∈ callsOf (Events.chan w2 "event2") (Events.subs w1' "event2") (.data 4)
              (ps.filter fun k =>
                decide (("event2", k) ∉ Events.slotsOf World.zero ["event1", "event2"])),
            ∀ k, x.slot = .elem k →
              ("event2", k) ∉ Events.slotsOf World.zero ["event1", "event2"]) ∧
    ∃ w, runOps (fun _ => []) 3 id [.subscribeTo 1 ["event1", "event2"],
        .subscribeTo 2 ["event2"], .trigger "event1" 1, .trigger "event2" 2, .unsub 2,
        .trigger "event1" 3, .trigger "event2" 4, .unsub 4, .trigger "event1" 5,
        .trigger "event2" 6] World.zero = .ok w ∧
      w.log.map (fun x => (x.fn, x.args)) =
        [(1, .multi "event1" 1), (1, .multi "event2" 2), (2, .multi "event2" 2),
          (2, .multi "event2" 4)] :=
  ⟨subscribeTo_handle_removes_all (fun _ => []) id World.zero 1 ["event1", "event2"]
    [.subscribeTo 2 ["event2"]] [.on "event2" 3] "event2" 4 3 (by decide) good_zero
    (by decide) (by decide), ⟨_, rfl, rfl⟩⟩

/-- C10: on an unlocked registry whose callbacks only return, after `SubscribeTo(f, ns...)`
with `ns` not empty, `Trigger(n, v)` returns and calls, between the subscribers the channel of
`n` had before and the catch-all subscribers, `f(n, v)` once for every occurrence of `n` in
`ns` (from as many new slots of the channel of `n`), and never `f` with another name. -/
theorem subscribeTo_calls_with_own_name (beh : Nat → List Act) (w : World) (f : Nat)
    (ns : List String) (n : String) (v fuel : Nat) (ps qs : List Nat) (hns : ns ≠ [])
    (hm : w.reg.mtx = false) (hwf : WF w)
    (hN : Repr (Events.subs w n) ps) (hpN : Passive beh (Events.subs w n) (.data v) ps)
    (hall : w.reg.all.mtx = false) (hA : Repr w.reg.all.subscribers qs)
    (hpA : Passive beh w.reg.all.subscribers (.multi n v) qs) (hf : beh f = [])
    (hfN : ps.length + ns.count n < fuel) (hfA : qs.length < fuel) :
    ∃ h w1 w2, Events.SubscribeTo f ns w = .ok (h, w1) ∧
      Events.Trigger beh fuel n v w1 = .ok w2 ∧
      w2.log = w.log ++ (callsOf (Events.chan w1 n) (Events.subs w n) (.data v) ps ++
        (List.range' (Events.subs w n).arena.length (ns.count n)).map
          (fun k => (⟨Events.chan w1 n, .elem k, f, .multi n v⟩ : Call)) ++
        callsOf .all w.reg.all.subscribers (.multi n v) qs) := by
  obtain ⟨w1, hsub, hwf1, -, hm1, hall1, hlog1, -, -, -, -, -, hold1, hnew1, hrepr1⟩ :=
    Events.SubscribeTo_spec f ns hns hm hwf
  have hold : ∀ k ∈ ps, (Events.subs w1 n).valueAt k = (Events.subs w n).valueAt k :=
    fun k hk => hold1 n k (hN.lt hk)
  have hnew : ∀ k ∈ List.range' (Events.subs w n).arena.length (ns.count n),
      (Events.subs w1 n).valueAt k = some (.named f n) := by
    intro k hk
    simp only [List.mem_range'_1] at hk
    exact hnew1 n k hk.1 hk.2
  have hp1 : Passive beh (Events.subs w1 n) (.data v)
      (ps ++ List.range' (Events.subs w n).arena.length (ns.count n)) := by
    apply passive_append (passive_congr hpN hold)
    intro k hk
    exact ⟨.named f n, (f, .multi n v), hnew k hk, rfl, hf⟩
  have htr := Events.Trigger_calls hm1 hwf1 (hrepr1 n ps hN) hp1 (by rw [hall1]; exact hall)
    (by rw [hall1]; exact hA) (by rw [hall1]; exact hpA) (by simpa using hfN) hfA
  refine ⟨_, w1, _, hsub, htr, ?_⟩
  show w1.log ++ _ = _
  rw [hlog1, callsOf_append, callsOf_congr _ _ ps hold, callsOf_named _ hnew, hall1]

/-- C10 at the sample registry: after `SubscribeTo(9, "a", "c", "a")`, `Trigger("a", 5)` calls
the old subscriber of `"a"`, then `9("a", 5)` twice, then the catch-all subscriber. -/
theorem subscribeTo_calls_with_own_name_witness :
    ∃ h w1 w2, Events.SubscribeTo 9 ["a", "c", "a"] sampleReg = .ok (h, w1) ∧
      Events.Trigger (fun _ => []) 4 "a" 5 w1 = .ok w2 ∧
      w2.log = sampleReg.log ++
        (callsOf (Events.chan w1 "a") (Events.subs sampleReg "a") (.data 5) [0] ++
        (List.range' (Events.subs sampleReg "a").arena.length (["a", "c", "a"].count "a")).map
          (fun k => (⟨Events.chan w1 "a", .elem k, 9, .multi "a" 5⟩ : Call)) ++
        callsOf .all sampleReg.reg.all.subscribers (.multi "a" 5) [0]) :=
  subscribeTo_calls_with_own_name (fun _ => []) sampleReg 9 ["a", "c", "a"] "a" 5 4 [0] [0]
    (by decide) rfl sampleReg_spec.1 sampleReg_spec.2.1
    (fun k hk => by
      have hk' : k = 0 := by simpa using hk
      subst hk'
      exact ⟨.fn 1, (1, .data 5), rfl, rfl, rfl⟩)
    rfl sampleReg_spec.2.2.2
    (fun k hk => by
      have hk' : k = 0 := by simpa using hk
      subst hk'
      exact ⟨.all 3, (3, .multi "a" 5), rfl, rfl, rfl⟩)
    rfl (by decide) (by decide)

/-- C11: `SubscribeTo(f)` without names is the call `Subscribe(f)`.  On an unlocked registry
it returns, leaves every named channel as it was and appends one slot holding `f` to the
catch-all list; a `Trigger(n, v)` of any name then calls `f(n, v)` once, after the earlier
catch-all subscribers (callbacks that only return); and the returned closure removes that
slot again. -/
theorem subscribeTo_no_names_is_subscribe (beh : Nat → List Act) (w : World) (f : Nat)
    (n : String) (v fuel : Nat) (ps qs : List Nat) (hm : w.reg.mtx = false) (hwf : WF w)
    (hN : Repr (Events.subs w n) ps) (hpN : Passive beh (Events.subs w n) (.data v) ps)
    (hall : w.reg.all.mtx = false) (hA : Repr w.reg.all.subscribers qs)
    (hpA : Passive beh w.reg.all.subscribers (.multi n v) qs) (hf : beh f = [])
    (hfN : ps.length < fuel) (hfA : qs.length + 1 < fuel) :
    Events.SubscribeTo f [] w = Events.Subscribe f w ∧
    ∃ h w1 w2 w3, Events.SubscribeTo f [] w = .ok (h, w1) ∧
      (∀ m, Events.subs w1 m = Events.subs w m) ∧ w1.events = w.events ∧
      (∃ r, w1.reg.all = ⟨false, r⟩ ∧ Repr r (qs ++ [w.reg.all.subscribers.arena.length]) ∧
        r.valueAt w.reg.all.subscribers.arena.length = some (.all f)) ∧
      Events.Trigger beh fuel n v w1 = .ok w2 ∧
      w2.log = w.log ++ (callsOf (Events.chan w n) (Events.subs w n) (.data v) ps ++
        (callsOf .all w.reg.all.subscribers (.multi n v) qs ++
          [⟨.all, .elem w.reg.all.subscribers.arena.length, f, .multi n v⟩])) ∧
      callUnsub h w1 = .ok w3 ∧ ∃ r, w3.reg.all = ⟨false, r⟩ ∧ Repr r qs := by
  have heq : Events.SubscribeTo f [] w = Events.Subscribe f w := rfl
  refine ⟨heq, ?_⟩
  obtain ⟨w1, r, hsub, hwf1, -, hm1, hall1, hlog1, hev1, hh1, hlk1, hrr, hlen, hv, hold⟩ :=
    Events.Subscribe_spec f hm hwf hall hA
  have hsubs : ∀ m, Events.subs w1 m = Events.subs w m := Events.subs_congr hlk1 hev1
  have holdq : ∀ k ∈ qs, r.valueAt k = w.reg.all.subscribers.valueAt k :=
    fun k hk => hold k (Nat.ne_of_lt (hA.lt hk))
  have hp1 : Passive beh w1.reg.all.subscribers (.multi n v)
      (qs ++ [w.reg.all.subscribers.arena.length]) := by
    rw [hall1]
    apply passive_append (passive_congr hpA holdq)
    intro k hk
    have hk' : k = w.reg.all.subscribers.arena.length := by simpa using hk
    subst hk'
    exact ⟨.all f, (f, .multi n v), hv, rfl, hf⟩
  have htr := Events.Trigger_calls hm1 hwf1 (by rw [hsubs]; exact hN)
    (by rw [hsubs]; exact hpN) (by rw [hall1]) (by rw [hall1]; exact hrr) hp1 hfN
    (by simpa using hfA)
  have hg : w1.getEvent .all = some ⟨false, r⟩ := by
    show some w1.reg.all = _
    rw [hall1]
  have hhh : w1.handles[w.handles.length]? =
      some (.single .all (.elem w.reg.all.subscribers.arena.length) false) := by
    rw [hh1, List.getElem?_append_right (le_refl _)]
    simp
  obtain ⟨r', hrr', -, -, hcs⟩ := callSingle_spec hhh hg hrr (by rw [hlen]; omega)
  rw [erase_last_fresh (fun hmem => Nat.lt_irrefl _ (hA.lt hmem))] at hrr'
  refine ⟨_, w1, _, _, heq.trans hsub, hsubs, hev1, ⟨r, hall1, hrr, hv⟩, htr, ?_,
    (callUnsub_single hhh).trans hcs, r', rfl, hrr'⟩
  show w1.log ++ _ = _
  have hc : callsOf .all r (.multi n v) [w.reg.all.subscribers.arena.length] =
      [⟨.all, .elem w.reg.all.subscribers.arena.length, f, .multi n v⟩] := by
    simp [callsOf, callOf, hv, Sub.target]
  have hchan : Events.chan w1 n = Events.chan w n := by simp [Events.chan, hlk1]
  rw [hlog1, hsubs, hall1, hchan, callsOf_append, callsOf_congr .all _ qs holdq, hc]

/-- C11 at the sample registry, with `SubscribeTo(9)` and `Trigger("a", 5)`. -/
theorem subscribeTo_no_names_is_subscribe_witness :
    Events.SubscribeTo 9 [] sampleReg = Events.Subscribe 9 sampleReg ∧
    ∃ h w1 w2 w3, Events.SubscribeTo 9 [] sampleReg = .ok (h, w1) ∧
      (∀ m, Events.subs w1 m = Events.subs sampleReg m) ∧ w1.events = sampleReg.events ∧
      (∃ r, w1.reg.all = ⟨false, r⟩ ∧
        Repr r ([0] ++ [sampleReg.reg.all.subscribers.arena.length]) ∧
        r.valueAt sampleReg.reg.all.subscribers.arena.length = some (.all 9)) ∧
      Events.Trigger (fun _ => []) 3 "a" 5 w1 = .ok w2 ∧
      w2.log = sampleReg.log ++
        (callsOf (Events.chan sampleReg "a") (Events.subs sampleReg "a") (.data 5) [0] ++
        (callsOf .all sampleReg.reg.all.subscribers (.multi "a" 5) [0] ++
          [⟨.all, .elem sampleReg.reg.all.subscribers.arena.length, 9, .multi "a" 5⟩])) ∧
      callUnsub h w1 = .ok w3 ∧ ∃ r, w3.reg.all = ⟨false, r⟩ ∧ Repr r [0] :=
  subscribeTo_no_names_is_subscribe (fun _ => []) sampleReg 9 "a" 5 3 [0] [0] rfl
    sampleReg_spec.1 sampleReg_spec.2.1
    (fun k hk => by
      have hk' : k = 0 := by simpa using hk
      subst hk'
      exact ⟨.fn 1, (1, .data 5), rfl, rfl, rfl⟩)
    rfl sampleReg_spec.2.2.2
    (fun k hk => by
      have hk' : k = 0 := by simpa using hk
      subst hk'
      exact ⟨.all 3, (3, .multi "a" 5), rfl, rfl, rfl⟩)
    rfl (by decide) (by decide)

/-- C12, as stated, fails: after `Trigger("e", 1)` or `TriggerAsync("e", 1)` on the zero-value
registry the name `"e"` has been triggered and has no channel in the map. -/
theorem triggered_name_gets_no_channel :
    (∃ w1, Events.Trigger (fun _ => []) 1 "e" 1 World.zero = .ok w1 ∧
      Events.lookup w1 "e" = none) ∧
    ∃ w1, Events.TriggerAsync (fun _ => []) 1 id "e" 1 World.zero = .ok w1 ∧
      Events.lookup w1 "e" = none :=
  ⟨⟨_, rfl, rfl⟩, ⟨_, rfl, rfl⟩⟩

/-- C12, amended: a returned `On(n, f)` leaves `n` mapped to one event `i`; that event was
allocated by this call exactly when `n` had none before (one new event on the heap), and is
the event `n` had otherwise (nothing allocated); every later sequence of calls leaves `n`
mapped to `i`; `SubscribeTo` maps each of its names likewise; and `Trigger` and `TriggerAsync`
map no name that was not mapped before. -/
theorem subscribed_name_has_one_channel (beh : Nat → List Act) (fuel : Nat)
    (sched : List Task → List Task) (w w1 : World) (n : String) (f h : Nat)
    (hon : Events.On n f w = .ok (h, w1)) :
    ∃ i, Events.lookup w1 n = some i ∧
      (Events.lookup w n = none →
        i = w.events.length ∧ w1.events.length = w.events.length + 1) ∧
      (∀ j, Events.lookup w n = some j → i = j ∧ w1.events.length = w.events.length) ∧
      (∀ ops w2, runOps beh fuel sched ops w1 = .ok w2 → Events.lookup w2 n = some i) ∧
      (∀ g ns h2 w2, n ∈ ns → Events.SubscribeTo g ns w = .ok (h2, w2) →
        (Events.lookup w2 n).isSome = true) ∧
      (∀ m v w2 k, Events.Trigger beh fuel m v w = .ok w2 →
        Events.lookup w2 k = Events.lookup w k) ∧
      ∀ m v w2 k, Events.TriggerAsync beh fuel sched m v w = .ok w2 →
        Events.lookup w2 k = Events.lookup w k := by
  obtain ⟨hnone, hsome⟩ := Events.On_alloc hon
  obtain ⟨i, hi⟩ := Option.isSome_iff_exists.1 (Events.On_grows hon).2
  refine ⟨i, hi, ?_, ?_, fun ops w2 h2 => runOps_grows ops h2 n i hi,
    fun g ns h2 w2 hn h3 => (Events.SubscribeTo_grows h3).2 n hn,
    fun m v w2 k h2 => Events.Trigger_lookup h2 k,
    fun m v w2 k h2 => Events.TriggerAsync_lookup h2 k⟩
  · intro h0
    obtain ⟨h1, h2⟩ := hnone h0
    rw [hi] at h1
    exact ⟨Option.some.inj h1, h2⟩
  · intro j hj
    obtain ⟨h1, h2⟩ := hsome j hj
    rw [hi] at h1
    exact ⟨Option.some.inj h1, h2⟩

/-- C12 (amended) at `On("a", 1)` on the zero-value registry. -/
theorem subscribed_name_has_one_channel_witness :
    ∃ i, Events.lookup sampleReg1 "a" = some i ∧
      (Events.lookup World.zero "a" = none →
        i = World.zero.events.length ∧
        sampleReg1.events.length = World.zero.events.length + 1) ∧
      (∀ j, Events.lookup World.zero "a" = some j →
        i = j ∧ sampleReg1.events.length = World.zero.events.length) ∧
      (∀ ops w2, runOps (fun _ => []) 2 id ops sampleReg1 = .ok w2 →
        Events.lookup w2 "a" = some i) ∧
      (∀ g ns h2 w2, "a" ∈ ns → Events.SubscribeTo g ns World.zero = .ok (h2, w2) →
        (Events.lookup w2 "a").isSome = true) ∧
      (∀ m v w2 k, Events.Trigger (fun _ => []) 2 m v World.zero = .ok w2 →
        Events.lookup w2 k = Events.lookup World.zero k) ∧
      ∀ m v w2 k, Events.TriggerAsync (fun _ => []) 2 id m v World.zero = .ok w2 →
        Events.lookup w2 k = Events.lookup World.zero k :=
  subscribed_name_has_one_channel (fun _ => []) 2 id World.zero sampleReg1 "a" 1 0 rfl

/-- C13: on an unlocked channel with slots `ps`, callbacks that only return and a schedule
that runs every launched goroutine once, in any order: `triggerAsync` adds `ps.length` to the
wait group and launches exactly one goroutine per slot, each with `v`; `TriggerAsync(v)`
returns, its calls are those of a synchronous pass in the order of the schedule; and as long
as fewer than all goroutines have finished the counter is not zero. -/
theorem triggerAsync_one_call_per_subscriber (beh : Nat → List Act) (c : Chan) (v : Payload)
    (w : World) (l : GoList) (ps : List Nat) (fuel : Nat) (sched : List Task → List Task)
    (he : w.getEvent c = some ⟨false, l⟩) (hr : Repr l ps) (hp : Passive beh l v ps)
    (hs : ∀ ts, (sched ts).Perm ts) (hfuel : ps.length < fuel) :
    Event.triggerAsync fuel c v 0 w = .ok ((ps.length : Int), tasksOf c l v ps, w) ∧
    (tasksOf c l v ps).length = ps.length ∧
    (tasksOf c l v ps).map (·.slot) = ps.map Ptr.elem ∧
    (∀ t ∈ tasksOf c l v ps, t.eventData = v) ∧
    (∃ w1 calls, Event.TriggerAsync beh fuel sched c v w = .ok w1 ∧ w1.log = w.log ++ calls ∧
      calls.Perm (callsOf c l v ps)) ∧
    ∀ k, k < ps.length → ∃ wg w1,
      runTasks beh fuel ((sched (tasksOf c l v ps)).take k) ps.length w = .ok (wg, w1) ∧
      wg ≠ 0 := by
  have hta : Event.triggerAsync fuel c v 0 w = .ok ((ps.length : Int), tasksOf c l v ps, w) := by
    rw [Event.triggerAsync_spec 0 he hr hfuel, zero_add]
  obtain ⟨hlen, hslots⟩ := tasksOf_length (c := c) (p := v) hr
  have hpass : ∀ t ∈ sched (tasksOf c l v ps),
      ∃ x, t.subscriber.target t.eventData = some x ∧ beh x.1 = [] :=
    fun t ht => tasksOf_passive hp t ((hs _).mem_iff.1 ht)
  have hslen : (sched (tasksOf c l v ps)).length = ps.length := by
    rw [(hs _).length_eq, hlen]
  refine ⟨hta, hlen, hslots, ?_, ?_, ?_⟩
  · intro t ht
    obtain ⟨n, s, -, -, rfl⟩ := tasksOf_mem ht
    rfl
  · refine ⟨{ w with log := w.log ++ (sched (tasksOf c l v ps)).filterMap Task.call },
      (sched (tasksOf c l v ps)).filterMap Task.call, ?_, rfl, ?_⟩
    · simp only [Event.TriggerAsync, hta, except_ok_bind, runTasks_passive _ _ _ hpass, hslen,
        sub_self, wgWait, if_true, except_pure]
    · rw [← tasksOf_calls]
      exact (hs _).filterMap _
  · intro k hk
    refine ⟨_, _, runTasks_passive _ _ _ (fun t ht => hpass t (List.mem_of_mem_take ht)), ?_⟩
    rw [List.length_take, hslen, Nat.min_eq_left (le_of_lt hk)]
    omega

/-- C13 at the state after `On(1); On(2); On(3)` with the schedule that runs the goroutines
in reverse launch order. -/
theorem triggerAsync_one_call_per_subscriber_witness :
    Event.triggerAsync 4 (.ev 0) (.data 7) 0 sample3 =
      .ok ((([0, 1, 2] : List Nat).length : Int),
        tasksOf (.ev 0) sample3List (.data 7) [0, 1, 2], sample3) ∧
    (tasksOf (.ev 0) sample3List (.data 7) [0, 1, 2]).length = [0, 1, 2].length ∧
    (tasksOf (.ev 0) sample3List (.data 7) [0, 1, 2]).map (·.slot) = [0, 1, 2].map Ptr.elem ∧
    (∀ t ∈ tasksOf (.ev 0) sample3List (.data 7) [0, 1, 2], t.eventData = .data 7) ∧
    (∃ w1 calls, Event.TriggerAsync (fun _ => []) 4 List.reverse (.ev 0) (.data 7) sample3 =
        .ok w1 ∧ w1.log = sample3.log ++ calls ∧
      calls.Perm (callsOf (.ev 0) sample3List (.data 7) [0, 1, 2])) ∧
    ∀ k, k < [0, 1, 2].length → ∃ wg w1,
      runTasks (fun _ => []) 4
        ((List.reverse (tasksOf (.ev 0) sample3List (.data 7) [0, 1, 2])).take k)
        ([0, 1, 2] : List Nat).length sample3 = .ok (wg, w1) ∧
      wg ≠ 0 :=
  triggerAsync_one_call_per_subscriber (fun _ => []) (.ev 0) (.data 7) sample3 sample3List
    [0, 1, 2] 4 List.reverse rfl repr_sample3
    (fun k hk => by
      have hk' : k = 0 ∨ k = 1 ∨ k = 2 := by simpa using hk
      rcases hk' with rfl | rfl | rfl
      · exact ⟨.fn 1, (1, .data 7), rfl, rfl, rfl⟩
      · exact ⟨.fn 2, (2, .data 7), rfl, rfl, rfl⟩
      · exact ⟨.fn 3, (3, .data 7), rfl, rfl, rfl⟩)
    (fun ts => List.reverse_perm ts) (by decide)

/-- C14: whatever the callbacks do (subscribe, unsubscribe, trigger the channel again,
trigger a name of the registry again, on any channel), in a state where no mutex is held:
`Event.Trigger`, `Events.Trigger`, `Event.On`, `Events.On` and a call of an `Unsubscribe`
closure never end waiting for a held mutex, and when they return no channel mutex is held and
the registry mutex is released; inside the loop of `Trigger`, which holds only the mutex of
its channel `c`, the subscriber of an element is called in the state where that mutex has
been released and the registry mutex is as the loop found it, so that no channel mutex is
held during the call; `Event.Trigger` entered where no mutex is held starts its loop holding
the mutex of `c` alone, the registry mutex released; `Events.Trigger` has released the registry mutex before its first
pass: it is the two passes of `Event.Trigger` started in the state `lazyInit` leaves, where
no mutex is held; and a subscriber called where no mutex is held never ends waiting for a
held mutex and leaves no mutex held when it returns. -/
theorem no_lock_held_across_invocation (beh : Nat → List Act) (fuel : Nat) (c : Chan)
    (p : Payload) (n : String) (v h : Nat) (s : Sub) (w : World)
    (hf : Free w) (hm : w.reg.mtx = false) :
    Step (Event.Trigger beh fuel c p w) (fun w1 => Free w1 ∧ w1.reg.mtx = false) ∧
    Step (Events.Trigger beh fuel n v w) (fun w1 => Free w1 ∧ w1.reg.mtx = false) ∧
    Step (Event.On c s w) (fun r => Free r.2 ∧ r.2.reg.mtx = false) ∧
    Step (Events.On n v w) (fun r => Free r.2 ∧ r.2.reg.mtx = false) ∧
    Step (callUnsub h w) (fun w1 => Free w1 ∧ w1.reg.mtx = false) ∧
    (∀ (w0 : World) (l : GoList) (k : Nat) (s0 : Sub), FreeBut c w0 →
      w0.getEvent c = some ⟨true, l⟩ → l.valueAt k = some s0 →
      Free (w0.setEvent c ⟨false, l⟩) ∧
      (w0.setEvent c ⟨false, l⟩).reg.mtx = w0.reg.mtx ∧
      triggerLoop beh (fuel + 1) c (.elem k) p w0 =
        (callSub beh (Event.Trigger beh fuel) c (.elem k) s0 p (w0.setEvent c ⟨false, l⟩) >>=
          fun w1 => lock c w1 >>= fun w2 =>
          onList c w2 (fun l => (l.Next (.elem k)).map fun i => (l, i)) >>= fun r =>
          triggerLoop beh fuel c r.1 p r.2)) ∧
    (∀ (w0 : World) (l : GoList), Idle w0 → w0.getEvent c = some ⟨false, l⟩ →
      FreeBut c (w0.setEvent c ⟨true, l⟩) ∧ (w0.setEvent c ⟨true, l⟩).reg.mtx = false ∧
      Event.Trigger beh fuel c p w0 =
        triggerLoop beh fuel c l.Front p (w0.setEvent c ⟨true, l⟩)) ∧
    Events.Trigger beh fuel n v w =
      ((match Events.lookup w n with
        | some i => Event.Trigger beh fuel (.ev i) (.data v) (Events.lazyInit w)
        | none => pure (Events.lazyInit w)) >>=
        fun w1 => Event.Trigger beh fuel .all (.multi n v) w1) ∧
    Idle (Events.lazyInit w) ∧
    ∀ (w0 : World) (i : Ptr) (s0 : Sub), Idle w0 →
      Step (callSub beh (Event.Trigger beh fuel) c i s0 p w0) Idle := by
  refine ⟨?_, Events.Trigger_reg_step hf hm, ?_, Events.On_reg_step hf hm, ?_, ?_, ?_, ?_,
    idle_lazyInit ⟨hf, hm⟩, ?_⟩
  · exact @Event.Trigger_idle beh fuel c p w ⟨hf, hm⟩
  · have hs := @Event.On_step c s w hf
    exact ⟨hs.1, fun r h1 => ⟨hs.2 r h1, (@Event.On_sameMap c s w r.2 r.1 h1).2.trans hm⟩⟩
  · have hs := @callUnsub_step h w hf
    exact ⟨hs.1, fun w1 h1 => ⟨hs.2 w1 h1, (callUnsub_sameMap h1).2.trans hm⟩⟩
  · intro w0 l k s0 hb he hv
    refine ⟨?_, ?_, triggerLoop_elem he hv⟩
    · intro c' e' he'
      rw [World.getEvent_setEvent_of he] at he'
      by_cases hc : c' = c
      · rw [if_pos hc] at he'
        cases he'
        rfl
      · rw [if_neg hc] at he'
        exact hb.2 c' e' hc he'
    · cases c <;> rfl
  · intro w0 l hi he
    refine ⟨(lock_step hi.1).2 _ (lock_ok he), ?_, ?_⟩
    · cases c <;> exact hi.2
    · unfold Event.Trigger
      rw [lock_ok he]
      simp only [except_ok_bind]
      rw [onList_ok (World.getEvent_setEvent_same he ⟨true, l⟩) (fun l => some (l, l.Front)) rfl]
      simp only [except_ok_bind, World.setEvent_setEvent]
  · unfold Events.Trigger Events.triggerWith
    rw [regLock_ok hm]
    simp only [except_ok_bind, Events.lookup_lazyInit, Events.lookup_locked,
      regUnlock_lazyInit hm]
    cases Events.lookup w n <;> rfl
  · intro w0 i s0 hi
    exact callSub_idle (fun _ _ _ hi => Event.Trigger_idle hi) hi

/-- C14 at the state after `On(1); On(2); On(3)`, where callback `1` subscribes, calls its own
closure and triggers the channel again, callback `2` triggers the catch-all channel and
callback `3` calls the closure of callback `2`; and at the registry after `On("a", 1);
On("b", 2); Subscribe(3)`, where callback `1` triggers `"b"` through the registry and
callback `3` triggers `"c"` through the registry when it is called for `"a"`. -/
theorem no_lock_held_across_invocation_witness :
    Step (Event.Trigger (fun f => if f = 1 then [.on (.ev 0) 9, .unsub 0, .trigger (.ev 0)
        (.data 8)] else if f = 2 then [.trigger .all (.multi "x" 1)] else
        if f = 3 then [.unsub 1] else []) 6 (.ev 0) (.data 7) sample3)
      (fun w1 => Free w1 ∧ w1.reg.mtx = false) ∧
    Step (Events.Trigger (fun f => if f = 1 then [.regTrigger "b" 6] else []) 6 "a" 5
        sampleReg)
      (fun w1 => Free w1 ∧ w1.reg.mtx = false) ∧
    ∃ w1, Events.Trigger (fun f => if f = 1 then [.regTrigger "b" 6] else []) 6 "a" 5
        sampleReg = .ok w1 ∧
      w1.log.map (fun x => (x.fn, x.args)) =
        [(1, .data 5), (2, .data 6), (3, .multi "b" 6), (3, .multi "a" 5)] :=
  ⟨(no_lock_held_across_invocation (fun f => if f = 1 then [.on (.ev 0) 9, .unsub 0,
    .trigger (.ev 0) (.data 8)] else if f = 2 then [.trigger .all (.multi "x" 1)] else
    if f = 3 then [.unsub 1] else []) 6 (.ev 0) (.data 7) "a" 5 0 (.fn 4) sample3
    free_sample3 rfl).1,
   (no_lock_held_across_invocation (fun f => if f = 1 then [.regTrigger "b" 6] else []) 6
    (.ev 0) (.data 7) "a" 5 0 (.fn 4) sampleReg free_sampleReg rfl).2.1,
   ⟨_, rfl, rfl⟩⟩

/-- C15, as stated, fails: with three subscribers of which the second panics, whether the
goroutines run in launch order or in reverse launch order, all three subscribers are called
and `TriggerAsync` does not return: the run ends in the panic of the second subscriber,
whose goroutine never reaches `wg.Done()`. -/
theorem triggerAsync_panic_not_isolated :
    (∃ w1, Event.TriggerAsync (fun f => if f = 2 then [.fault] else []) 4 id (.ev 0) (.data 7)
        sample3 = .error (.panic w1) ∧ w1.log.map (·.fn) = [1, 2, 3]) ∧
    (∃ w1, Event.TriggerAsync (fun f => if f = 2 then [.fault] else []) 4 List.reverse (.ev 0)
        (.data 7) sample3 = .error (.panic w1) ∧ w1.log.map (·.fn) = [3, 2, 1]) ∧
    ∃ w1, runTask (fun f => if f = 2 then [.fault] else []) 4 ⟨.ev 0, .elem 1, .fn 2, .data 7⟩
        3 sample3 = .error (.panic w1) :=
  ⟨⟨_, rfl, rfl⟩, ⟨_, rfl, rfl⟩, ⟨_, rfl⟩⟩

/-- C15, amended: on an unlocked channel where the callback of slot `m` panics and the
callbacks of the other slots only return, with a schedule that runs goroutines launched by
this call, each at most once, the one of slot `m` among them: `triggerAsync` adds `ps.length`
to the wait group and launches one goroutine per slot, the one of slot `m` included; that
goroutine ends in the panic of its subscriber, right after the call and before `wg.Done()`;
the other scheduled goroutines, `A` before it and `B` behind it, run alone leave the counter
above zero; and `TriggerAsync(v)` does not return: it ends in a panic, after the calls of all
the scheduled goroutines, those of `B` included. -/
theorem triggerAsync_panic_ends_run (beh : Nat → List Act) (c : Chan) (v : Payload)
    (w : World) (l : GoList) (ps : List Nat) (m fuel : Nat) (sched : List Task → List Task)
    (s : Sub) (t : Nat × Payload) (rest : List Act)
    (he : w.getEvent c = some ⟨false, l⟩) (hr : Repr l ps) (hm : m ∈ ps)
    (hv : l.valueAt m = some s) (ht : s.target v = some t) (hb : beh t.1 = .fault :: rest)
    (hp : Passive beh l v (ps.erase m))
    (hs : (sched (tasksOf c l v ps)).Subperm (tasksOf c l v ps))
    (hin : (⟨c, .elem m, s, v⟩ : Task) ∈ sched (tasksOf c l v ps))
    (hfuel : ps.length < fuel) :
    Event.triggerAsync fuel c v 0 w = .ok ((ps.length : Int), tasksOf c l v ps, w) ∧
    (⟨c, .elem m, s, v⟩ : Task) ∈ tasksOf c l v ps ∧
    (∀ (wg : Int) (w0 : World), runTask beh fuel ⟨c, .elem m, s, v⟩ wg w0 =
      .error (.panic { w0 with log := w0.log ++ [⟨c, .elem m, t.1, t.2⟩] })) ∧
    (∃ A B, sched (tasksOf c l v ps) = A ++ ⟨c, .elem m, s, v⟩ :: B ∧
      ∃ wg, runTasks beh fuel (A ++ B) ps.length w =
          .ok (wg, { w with log := w.log ++ (A ++ B).filterMap Task.call }) ∧
        0 < wg) ∧
    Event.TriggerAsync beh fuel sched c v w = .error (.panic { w with
      log := w.log ++ (sched (tasksOf c l v ps)).filterMap Task.call }) := by
  have hta : Event.triggerAsync fuel c v 0 w = .ok ((ps.length : Int), tasksOf c l v ps, w) := by
    rw [Event.triggerAsync_spec 0 he hr hfuel, zero_add]
  have hmem : (⟨c, .elem m, s, v⟩ : Task) ∈ tasksOf c l v ps := by
    simp only [tasksOf, List.mem_filterMap, Option.map_eq_some']
    exact ⟨m, hm, s, hv, rfl⟩
  have hnd : (sched (tasksOf c l v ps)).Nodup := by
    obtain ⟨l', hperm, hsub⟩ := hs
    exact hperm.nodup_iff.1 (hsub.nodup (tasksOf_nodup hr))
  -- the other scheduled goroutines only return
  have hother : ∀ t' ∈ sched (tasksOf c l v ps), t' ≠ (⟨c, .elem m, s, v⟩ : Task) →
      ∃ x, t'.subscriber.target t'.eventData = some x ∧ beh x.1 = [] := by
    intro t' ht' hne
    obtain ⟨n, s', hn, hv', rfl⟩ := tasksOf_mem (hs.subset ht')
    have hnm : n ≠ m := by
      rintro rfl
      rw [hv] at hv'
      cases hv'
      exact hne rfl
    obtain ⟨s'', x, hv'', hx, hbx⟩ := hp n ((List.mem_erase_of_ne hnm).2 hn)
    rw [hv'] at hv''
    cases hv''
    exact ⟨x, hx, hbx⟩
  have hall : ∀ t' ∈ sched (tasksOf c l v ps), ∃ x, t'.subscriber.target t'.eventData = some x ∧
      (beh x.1 = [] ∨ ∃ rest, beh x.1 = .fault :: rest) := by
    intro t' ht'
    by_cases hne : t' = (⟨c, .elem m, s, v⟩ : Task)
    · subst hne
      exact ⟨t, ht, Or.inr ⟨rest, hb⟩⟩
    · obtain ⟨x, hx, hbx⟩ := hother t' ht' hne
      exact ⟨x, hx, Or.inl hbx⟩
  have hrun := @runTasks_fault beh fuel (sched (tasksOf c l v ps)) (ps.length : Int) w hall
    ⟨_, hin, t, rest, ht, hb⟩
  obtain ⟨A, B, hsplit⟩ := List.append_of_mem hin
  refine ⟨hta, hmem, ?_, ⟨A, B, hsplit, ?_⟩, ?_⟩
  · intro wg w0
    simp only [runTask, callSub_eq, ht, callUser, hb, runActs, except_error_bind]
  · rw [hsplit] at hnd hother
    have hA : (⟨c, .elem m, s, v⟩ : Task) ∉ A := by
      intro h
      have := (List.nodup_append.1 hnd).2.2 h (List.mem_cons_self _ _)
      exact this
    have hB : (⟨c, .elem m, s, v⟩ : Task) ∉ B := by
      have := (List.nodup_cons.1 (List.nodup_append.1 hnd).2.1).1
      exact this
    have hpass : ∀ t' ∈ A ++ B, ∃ x, t'.subscriber.target t'.eventData = some x ∧
        beh x.1 = [] := by
      intro t' ht'
      rcases List.mem_append.1 ht' with h | h
      · exact hother t' (by simp [h]) (fun e => hA (e ▸ h))
      · exact hother t' (by simp [h]) (fun e => hB (e ▸ h))
    refine ⟨_, runTasks_passive _ _ _ hpass, ?_⟩
    have hlen : (sched (tasksOf c l v ps)).length ≤ ps.length := by
      rw [← (tasksOf_length (c := c) (p := v) hr).1]
      exact hs.length_le
    rw [hsplit] at hlen
    simp only [List.length_append, List.length_cons] at hlen ⊢
    omega
  · simp only [Event.TriggerAsync, hta, except_ok_bind, hrun, except_error_bind]

/-- C15 (amended) at the state after `On(1); On(2); On(3)`, where callback `2` panics and
the goroutines run in reverse launch order. -/
theorem triggerAsync_panic_ends_run_witness :
    Event.triggerAsync 4 (.ev 0) (.data 7) 0 sample3 =
      .ok ((([0, 1, 2] : List Nat).length : Int),
        tasksOf (.ev 0) sample3List (.data 7) [0, 1, 2], sample3) ∧
    (⟨.ev 0, .elem 1, .fn 2, .data 7⟩ : Task) ∈
      tasksOf (.ev 0) sample3List (.data 7) [0, 1, 2] ∧
    (∀ (wg : Int) (w0 : World),
      runTask (fun f => if f = 2 then [.fault] else []) 4 ⟨.ev 0, .elem 1, .fn 2, .data 7⟩ wg
        w0 = .error (.panic { w0 with log := w0.log ++ [⟨.ev 0, .elem 1, 2, .data 7⟩] })) ∧
    (∃ A B, List.reverse (tasksOf (.ev 0) sample3List (.data 7) [0, 1, 2]) =
        A ++ ⟨.ev 0, .elem 1, .fn 2, .data 7⟩ :: B ∧
      ∃ wg, runTasks (fun f => if f = 2 then [.fault] else []) 4 (A ++ B)
          ([0, 1, 2] : List Nat).length sample3 =
          .ok (wg, { sample3 with log := sample3.log ++ (A ++ B).filterMap Task.call }) ∧
        0 < wg) ∧
    Event.TriggerAsync (fun f => if f = 2 then [.fault] else []) 4 List.reverse (.ev 0)
      (.data 7) sample3 = .error (.panic { sample3 with
        log := sample3.log ++
          (List.reverse (tasksOf (.ev 0) sample3List (.data 7) [0, 1, 2])).filterMap
            Task.call }) :=
  triggerAsync_panic_ends_run (fun f => if f = 2 then [.fault] else []) (.ev 0) (.data 7)
    sample3 sample3List [0, 1, 2] 1 4 List.reverse (.fn 2) (2, .data 7) [] rfl repr_sample3
    (by decide) rfl rfl rfl
    (fun k hk => by
      have hk' : k = 0 ∨ k = 2 := by simpa using hk
      rcases hk' with rfl | rfl
      · exact ⟨.fn 1, (1, .data 7), rfl, rfl, rfl⟩
      · exact ⟨.fn 3, (3, .data 7), rfl, rfl, rfl⟩)
    (List.reverse_perm _).subperm (by decide) (by decide)

/-- C16: a pass of `Trigger(v)` over the slots `pre ++ m :: post` in which the callback of
slot `m` panics, the callbacks before it only returning: `Trigger` ends with that panic right
after the call from slot `m`; the slots of `post` are not called; in the state the panic
leaves behind the channel is unlocked and holds the same list, and `On` on it returns. -/
theorem fault_propagates_at_once (beh : Nat → List Act) (c : Chan) (v : Payload) (w : World)
    (l : GoList) (pre post : List Nat) (m fuel : Nat) (s : Sub) (t : Nat × Payload)
    (rest : List Act)
    (he : w.getEvent c = some ⟨false, l⟩) (hr : Repr l (pre ++ m :: post))
    (hpre : Passive beh l v pre)
    (hm : l.valueAt m = some s) (ht : s.target v = some t) (hb : beh t.1 = .fault :: rest)
    (hfuel : (pre ++ m :: post).length < fuel) :
    ∃ w1, Event.Trigger beh fuel c v w = .error (.panic w1) ∧
      w1.log = w.log ++ (callsOf c l v pre ++ [⟨c, .elem m, t.1, t.2⟩]) ∧
      w1.getEvent c = some ⟨false, l⟩ ∧ w1.events = w.events ∧ w1.reg = w.reg ∧
      w1.handles = w.handles ∧
      ∀ g, ∃ h w2, Event.On c g w1 = .ok (h, w2) := by
  obtain ⟨F, rfl⟩ : ∃ F, fuel = pre.length + (F + 1) :=
    ⟨fuel - pre.length - 1, by simp at hfuel; omega⟩
  obtain ⟨w3, hw3⟩ : ∃ w3 : World, w3 = { w with
    log := w.log ++ callsOf c l v pre ++ [⟨c, .elem m, t.1, t.2⟩] } := ⟨_, rfl⟩
  have he3 : w3.getEvent c = some ⟨false, l⟩ := by rw [hw3]; exact he
  have e1 := World.getEvent_setEvent_same he ⟨true, l⟩
  have e2 : onList c (w.setEvent c ⟨true, l⟩) (fun l => some (l, l.Front)) =
      .ok (headP (pre ++ m :: post) .null, (w.setEvent c ⟨true, l⟩).setEvent c ⟨true, l⟩) :=
    onList_ok e1 _ (by rw [hr.front])
  have hseg := @triggerLoop_seg beh c v l pre [] (m :: post) (F + 1)
    (w.setEvent c ⟨true, l⟩) e1 (by simpa using hr)
    (by rw [World.setEvent_handles]; exact passive_calm hpre _)
  have hhead : headP (m :: post) Ptr.null = .elem m := rfl
  rw [hhead] at hseg
  have e3 : ({ w.setEvent c ⟨true, l⟩ with
      log := (w.setEvent c ⟨true, l⟩).log ++ callsOf c l v pre } : World).getEvent c =
      some ⟨true, l⟩ := (World.getEvent_withLog _ _ _).trans e1
  have e4 : ({ ({ w.setEvent c ⟨true, l⟩ with
      log := (w.setEvent c ⟨true, l⟩).log ++ callsOf c l v pre } : World).setEvent c
        ⟨false, l⟩ with
      log := (({ w.setEvent c ⟨true, l⟩ with
        log := (w.setEvent c ⟨true, l⟩).log ++ callsOf c l v pre } : World).setEvent c
          ⟨false, l⟩).log ++ [⟨c, .elem m, t.1, t.2⟩] } : World) = w3 := by
    rw [hw3, World.setEvent_withLog, World.setEvent_setEvent, World.setEvent_self he,
      World.setEvent_log]
  have htr : Event.Trigger beh (pre.length + (F + 1)) c v w = .error (.panic w3) := by
    simp only [Event.Trigger, lock_ok he, except_ok_bind, e2, World.setEvent_setEvent, hseg]
    rw [triggerLoop_elem e3 hm, callSub_eq, ht]
    simp only [callUser, hb, runActs]
    rw [e4]
    rfl
  refine ⟨w3, htr, by rw [hw3]; simp [List.append_assoc], he3, by rw [hw3], by rw [hw3],
    by rw [hw3], fun g => ?_⟩
  obtain ⟨r, -, -, -, -, hon⟩ := Event.On_spec he3 hr g
  exact ⟨_, _, hon⟩

/-- C16 at the state after `On(1); On(2); On(3)`, where callback `2` panics. -/
theorem fault_propagates_at_once_witness :
    ∃ w1, Event.Trigger (fun f => if f = 2 then [.fault] else []) 4 (.ev 0) (.data 7) sample3 =
        .error (.panic w1) ∧
      w1.log = sample3.log ++ (callsOf (.ev 0) sample3List (.data 7) [0] ++
        [⟨.ev 0, .elem 1, 2, .data 7⟩]) ∧
      w1.getEvent (.ev 0) = some ⟨false, sample3List⟩ ∧ w1.events = sample3.events ∧
      w1.reg = sample3.reg ∧ w1.handles = sample3.handles ∧
      ∀ g, ∃ h w2, Event.On (.ev 0) g w1 = .ok (h, w2) :=
  fault_propagates_at_once (fun f => if f = 2 then [.fault] else []) (.ev 0) (.data 7) sample3
    sample3List [0] [2] 1 4 (.fn 2) (2, .data 7) [] rfl repr_sample3
    (fun k hk => by
      have hk' : k = 0 := by simpa using hk
      subst hk'
      exact ⟨.fn 1, (1, .data 7), rfl, rfl, rfl⟩)
    rfl rfl rfl (by decide)

/-- C17: a pass of `Trigger(v)` over the slots `pre ++ m :: post` in which the callback of
slot `m` calls `On(g)` on the same channel, `g` and all other callbacks only returning: the
pass returns, and after the calls of `pre`, `m` and `post` it calls `g(v)` from the new slot,
in that same pass. -/
theorem subscribed_during_pass_is_visited (beh : Nat → List Act) (c : Chan) (v : Payload)
    (w : World) (l : GoList) (pre post : List Nat) (m g fuel : Nat) (s : Sub)
    (t : Nat × Payload)
    (he : w.getEvent c = some ⟨false, l⟩) (hr : Repr l (pre ++ m :: post))
    (hpre : Passive beh l v pre) (hpost : Passive beh l v post)
    (hm : l.valueAt m = some s) (ht : s.target v = some t) (hb : beh t.1 = [.on c g])
    (hg : beh g = []) (hfuel : (pre ++ m :: post).length + 1 < fuel) :
    ∃ w1 r, Event.Trigger beh fuel c v w = .ok w1 ∧
      w1.log = w.log ++ (callsOf c l v pre ++ ⟨c, .elem m, t.1, t.2⟩ ::
        (callsOf c l v post ++ [⟨c, .elem l.arena.length, g, v⟩])) ∧
      w1.getEvent c = some ⟨false, r⟩ ∧ Repr r (pre ++ m :: post ++ [l.arena.length]) := by
  obtain ⟨F, rfl⟩ : ∃ F, fuel = pre.length + (F + 1) :=
    ⟨fuel - pre.length - 1, by simp at hfuel; omega⟩
  have hF : post.length + 1 < F := by simp at hfuel; omega
  obtain ⟨w3, hw3⟩ : ∃ w3 : World, w3 = { w with
    log := w.log ++ callsOf c l v pre ++ [⟨c, .elem m, t.1, t.2⟩] } := ⟨_, rfl⟩
  have he3 : w3.getEvent c = some ⟨false, l⟩ := by rw [hw3]; exact he
  obtain ⟨r, hrr, hlen, hvg, hold, hon⟩ := Event.On_spec he3 hr (.fn g)
  have e1 := World.getEvent_setEvent_same he ⟨true, l⟩
  have e2 : onList c (w.setEvent c ⟨true, l⟩) (fun l => some (l, l.Front)) =
      .ok (headP (pre ++ m :: post) .null, (w.setEvent c ⟨true, l⟩).setEvent c ⟨true, l⟩) :=
    onList_ok e1 _ (by rw [hr.front])
  have hseg := @triggerLoop_seg beh c v l pre [] (m :: post) (F + 1)
    (w.setEvent c ⟨true, l⟩) e1 (by simpa using hr)
    (by rw [World.setEvent_handles]; exact passive_calm hpre _)
  have hhead : headP (m :: post) Ptr.null = .elem m := rfl
  rw [hhead] at hseg
  have e3 : ({ w.setEvent c ⟨true, l⟩ with
      log := (w.setEvent c ⟨true, l⟩).log ++ callsOf c l v pre } : World).getEvent c =
      some ⟨true, l⟩ := (World.getEvent_withLog _ _ _).trans e1
  have e4 : ({ ({ w.setEvent c ⟨true, l⟩ with
      log := (w.setEvent c ⟨true, l⟩).log ++ callsOf c l v pre } : World).setEvent c
        ⟨false, l⟩ with
      log := (({ w.setEvent c ⟨true, l⟩ with
        log := (w.setEvent c ⟨true, l⟩).log ++ callsOf c l v pre } : World).setEvent c
          ⟨false, l⟩).log ++ [⟨c, .elem m, t.1, t.2⟩] } : World) = w3 := by
    rw [hw3, World.setEvent_withLog, World.setEvent_setEvent, World.setEvent_self he,
      World.setEvent_log]
  have e5 : ({ w3.setEvent c ⟨false, r⟩ with
      handles := w3.handles ++ [.single c (.elem l.arena.length) false] } : World) =
      { w.setEvent c ⟨false, r⟩ with
        handles := w.handles ++ [.single c (.elem l.arena.length) false],
        log := w.log ++ callsOf c l v pre ++ [⟨c, .elem m, t.1, t.2⟩] } := by
    rw [hw3]; cases c <;> rfl
  have hrr' : Repr r (pre ++ m :: (post ++ [l.arena.length])) := by
    simpa [List.append_assoc] using hrr
  have holdp : ∀ k ∈ post, r.valueAt k = l.valueAt k := fun k hk =>
    hold k (Nat.ne_of_lt (hr.lt (by simp [hk])))
  have hp2 : Passive beh r v (post ++ [l.arena.length]) :=
    passive_append (passive_congr hpost holdp) (passive_single hvg hg)
  have e6 := onList_ok (World.st_getEvent he ⟨true, r⟩
    (w.handles ++ [.single c (.elem l.arena.length) false])
    (w.log ++ callsOf c l v pre ++ [⟨c, .elem m, t.1, t.2⟩]))
    (fun l => (l.Next (.elem m)).map fun i => (l, i))
    (show _ = some (r, headP (post ++ [l.arena.length]) .null) by simp [hrr'.next_mem])
  obtain ⟨j, rfl⟩ : ∃ j, F = (post ++ [l.arena.length]).length + (j + 1) :=
    ⟨F - (post ++ [l.arena.length]).length - 1, by simp; omega⟩
  have hseg2 := @triggerLoop_seg beh c v r (post ++ [l.arena.length]) (pre ++ [m]) [] (j + 1)
    { w.setEvent c ⟨true, r⟩ with
      handles := w.handles ++ [.single c (.elem l.arena.length) false],
      log := w.log ++ callsOf c l v pre ++ [⟨c, .elem m, t.1, t.2⟩] }
    (World.st_getEvent he _ _ _) (by simpa [List.append_assoc] using hrr) (passive_calm hp2 _)
  simp only [List.append_nil] at hseg2
  have hnull : headP [] Ptr.null = Ptr.null := rfl
  have htr : Event.Trigger beh (pre.length + ((post ++ [l.arena.length]).length + (j + 1) + 1))
      c v w = .ok { w.setEvent c ⟨false, r⟩ with
        handles := w.handles ++ [.single c (.elem l.arena.length) false],
        log := w.log ++ callsOf c l v pre ++ [⟨c, .elem m, t.1, t.2⟩] ++
          callsOf c r v (post ++ [l.arena.length]) } := by
    simp only [Event.Trigger, lock_ok he, except_ok_bind, e2, World.setEvent_setEvent, hseg]
    rw [triggerLoop_elem e3 hm, callSub_eq, ht]
    simp only [callUser, hb, runActs]
    rw [e4, hon]
    simp only [except_ok_bind, except_pure]
    rw [e5, lock_ok (World.st_getEvent he _ _ _), World.st_setEvent]
    simp only [except_ok_bind]
    rw [e6]
    simp only [except_ok_bind, World.st_setEvent]
    rw [hseg2, hnull, triggerLoop_null, unlock_ok (World.st_getEvent he _ _ _),
      World.st_setEvent]
  refine ⟨_, r, htr, ?_, World.st_getEvent he _ _ _, by simpa [List.append_assoc] using hrr⟩
  show w.log ++ callsOf c l v pre ++ [_] ++ callsOf c r v (post ++ [l.arena.length]) = _
  rw [callsOf_append, callsOf_congr c v post holdp, callsOf_single hvg]
  simp [List.append_assoc]

/-- C17 at the state after `On(1); On(2); On(3)`, where callback `2` calls `On(9)`. -/
theorem subscribed_during_pass_is_visited_witness :
    ∃ w1 r, Event.Trigger (fun f => if f = 2 then [.on (.ev 0) 9] else []) 5 (.ev 0) (.data 7)
        sample3 = .ok w1 ∧
      w1.log = sample3.log ++ (callsOf (.ev 0) sample3List (.data 7) [0] ++
        ⟨.ev 0, .elem 1, 2, .data 7⟩ ::
          (callsOf (.ev 0) sample3List (.data 7) [2] ++
            [⟨.ev 0, .elem sample3List.arena.length, 9, .data 7⟩])) ∧
      w1.getEvent (.ev 0) = some ⟨false, r⟩ ∧
      Repr r ([0] ++ 1 :: [2] ++ [sample3List.arena.length]) :=
  subscribed_during_pass_is_visited (fun f => if f = 2 then [.on (.ev 0) 9] else []) (.ev 0)
    (.data 7) sample3 sample3List [0] [2] 1 9 5 (.fn 2) (2, .data 7) rfl repr_sample3
    (fun k hk => by
      have hk' : k = 0 := by simpa using hk
      subst hk'
      exact ⟨.fn 1, (1, .data 7), rfl, rfl, rfl⟩)
    (fun k hk => by
      have hk' : k = 2 := by simpa using hk
      subst hk'
      exact ⟨.fn 3, (3, .data 7), rfl, rfl, rfl⟩)
    rfl rfl rfl rfl (by decide)

/-- C18: whatever the callbacks do, when a sequence of `On`, `Subscribe`, `SubscribeTo`,
`Trigger`, `TriggerAsync` and `Unsubscribe` calls returns, every name that was mapped to an
event before the sequence is mapped to the very same event after it. -/
theorem registry_map_only_grows (beh : Nat → List Act) (fuel : Nat)
    (sched : List Task → List Task) (ops : List Op) (w w1 : World) (n : String) (i : Nat)
    (h : runOps beh fuel sched ops w = .ok w1) (hn : Events.lookup w n = some i) :
    Events.lookup w1 n = some i := by
  induction ops generalizing w with
  | nil =>
    cases h
    exact hn
  | cons op ops ih =>
    unfold runOps at h
    obtain ⟨wa, h1, h2⟩ := except_bind_ok h
    exact ih wa h2 (Op.run_grows h1 n i hn)

/-- C18 at the sample registry and the calls `On("c", 4); Trigger("a", 5); Unsubscribe of the
first closure; SubscribeTo(9, "a", "d"); TriggerAsync("b", 6)`. -/
theorem registry_map_only_grows_witness :
    ∃ w1, runOps (fun _ => []) 4 id
        [.on "c" 4, .trigger "a" 5, .unsub 0, .subscribeTo 9 ["a", "d"], .triggerAsync "b" 6]
        sampleReg = .ok w1 ∧
      Events.lookup w1 "a" = some 0 :=
  ⟨_, rfl, registry_map_only_grows (fun _ => []) 4 id
    [.on "c" 4, .trigger "a" 5, .unsub 0, .subscribeTo 9 ["a", "d"], .triggerAsync "b" 6]
    sampleReg _ "a" 0 rfl rfl⟩

/-- C19: `getSubscribers` run after `lazyInit` always finds an allocated map and returns;
`lazyInit` leaves an allocated map as it is; starting from the zero-value registry every
sequence of `On`, `Subscribe` and `SubscribeTo` calls returns and leaves a registry at rest;
and on a registry at rest `Trigger` and `TriggerAsync` of a name without subscribers, with
no catch-all subscriber, return without calling anything, whatever the callbacks are. -/
theorem fresh_registry_never_fails (beh : Nat → List Act) (fuel : Nat)
    (sched : List Task → List Task) (ops : List Op) (n : String) (v : Nat)
    (hops : ∀ op ∈ ops, op.subscribes = true) (hs : ∀ ts, (sched ts).Perm ts)
    (hfuel : 0 < fuel) :
    (∀ w name, ∃ i wa, Events.getSubscribers name (Events.lazyInit w) = .ok (i, wa)) ∧
    (∀ w m, w.reg.list = some m → Events.lazyInit w = w) ∧
    (∃ w1, runOps beh fuel sched ops World.zero = .ok w1 ∧ Good w1) ∧
    ∀ w, Good w → Repr (Events.subs w n) [] → Repr w.reg.all.subscribers [] →
      (∃ w2, Events.Trigger beh fuel n v w = .ok w2 ∧ w2.log = w.log) ∧
      ∃ w2, Events.TriggerAsync beh fuel sched n v w = .ok w2 ∧ w2.log = w.log := by
  refine ⟨?_, ?_, ?_, ?_⟩
  · intro w name
    unfold Events.getSubscribers
    cases hl : Events.lookup (Events.lazyInit w) name with
    | some i => exact ⟨i, _, rfl⟩
    | none =>
      simp only [Events.lazyInit_list]
      exact ⟨_, _, rfl⟩
  · intro w m hm
    simp [Events.lazyInit, hm]
  · have key : ∀ (ops : List Op) (w : World), Good w → (∀ op ∈ ops, op.subscribes = true) →
        ∃ w1, runOps beh fuel sched ops w = .ok w1 ∧ Good w1 := by
      intro ops
      induction ops with
      | nil => intro w hg _; exact ⟨w, rfl, hg⟩
      | cons op ops ih =>
        intro w hg hall
        obtain ⟨wa, h1, hga⟩ := @Op.run_good beh fuel sched op w hg (hall op (by simp))
        obtain ⟨w1, h2, hg1⟩ := ih wa hga (fun o ho => hall o (by simp [ho]))
        exact ⟨w1, by simp only [runOps, h1, except_ok_bind, h2], hg1⟩
    exact key ops World.zero good_zero hops
  · intro w hg hN hA
    have hnil : ∀ (l : GoList) (p : Payload), Passive beh l p [] := fun _ _ _ hk => by
      simp at hk
    refine ⟨⟨_, Events.Trigger_calls hg.mtx hg.wf hN (hnil _ _) hg.all_mtx hA (hnil _ _)
      hfuel hfuel, ?_⟩, ⟨_, Events.TriggerAsync_calls hg.mtx hg.wf hN (hnil _ _) hg.all_mtx hA
      (hnil _ _) hs hfuel hfuel, ?_⟩⟩
    · simp [callsOf]
    · have h0 : sched [] = [] := List.Perm.eq_nil (hs [])
      simp [tasksOf, h0]

/-- C19 at the calls `On("a", 1); SubscribeTo(2, "a", "b"); Subscribe(3); SubscribeTo(4)`
and the name `"z"`. -/
theorem fresh_registry_never_fails_witness :
    (∀ w name, ∃ i wa, Events.getSubscribers name (Events.lazyInit w) = .ok (i, wa)) ∧
    (∀ w m, w.reg.list = some m → Events.lazyInit w = w) ∧
    (∃ w1, runOps (fun _ => []) 1 id
        [.on "a" 1, .subscribeTo 2 ["a", "b"], .subscribe 3, .subscribeTo 4 []] World.zero =
          .ok w1 ∧ Good w1) ∧
    ∀ w, Good w → Repr (Events.subs w "z") [] → Repr w.reg.all.subscribers [] →
      (∃ w2, Events.Trigger (fun _ => []) 1 "z" 5 w = .ok w2 ∧ w2.log = w.log) ∧
      ∃ w2, Events.TriggerAsync (fun _ => []) 1 id "z" 5 w = .ok w2 ∧ w2.log = w.log :=
  fresh_registry_never_fails (fun _ => []) 1 id
    [.on "a" 1, .subscribeTo 2 ["a", "b"], .subscribe 3, .subscribeTo 4 []] "z" 5
    (by decide) (fun ts => List.Perm.refl ts) (by decide)

end GoEvent
